import Mathlib

/-!
Verification of the core linear-algebra and SDP-assembly layer of the
`sdpb` repository (`main.cpp` and the later `src/` layering) against its
natural-language specification.

The arbitrary-precision scalar `Real` (an mpf float) is modelled by `ℚ`:
every property checked here is an exact arithmetic identity or a purely
structural property of the code, so the rational model is faithful to the
real-number reading of the spec.  `Matrix` keeps the source's flat
column-major element buffer (`elements[r + c*rows]`), modelled as a total
function `ℕ → ℚ`; `Vector` (a `std::vector<Real>`) is a `List ℚ`.
Imperative loops that write into a matrix are modelled as left folds over
the list of writes the loop performs, in the loop's order.
-/

namespace SDPB

/-- `typedef mpf_class Real` — modelled as `ℚ`. -/
abbrev Real := ℚ

/-- `typedef vector<Real> Vector`. -/
abbrev Vector := List Real

/-- `class Matrix` from `main.cpp`: `rows`, `cols` and the flat
column-major element buffer `elements` (entry `(r,c)` lives at
`r + c*rows`). -/
structure Matrix where
  rows : ℕ
  cols : ℕ
  elements : ℕ → Real

/-- The all-zero 0×0 matrix, used as the default for list lookups. -/
def matrixD : Matrix := ⟨0, 0, fun _ => 0⟩

/-- `Matrix::get(r,c) = elements[r + c*rows]`. -/
def Matrix.get (M : Matrix) (r c : ℕ) : Real :=
  M.elements (r + c * M.rows)

/-- `Matrix::set(r,c,a)`: `elements[r + c*rows] = a`. -/
def Matrix.set (M : Matrix) (r c : ℕ) (a : Real) : Matrix :=
  { M with elements := fun i => if i = r + c * M.rows then a else M.elements i }

/-- `Matrix::addElt(r,c,a)`: `elements[r + c*rows] += a`. -/
def Matrix.addElt (M : Matrix) (r c : ℕ) (a : Real) : Matrix :=
  { M with elements := fun i => if i = r + c * M.rows then M.elements i + a else M.elements i }

/-- `Matrix::operator+=`: elementwise addition of the two buffers. -/
def Matrix.add (M A : Matrix) : Matrix :=
  { M with elements := fun i => M.elements i + A.elements i }

/-- A matrix is symmetric when its in-range entries agree with their
transposes. -/
def Matrix.IsSymm (M : Matrix) : Prop :=
  ∀ r < M.rows, ∀ c < M.cols, M.get r c = M.get c r

instance (M : Matrix) : Decidable M.IsSymm := by
  unfold Matrix.IsSymm; infer_instance

/-- A list of `set` writes `(row, col, value)` applied in order, as a
loop of `Matrix::set` calls performs them. -/
def applySets (M : Matrix) (ws : List (ℕ × ℕ × Real)) : Matrix :=
  ws.foldl (fun A w => A.set w.1 w.2.1 w.2.2) M

/-- A list of writes `(index, value)` applied in order to a
`vector<Real>`. -/
def applyVSets (v : Vector) (ws : List (ℕ × Real)) : Vector :=
  ws.foldl (fun v w => v.set w.1 w.2) v

/-- A list of `addElt` updates `(row, col, delta)` applied in order. -/
def applyAdds (M : Matrix) (ws : List (ℕ × ℕ × Real)) : Matrix :=
  ws.foldl (fun A w => A.addElt w.1 w.2.1 w.2.2) M

/-- `Matrix::symmetrize()`: for every pair `c < r` replace both entries by
their average; the diagonal is untouched.  One step of the loop. -/
def symStep (A : Matrix) (pr : ℕ × ℕ) : Matrix :=
  let tmp := (A.get pr.1 pr.2 + A.get pr.2 pr.1) / 2
  (A.set pr.1 pr.2 tmp).set pr.2 pr.1 tmp

/-- The pairs `(r, c)` with `c < r < rows`, in the loop's order. -/
def symPairs (rows : ℕ) : List (ℕ × ℕ) :=
  (List.range rows).flatMap (fun r => (List.range r).map (fun c => (r, c)))

/-- `Matrix::symmetrize()` from `main.cpp`. -/
def Matrix.symmetrize (M : Matrix) : Matrix :=
  (symPairs M.rows).foldl symStep M

/-- `maxAbsVectorElement` reads `v[0]` unconditionally, so it is only
defined on a non-empty vector; the out-of-bounds read on `[]` is modelled
as `none`. -/
def maxAbsVectorElement : Vector → Option Real
  | [] => none
  | x :: xs => some ((x :: xs).foldl (fun m e => if |e| > m then |e| else m) |x|)

/-- The flat element buffer of a `Matrix`, as the `vector<Real>` that
`Matrix::elements` holds (length `rows*cols`). -/
def Matrix.buffer (M : Matrix) : Vector :=
  (List.range (M.rows * M.cols)).map M.elements

/-- `Matrix::maxAbsElement() = maxAbsVectorElement(elements)`. -/
def Matrix.maxAbsElement (M : Matrix) : Option Real :=
  maxAbsVectorElement M.buffer

/-- `dotProduct(u, v)`: sum of componentwise products over `u`'s length. -/
def dotProduct (u v : Vector) : Real :=
  (List.zipWith (· * ·) u v).sum

/-- `frobeniusProductSymmetric(A, B)` on `Matrix`: twice the strict upper
triangle plus the diagonal. -/
def Matrix.frobeniusProductSymmetric (A B : Matrix) : Real :=
  2 * ∑ c ∈ Finset.range A.cols, ∑ r ∈ Finset.range c, A.get r c * B.get r c
    + ∑ r ∈ Finset.range A.rows, A.get r r * B.get r r

/-- `frobeniusProductOfSums(X, dX, Y, dY)` on `Matrix`: the fused
`(X+dX).(Y+dY)` without forming the sums. -/
def Matrix.frobeniusProductOfSums (X dX Y dY : Matrix) : Real :=
  2 * ∑ c ∈ Finset.range X.cols, ∑ r ∈ Finset.range c,
      (X.get r c + dX.get r c) * (Y.get r c + dY.get r c)
    + ∑ r ∈ Finset.range X.rows, (X.get r r + dX.get r r) * (Y.get r r + dY.get r r)

/-- `class BlockDiagonalMatrix`: a diagonal prefix and a list of square
blocks. -/
structure BlockDiagonalMatrix where
  diagonalPart : Vector
  blocks : List Matrix

/-- `BlockDiagonalMatrix::dim` as set by the constructor:
`diagonalSize + Σ blockSizes`. -/
def BlockDiagonalMatrix.dim (A : BlockDiagonalMatrix) : ℕ :=
  A.diagonalPart.length + (A.blocks.map Matrix.rows).sum

/-- `BlockDiagonalMatrix::operator+=`. -/
def BlockDiagonalMatrix.add (A B : BlockDiagonalMatrix) : BlockDiagonalMatrix :=
  ⟨List.zipWith (· + ·) A.diagonalPart B.diagonalPart,
   List.zipWith Matrix.add A.blocks B.blocks⟩

/-- `BlockDiagonalMatrix::symmetrize()`: symmetrize every block, leave the
diagonal prefix untouched. -/
def BlockDiagonalMatrix.symmetrize (A : BlockDiagonalMatrix) : BlockDiagonalMatrix :=
  ⟨A.diagonalPart, A.blocks.map Matrix.symmetrize⟩

/-- `frobeniusProductSymmetric` on `BlockDiagonalMatrix`. -/
def BlockDiagonalMatrix.frobeniusProductSymmetric (A B : BlockDiagonalMatrix) : Real :=
  dotProduct A.diagonalPart B.diagonalPart
    + (List.zipWith Matrix.frobeniusProductSymmetric A.blocks B.blocks).sum

/-- `frobeniusProductOfSums` on `BlockDiagonalMatrix` (the fused
`(X+dX).(Y+dY)` of `main.cpp` lines 614–626). -/
def BlockDiagonalMatrix.frobeniusProductOfSums (X dX Y dY : BlockDiagonalMatrix) : Real :=
  (∑ i ∈ Finset.range X.diagonalPart.length,
      (X.diagonalPart.getD i 0 + dX.diagonalPart.getD i 0)
        * (Y.diagonalPart.getD i 0 + dY.diagonalPart.getD i 0))
    + ∑ b ∈ Finset.range X.blocks.length,
        Matrix.frobeniusProductOfSums (X.blocks.getD b matrixD) (dX.blocks.getD b matrixD)
          (Y.blocks.getD b matrixD) (dY.blocks.getD b matrixD)

/-- `BlockDiagonalMatrix::maxAbsElement()`: starts from
`maxAbsVectorElement(diagonalPart)` (so an empty diagonal prefix is an
out-of-bounds read), then folds in each block's `maxAbsElement`. -/
def BlockDiagonalMatrix.maxAbsElement (A : BlockDiagonalMatrix) : Option Real :=
  match maxAbsVectorElement A.diagonalPart with
  | none => none
  | some m0 =>
    A.blocks.foldl
      (fun acc b =>
        match acc, b.maxAbsElement with
        | some m, some tmp => some (if tmp > m then tmp else m)
        | _, _ => none)
      (some m0)

/-! ### The SDP data model of `main.cpp` -/

/-- `class SDP` from `main.cpp` (the earlier of the two SDP layerings in
the repository, the one the `main.cpp` solver operates on). -/
structure SDP where
  bilinearBases : List Matrix
  numConstraints : ℕ
  objDimension : ℕ
  polMatrixValues : Matrix
  affineConstants : Vector
  objective : Vector
  dimensions : List ℕ
  degrees : List ℕ
  blocks : List (List ℕ)

/-- `class IndexTuple { int p; int r; int s; int k; }`. -/
structure IndexTuple where
  p : ℕ
  r : ℕ
  s : ℕ
  k : ℕ
deriving DecidableEq

/-- Innermost `k` loop of the constraint-index enumeration: push
`IndexTuple(p, r, s, k)` for `k = 0..deg`, incrementing `p` each time. -/
def tuplesForK (deg r s p : ℕ) : List IndexTuple × ℕ :=
  (List.range (deg + 1)).foldl (fun st k => (st.1 ++ [⟨st.2, r, s, k⟩], st.2 + 1)) ([], p)

/-- `r` loop: for `r = 0..s` run the `k` loop, threading `p`. -/
def tuplesForR (deg s p : ℕ) : List IndexTuple × ℕ :=
  (List.range (s + 1)).foldl
    (fun st r => let t := tuplesForK deg r s st.2; (st.1 ++ t.1, t.2)) ([], p)

/-- `s` loop: for `s = 0..dim-1` run the `r` loop, threading `p`. -/
def tuplesForGroup (dim deg p : ℕ) : List IndexTuple × ℕ :=
  (List.range dim).foldl
    (fun st s => let t := tuplesForR deg s st.2; (st.1 ++ t.1, t.2)) ([], p)

/-- `constraintIndexTuples` as built by the `SDPSolver` constructor
(`main.cpp` 1031–1044), identically `SDP::initializeConstraintIndices` in
`src/SDP.h`: per group `j`, tuples `(p, r, s, k)` for `s < dimensions[j]`,
`r ≤ s`, `k ≤ degrees[j]`, with one global running index `p`. -/
def initializeConstraintIndices (dimensions degrees : List ℕ) : List (List IndexTuple) :=
  ((List.range dimensions.length).foldl
    (fun (st : List (List IndexTuple) × ℕ) j =>
      let t := tuplesForGroup (dimensions.getD j 0) (degrees.getD j 0) st.2
      (st.1 ++ [t.1], t.2))
    ([], 0)).1

/-- Number of `(s, r)` runs in a group of dimension `dim`:
`Σ_{s<dim} (s+1)`. -/
def triangle (dim : ℕ) : ℕ := ∑ s ∈ Finset.range dim, (s + 1)

/-- Offset of tuple `(r, s, k)` from the start of its group's `p` range. -/
def tupleOffset (deg s r k : ℕ) : ℕ := triangle s * (deg + 1) + r * (deg + 1) + k

/-- Number of tuples a group of dimension `dim` and degree `deg`
contributes. -/
def tupleCount (dim deg : ℕ) : ℕ := triangle dim * (deg + 1)

/-- The `p` value at which group `j`'s tuples start. -/
def startOffset (dimensions degrees : List ℕ) (j : ℕ) : ℕ :=
  ∑ i ∈ Finset.range j, tupleCount (dimensions.getD i 0) (degrees.getD i 0)

/-- Closed form of one group's tuple list (proved equal to the state-passing
loops below). -/
def groupTuples (p0 dim deg : ℕ) : List IndexTuple :=
  (List.range dim).flatMap (fun s =>
    (List.range (s + 1)).flatMap (fun r =>
      (List.range (deg + 1)).map
        (fun k => ⟨p0 + triangle s * (deg + 1) + r * (deg + 1) + k, r, s, k⟩)))

/-- Strict lexicographic order on `(ℕ × ℕ × ℕ)` triples. -/
def lexLt3 (a b : ℕ × ℕ × ℕ) : Prop :=
  a.1 < b.1 ∨ (a.1 = b.1 ∧ (a.2.1 < b.2.1 ∨ (a.2.1 = b.2.1 ∧ a.2.2 < b.2.2)))

instance (a b : ℕ × ℕ × ℕ) : Decidable (lexLt3 a b) := by
  unfold lexLt3; infer_instance

/-! ### Schur-complement assembly and residues (`main.cpp`) -/

/-- The per-pair accumulated quantity of `addSchurBlocks`: the sum over
`b ∈ blocks[j]` of the four bilinear-pairing products, each divided
by 4, exactly as the inner loop of `main.cpp` 1176–1182 accumulates it. -/
def schurTmp (sdp : SDP) (bilinearPairingsXInv bilinearPairingsY : BlockDiagonalMatrix)
    (j : ℕ) (t1 t2 : IndexTuple) : Real :=
  let ej := sdp.degrees.getD j 0 + 1
  (sdp.blocks.getD j []).foldl
    (fun acc b =>
      acc +
        ((bilinearPairingsXInv.blocks.getD b matrixD).get (t1.s * ej + t1.k) (t2.r * ej + t2.k)
            * (bilinearPairingsY.blocks.getD b matrixD).get (t2.s * ej + t2.k) (t1.r * ej + t1.k)
          + (bilinearPairingsXInv.blocks.getD b matrixD).get (t1.r * ej + t1.k) (t2.r * ej + t2.k)
            * (bilinearPairingsY.blocks.getD b matrixD).get (t2.s * ej + t2.k) (t1.s * ej + t1.k)
          + (bilinearPairingsXInv.blocks.getD b matrixD).get (t1.s * ej + t1.k) (t2.s * ej + t2.k)
            * (bilinearPairingsY.blocks.getD b matrixD).get (t2.r * ej + t2.k) (t1.r * ej + t1.k)
          + (bilinearPairingsXInv.blocks.getD b matrixD).get (t1.r * ej + t1.k) (t2.s * ej + t2.k)
            * (bilinearPairingsY.blocks.getD b matrixD).get (t2.r * ej + t2.k) (t1.s * ej + t1.k))
          / 4)
    0

/-- The `+=` updates performed by `addSchurBlocks` (`main.cpp` 1151–1189),
in loop order: for each group `j`, each `t1` of the group, and each `t2`
of the group up to the first tuple with `p > t1.p` (the inner loop's early
exit), add `tmp` at `(t1.p, t2.p)` and, when `t2.p ≠ t1.p`, also at the
mirror `(t2.p, t1.p)`. -/
def schurUpdates (sdp : SDP) (bilinearPairingsXInv bilinearPairingsY : BlockDiagonalMatrix)
    (constraintIndexTuples : List (List IndexTuple)) : List (ℕ × ℕ × Real) :=
  (List.range sdp.dimensions.length).flatMap (fun j =>
    (constraintIndexTuples.getD j []).flatMap (fun t1 =>
      ((constraintIndexTuples.getD j []).takeWhile (fun t2 => decide (t2.p ≤ t1.p))).flatMap
        (fun t2 =>
          let tmp := schurTmp sdp bilinearPairingsXInv bilinearPairingsY j t1 t2
          (t1.p, t2.p, tmp) :: if t2.p ≠ t1.p then [(t2.p, t1.p, tmp)] else [])))

/-- `addSchurBlocks` (`main.cpp` 1151–1189). -/
def addSchurBlocks (sdp : SDP) (bilinearPairingsXInv bilinearPairingsY : BlockDiagonalMatrix)
    (constraintIndexTuples : List (List IndexTuple)) (schurComplement : Matrix) : Matrix :=
  applyAdds schurComplement
    (schurUpdates sdp bilinearPairingsXInv bilinearPairingsY constraintIndexTuples)

/-- Proof bookkeeping: what one `(t1, t2)` pair of `addSchurBlocks`
contributes to entry `(a, b)` of the Schur complement. -/
def schurContrib (sdp : SDP) (TX TY : BlockDiagonalMatrix) (j : ℕ) (t1 t2 : IndexTuple)
    (a b : ℕ) : Real :=
  (if t1.p = a ∧ t2.p = b then schurTmp sdp TX TY j t1 t2 else 0)
    + (if t2.p ≠ t1.p ∧ t2.p = a ∧ t1.p = b then schurTmp sdp TX TY j t1 t2 else 0)

/-- The value `computeDualResidues` leaves in `dualResidues[t.p]` for
tuple `t` of group `j`: the read-modify-write sequence of the source
(`= 0`, the two `-=` per block, `/= 2`, the `-=` per objective column,
the final `+=`) collapsed into one expression, in the source's order. -/
def dualResidueValue (sdp : SDP) (Y bilinearPairingsY : BlockDiagonalMatrix) (j : ℕ)
    (t : IndexTuple) : Real :=
  let ej := sdp.degrees.getD j 0 + 1
  let v1 := (sdp.blocks.getD j []).foldl
    (fun acc b =>
      acc - (bilinearPairingsY.blocks.getD b matrixD).get (t.r * ej + t.k) (t.s * ej + t.k)
          - (bilinearPairingsY.blocks.getD b matrixD).get (t.s * ej + t.k) (t.r * ej + t.k))
    0
  let v2 := v1 / 2
  let v3 := (List.range sdp.polMatrixValues.cols).foldl
    (fun acc n => acc - Y.diagonalPart.getD n 0 * sdp.polMatrixValues.get t.p n) v2
  v3 + sdp.affineConstants.getD t.p 0

/-- `computeDualResidues` (`main.cpp` 1191–1220): for each tuple
`(p, r, s, k)` of group `j`, `dualResidues[p]` accumulates
`-(Σ_b T_Y[b](ej·r+k, ej·s+k) + T_Y[b](ej·s+k, ej·r+k))`, is divided by 2,
gets `-Σ_n Y.diagonalPart[n]·polMatrixValues[p,n]`, and finally
`+ affineConstants[p]`. -/
def computeDualResidues (sdp : SDP) (Y bilinearPairingsY : BlockDiagonalMatrix)
    (constraintIndexTuples : List (List IndexTuple)) (dualResidues : Vector) : Vector :=
  (List.range sdp.dimensions.length).foldl
    (fun v j =>
      (constraintIndexTuples.getD j []).foldl
        (fun v t => v.set t.p (dualResidueValue sdp Y bilinearPairingsY j t))
        v)
    dualResidues

/-! ### Congruences (`main.cpp`) -/

/-- The accumulator `tmp` of `diagonalCongruenceTranspose` at region
position `(p, q)`: `Σ_n d[n]·V(p,n)·V(q,n)`. -/
def dctTmp (d : ℕ → Real) (V : Matrix) (p q : ℕ) : Real :=
  ∑ n ∈ Finset.range V.cols, d n * V.get p n * V.get q n

/-- The `set` writes of `diagonalCongruenceTranspose` (`main.cpp`
1081–1099), in loop order: for `p < V.rows`, `q ≤ p`, write
`Σ_n d[n]·V(p,n)·V(q,n)` at `(blockRow·V.rows+p, blockCol·V.rows+q)` and
mirror it inside the block when `p ≠ q`. -/
def dctWrites (d : ℕ → Real) (V : Matrix) (blockRow blockCol : ℕ) : List (ℕ × ℕ × Real) :=
  (List.range V.rows).flatMap (fun p =>
    (List.range (p + 1)).flatMap (fun q =>
      (blockRow * V.rows + p, blockCol * V.rows + q, dctTmp d V p q) ::
        if p ≠ q then [(blockRow * V.rows + q, blockCol * V.rows + p, dctTmp d V p q)]
        else []))

/-- `diagonalCongruenceTranspose` (`main.cpp` 1081–1099); `d` is the C
pointer to the start of a length-`V.cols` slice. -/
def diagonalCongruenceTranspose (d : ℕ → Real) (V : Matrix) (blockRow blockCol : ℕ)
    (result : Matrix) : Matrix :=
  applySets result (dctWrites d V blockRow blockCol)

/-- The `work = a b'` phase of `tensorMatrixCongruence` (`main.cpp`
430–443): every in-range entry of `work` is written, column by column. -/
def tmcWorkWrites (a b : Matrix) (workRows workCols : ℕ) : List (ℕ × ℕ × Real) :=
  (List.range workCols).flatMap (fun c =>
    (List.range workRows).map (fun r =>
      (r, c,
        ∑ k ∈ Finset.range b.rows, a.get r ((c / b.cols) * b.rows + k) * b.get k (c % b.cols))))

/-- The accumulator `tmp` of the `result = b'ᵀ work` phase (`main.cpp`
453–457) at position `(r, c)`. -/
def tmcTmp (b work : Matrix) (r c : ℕ) : Real :=
  ∑ k ∈ Finset.range b.rows,
    b.get k (r % b.cols) * work.get ((r / b.cols) * b.rows + k) c

/-- The `result = b'ᵀ work` phase of `tensorMatrixCongruence` (`main.cpp`
446–465): only the upper triangle `r ≤ c` is computed; each strictly-upper
value is copied to the mirror position `(c, r)`. -/
def tmcResultWrites (b work : Matrix) (resultCols : ℕ) : List (ℕ × ℕ × Real) :=
  (List.range resultCols).flatMap (fun c =>
    (List.range (c + 1)).flatMap (fun r =>
      (r, c, tmcTmp b work r c) :: if c ≠ r then [(c, r, tmcTmp b work r c)] else []))

/-- `tensorMatrixCongruence(a, b, work, result)` (`main.cpp` 420–466),
returning the final `result`. -/
def tensorMatrixCongruence (a b work result : Matrix) : Matrix :=
  let work2 := applySets work (tmcWorkWrites a b work.rows work.cols)
  applySets result (tmcResultWrites b work2 result.cols)

/-- The tensored basis `b' = b ⊗ 1_m` in the index layout the code uses:
row `v·ℓ + k` (copy `v < m`, basis row `k < ℓ = b.rows`), column `w·n + β`
(copy `w < m`, basis column `β < n = b.cols`). -/
def tensorBasis (b : Matrix) (m : ℕ) : Matrix :=
  { rows := b.rows * m
    cols := b.cols * m
    elements := fun idx =>
      let i := idx % (b.rows * m)
      let c := idx / (b.rows * m)
      if i / b.rows = c / b.cols then b.get (i % b.rows) (c % b.cols) else 0 }

/-- Entry `(r, c)` of the dense congruence `(b ⊗ 1)ᵀ · a · (b ⊗ 1)`. -/
def denseCongruenceEntry (a b : Matrix) (m r c : ℕ) : Real :=
  ∑ i ∈ Finset.range (b.rows * m), ∑ j ∈ Finset.range (b.rows * m),
    (tensorBasis b m).get i r * a.get i j * (tensorBasis b m).get j c

/-- A concrete 2×2 symmetric `a` for exercising `tensorMatrixCongruence`
with `ℓ = 2`, `m = 1`. -/
def tmcSampleA : Matrix :=
  { rows := 2, cols := 2
    elements := fun i => if i = 0 then 1 else if i = 3 then 4 else 2 }

/-- A concrete 2×1 basis `b` (`ℓ = 2`, `n = 1`). -/
def tmcSampleB : Matrix :=
  { rows := 2, cols := 1, elements := fun i => if i = 0 then 5 else 7 }

/-- A 2×1 scratch `work` buffer. -/
def tmcSampleW : Matrix :=
  { rows := 2, cols := 1, elements := fun _ => 0 }

/-- A 1×1 `result` buffer. -/
def tmcSampleR : Matrix :=
  { rows := 1, cols := 1, elements := fun _ => 0 }

/-! ### Cholesky (`main.cpp` 302–320) -/

/-- `choleskyDecomposition(a, result)` from `main.cpp`: copy `a`'s buffer
into `result`, call the external LAPACK-analog `Rpotrf` (passed here as a
function returning the factored buffer together with its `info` status
code), then zero the upper triangle.  The source declares `mpackint info`,
passes `&info` to `Rpotrf`, and never reads it afterwards: the status is
discarded. -/
def choleskyDecomposition (Rpotrf : ℕ → (ℕ → Real) → (ℕ → Real) × ℤ) (a result : Matrix) :
    Matrix :=
  let dim := a.rows
  let copied : ℕ → Real := fun i => if i < dim * dim then a.elements i else result.elements i
  let call := Rpotrf dim copied
  let factored := call.1
  let zeroed := (List.range dim).foldl
    (fun buf j =>
      (List.range j).foldl (fun buf i => fun idx => if idx = i + j * dim then 0 else buf idx) buf)
    factored
  { rows := result.rows, cols := result.cols, elements := zeroed }

/-- The 1×1 matrix holding `-1`: a concrete non-positive-definite input. -/
def negOne1x1 : Matrix := ⟨1, 1, fun _ => -1⟩

/-- A 1×1 all-zero output buffer. -/
def zero1x1 : Matrix := ⟨1, 1, fun _ => 0⟩

/-- Modelled from the spec: `POTRF(lower, A)` "fails if not PD", the
failure being signalled through a nonzero `info`; the buffer is left as
handed in.  This oracle reports failure (`info = 1`) on every input. -/
def RpotrfFailing : ℕ → (ℕ → Real) → (ℕ → Real) × ℤ :=
  fun _ buf => (buf, 1)

/-- Modelled from the spec: a POTRF oracle returning the same buffer but
reporting success (`info = 0`). -/
def RpotrfReportingSuccess : ℕ → (ℕ → Real) → (ℕ → Real) × ℤ :=
  fun _ buf => (buf, 0)

/-! ### Corrector centering parameter
(`src/solve/SDP_Solver/run/corrector_centering_parameter.cxx`) -/

/-- The two centering-parameter fields of `SDP_Solver_Parameters` the
corrector step reads. -/
structure SDP_Solver_Parameters where
  feasible_centering_parameter : Real
  infeasible_centering_parameter : Real

/-- `corrector_centering_parameter` from
`src/solve/SDP_Solver/run/corrector_centering_parameter.cxx` (lines 5–26).
Its `Block_Diagonal_Matrix` and `frobenius_product_of_sums` are the
block-diagonal operations of `main.cpp`, which the spec gives the same
data model. -/
def corrector_centering_parameter (parameters : SDP_Solver_Parameters)
    (X dX Y dY : BlockDiagonalMatrix) (mu : Real) (is_primal_dual_feasible : Bool) : Real :=
  let r := BlockDiagonalMatrix.frobeniusProductOfSums X dX Y dY / (mu * (X.dim : Real))
  let beta := if r < 1 then r * r else r
  if is_primal_dual_feasible then
    min (max parameters.feasible_centering_parameter beta) 1
  else
    max parameters.infeasible_centering_parameter beta

/-! ### The PMP → SDP reduction (`main.cpp` 751–900) -/

/-- `class Polynomial { Vector coeffs; }`. -/
structure Polynomial where
  coeffs : Vector

/-- The default-constructed `Polynomial()`: a single zero coefficient. -/
def polynomialD : Polynomial := ⟨[0]⟩

/-- `Polynomial::degree() = coeffs.size() - 1`. -/
def Polynomial.degree (P : Polynomial) : ℕ := P.coeffs.length - 1

/-- `Polynomial::operator()(x)`: Horner evaluation from the top
coefficient down. -/
def Polynomial.eval (P : Polynomial) (x : Real) : Real :=
  P.coeffs.foldr (fun c y => y * x + c) 0

/-- `class PolynomialVectorMatrix` with its column-major element list. -/
structure PolynomialVectorMatrix where
  rows : ℕ
  cols : ℕ
  elements : List (List Polynomial)

/-- `PolynomialVectorMatrix::get(r,c) = elements[r + c*rows]`. -/
def PolynomialVectorMatrix.get (m : PolynomialVectorMatrix) (r c : ℕ) : List Polynomial :=
  m.elements.getD (r + c * m.rows) []

/-- `PolynomialVectorMatrix::degree()`: maximum degree over all entries. -/
def PolynomialVectorMatrix.degree (m : PolynomialVectorMatrix) : ℕ :=
  m.elements.foldl (fun d e => e.foldl (fun d P => max P.degree d) d) 0

/-- `monomialAlgebraBasis(d1, d, xs, halfShift)` (`main.cpp` 813–828); the
`Real` square root used for the half-shift basis is an external primitive,
passed as `sqrtFn`. -/
def monomialAlgebraBasis (sqrtFn : Real → Real) (d1 d : ℕ) (xs : Vector) (halfShift : Bool) :
    Matrix :=
  applySets ⟨d1 + 1, d + 1, fun _ => 0⟩
    ((List.range (d + 1)).flatMap (fun k =>
      let x := xs.getD k 0
      (List.range (d1 + 1)).map (fun n => (n, k, (if halfShift then sqrtFn x else 1) * x ^ n))))

/-- `bootstrapSDP(objective, normalization, positiveMatrixPols, xs)`
(`main.cpp` 830–900).  The single internal check, the final
`assert(p == sdp.numConstraints-1)`, is modelled as the `Option` guard;
`delta2 = (degree-1)/2` is C++ `int` division (truncation toward zero). -/
def bootstrapSDP (sqrtFn : Real → Real) (objective normalization : Vector)
    (positiveMatrixPols : List PolynomialVectorMatrix) (xs : Vector) : Option SDP :=
  let objDimension := objective.length
  let firstPass := positiveMatrixPols.foldl
    (fun (st : List ℕ × List ℕ × ℕ) m =>
      let dimension := m.cols
      let degree := m.degree
      (st.1 ++ [dimension], st.2.1 ++ [degree],
        st.2.2 + (degree + 1) * dimension * (dimension + 1) / 2))
    ([], [], 0)
  let dimensions := firstPass.1 ++ [1]
  let degrees := firstPass.2.1 ++ [0]
  let numConstraints := firstPass.2.2 + 1
  let affineConstants := (List.replicate numConstraints (0 : Real)).set (numConstraints - 1) 1
  let secondPass := positiveMatrixPols.foldl
    (fun (st : List Matrix × List (List ℕ) × Matrix × ℕ) m =>
      let bases := st.1
      let blks := st.2.1
      let degree : ℕ := m.degree
      let delta1 : ℕ := degree / 2
      let delta2 : ℤ := Int.tdiv ((degree : ℤ) - 1) 2
      let blocks1 := [bases.length] ++ if 0 ≤ delta2 then [bases.length + 1] else []
      let bases1 := bases ++ [monomialAlgebraBasis sqrtFn delta1 degree xs false]
        ++ if 0 ≤ delta2 then [monomialAlgebraBasis sqrtFn delta2.toNat degree xs true] else []
      let third := (List.range m.cols).foldl
        (fun (st2 : Matrix × ℕ) s =>
          (List.range (s + 1)).foldl
            (fun st2 r =>
              (List.range (degree + 1)).foldl
                (fun (st2 : Matrix × ℕ) k =>
                  let xk := xs.getD k 0
                  ((List.range objDimension).foldl
                      (fun pm n => pm.set st2.2 n (((m.get r s).getD n polynomialD).eval xk))
                      st2.1,
                    st2.2 + 1))
                st2)
            st2)
        (st.2.2.1, st.2.2.2)
      (bases1, blks ++ [blocks1], third.1, third.2))
    ([], [], (⟨numConstraints, objDimension, fun _ => 0⟩ : Matrix), 0)
  if secondPass.2.2.2 = numConstraints - 1 then
    let p := secondPass.2.2.2
    let polMatrixValues := (List.range objDimension).foldl
      (fun pm n => pm.set p n (normalization.getD n 0)) secondPass.2.2.1
    some
      { bilinearBases := secondPass.1
        numConstraints := numConstraints
        objDimension := objDimension
        polMatrixValues := polMatrixValues
        affineConstants := affineConstants
        objective := objective
        dimensions := dimensions
        degrees := degrees
        blocks := secondPass.2.1 ++ [[]] }
  else none

/-! ### `constraintMatrixWeightedSum` and the constraint matrices `F_p` -/

/-- The `(j, s, r)` block phase of `constraintMatrixWeightedSum`
(`main.cpp` 1230–1241): for each group `j` and each `(s, r ≤ s)` run,
`diagonalCongruenceTranspose` of the `x` slice at the running `p` against
each of the group's bilinear bases is written into the corresponding
blocks, `p` advancing by `degrees[j]+1` per run. -/
def cmwsBlockPhase (sdp : SDP) (x : Vector) (st0 : List Matrix × ℕ) : List Matrix × ℕ :=
  (List.range sdp.dimensions.length).foldl
    (fun (st : List Matrix × ℕ) j =>
      (List.range (sdp.dimensions.getD j 0)).foldl
        (fun st s =>
          (List.range (s + 1)).foldl
            (fun (st : List Matrix × ℕ) r =>
              ((sdp.blocks.getD j []).foldl
                (fun bl b =>
                  bl.set b
                    (diagonalCongruenceTranspose (fun n => x.getD (st.2 + n) 0)
                      (sdp.bilinearBases.getD b matrixD) r s (bl.getD b matrixD)))
                st.1,
               st.2 + (sdp.degrees.getD j 0 + 1)))
            st)
        st)
    st0

/-- `constraintMatrixWeightedSum(sdp, x, result)` (`main.cpp` 1222–1245):
the diagonal prefix gets `Σ_p x[p]·polMatrixValues[p,n]`; then the block
phase above; finally the result is symmetrized.  The
`assert(p == x.size())` is the `Option` guard. -/
def constraintMatrixWeightedSum (sdp : SDP) (x : Vector) (result : BlockDiagonalMatrix) :
    Option BlockDiagonalMatrix :=
  let dg := (List.range result.diagonalPart.length).foldl
    (fun v n =>
      v.set n (∑ p ∈ Finset.range x.length, x.getD p 0 * sdp.polMatrixValues.get p n))
    result.diagonalPart
  let st := cmwsBlockPhase sdp x (result.blocks, 0)
  if st.2 = x.length then some (BlockDiagonalMatrix.symmetrize ⟨dg, st.1⟩) else none

/-- The `(j, s, r)` runs of the block phase of
`constraintMatrixWeightedSum` in loop order, each with the `p` base offset
at which its `x` slice starts. -/
def cmwsRuns (dimensions degrees : List ℕ) : List (ℕ × ℕ × ℕ × ℕ) :=
  (List.range dimensions.length).flatMap (fun j =>
    (List.range (dimensions.getD j 0)).flatMap (fun s =>
      (List.range (s + 1)).map (fun r =>
        (j, s, r,
          startOffset dimensions degrees j
            + (triangle s + r) * (degrees.getD j 0 + 1)))))

/-- One `(j, s, r, p)` run of the block phase:
`diagonalCongruenceTranspose` of the `x` slice starting at `p` into every
block of group `j`. -/
def cmwsRunUpdate (sdp : SDP) (x : Vector) (bl : List Matrix) (run : ℕ × ℕ × ℕ × ℕ) :
    List Matrix :=
  (sdp.blocks.getD run.1 []).foldl
    (fun bl b =>
      bl.set b
        (diagonalCongruenceTranspose (fun n => x.getD (run.2.2.2 + n) 0)
          (sdp.bilinearBases.getD b matrixD) run.2.2.1 run.2.1 (bl.getD b matrixD)))
    bl

/-- The constraint matrix `F_p` for tuple `t` of group `j`, exactly as
`printSDPData` (`main.cpp` 1615–1658) builds it starting from the template
`F`: `F *= 0`; diagonal prefix `polMatrixValues[t.p, ·]`; for each block
`b` of group `j` the outer product of the `k`-th column `q` of
`bilinearBases[b]` written over block position `(r, s)`; each such block
symmetrized. -/
def printSDPDataF (sdp : SDP) (j : ℕ) (t : IndexTuple) (F : BlockDiagonalMatrix) :
    BlockDiagonalMatrix :=
  let Fz : BlockDiagonalMatrix :=
    ⟨F.diagonalPart.map (fun x => x * 0),
     F.blocks.map (fun Mb => { Mb with elements := fun i => Mb.elements i * 0 })⟩
  let dg := (List.range sdp.polMatrixValues.cols).foldl
    (fun v n => v.set n (sdp.polMatrixValues.get t.p n)) Fz.diagonalPart
  let bls := (sdp.blocks.getD j []).foldl
    (fun bl b =>
      let delta := (sdp.bilinearBases.getD b matrixD).rows
      let q : ℕ → Real := fun e => (sdp.bilinearBases.getD b matrixD).elements (t.k * delta + e)
      let written := applySets (bl.getD b matrixD)
        ((List.range delta).flatMap (fun e =>
          (List.range delta).map (fun f => (t.r * delta + e, t.s * delta + f, q e * q f))))
      bl.set b written.symmetrize)
    Fz.blocks
  ⟨dg, bls⟩

/-- The standard basis vector `e_p` of length `N`. -/
def standardBasis (N p : ℕ) : Vector :=
  (List.range N).map (fun i => if i = p then 1 else 0)

/-- A one-constraint SDP (one 1×1 group of degree 0, one 1×1 bilinear
basis `[2]`, `polMatrixValues = [5]`) for exercising
`constraintMatrixWeightedSum`. -/
def cmwsSampleSDP : SDP :=
  { bilinearBases := [⟨1, 1, fun _ => 2⟩]
    numConstraints := 1
    objDimension := 1
    polMatrixValues := ⟨1, 1, fun _ => 5⟩
    affineConstants := [1]
    objective := [0]
    dimensions := [1]
    degrees := [0]
    blocks := [[0]] }

/-- A zero-initialized result template matching `cmwsSampleSDP`. -/
def cmwsSampleZ : BlockDiagonalMatrix := ⟨[0], [⟨1, 1, fun _ => 0⟩]⟩

/-- An arbitrary same-shape template `F` (its entries are zeroed by
`F *= 0`). -/
def cmwsSampleF : BlockDiagonalMatrix := ⟨[9], [⟨1, 1, fun _ => 7⟩]⟩

/-! ## Lemmas: the flat column-major buffer -/

theorem flat_index_inj {rows r r' c c' : ℕ} (hr : r < rows) (hr' : r' < rows) :
    r + c * rows = r' + c' * rows ↔ r = r' ∧ c = c' := by
  constructor
  · intro h
    have h1 : (r + c * rows) % rows = (r' + c' * rows) % rows := by rw [h]
    rw [Nat.add_mul_mod_self_right, Nat.add_mul_mod_self_right,
      Nat.mod_eq_of_lt hr, Nat.mod_eq_of_lt hr'] at h1
    subst h1
    refine ⟨rfl, ?_⟩
    have h2 : c * rows = c' * rows := by omega
    exact Nat.eq_of_mul_eq_mul_right (Nat.lt_of_le_of_lt (Nat.zero_le r) hr) h2
  · rintro ⟨rfl, rfl⟩; rfl

@[simp] theorem Matrix.set_rows (M : Matrix) (r c : ℕ) (a : Real) :
    (M.set r c a).rows = M.rows := rfl

@[simp] theorem Matrix.set_cols (M : Matrix) (r c : ℕ) (a : Real) :
    (M.set r c a).cols = M.cols := rfl

@[simp] theorem Matrix.addElt_rows (M : Matrix) (r c : ℕ) (a : Real) :
    (M.addElt r c a).rows = M.rows := rfl

@[simp] theorem Matrix.addElt_cols (M : Matrix) (r c : ℕ) (a : Real) :
    (M.addElt r c a).cols = M.cols := rfl

theorem Matrix.get_set (M : Matrix) {r r' c c' : ℕ} (a : Real)
    (hr : r < M.rows) (hr' : r' < M.rows) :
    (M.set r c a).get r' c' = if r' = r ∧ c' = c then a else M.get r' c' := by
  unfold Matrix.set Matrix.get
  simp only
  by_cases h : r' + c' * M.rows = r + c * M.rows
  · rw [if_pos h, if_pos]
    exact ((flat_index_inj hr' hr).mp h)
  · rw [if_neg h, if_neg]
    intro hc
    exact h ((flat_index_inj hr' hr).mpr hc)

theorem Matrix.get_addElt (M : Matrix) {r r' c c' : ℕ} (a : Real)
    (hr : r < M.rows) (hr' : r' < M.rows) :
    (M.addElt r c a).get r' c' = if r' = r ∧ c' = c then M.get r' c' + a else M.get r' c' := by
  unfold Matrix.addElt Matrix.get
  simp only
  by_cases h : r' + c' * M.rows = r + c * M.rows
  · rw [if_pos h, if_pos ((flat_index_inj hr' hr).mp h), h]
  · rw [if_neg h, if_neg]
    intro hc
    exact h ((flat_index_inj hr' hr).mpr hc)

@[simp] theorem applySets_rows (M : Matrix) (ws : List (ℕ × ℕ × Real)) :
    (applySets M ws).rows = M.rows := by
  induction ws generalizing M with
  | nil => rfl
  | cons w ws ih => simpa [applySets] using ih (M.set w.1 w.2.1 w.2.2)

@[simp] theorem applySets_cols (M : Matrix) (ws : List (ℕ × ℕ × Real)) :
    (applySets M ws).cols = M.cols := by
  induction ws generalizing M with
  | nil => rfl
  | cons w ws ih => simpa [applySets] using ih (M.set w.1 w.2.1 w.2.2)

@[simp] theorem applyAdds_rows (M : Matrix) (ws : List (ℕ × ℕ × Real)) :
    (applyAdds M ws).rows = M.rows := by
  induction ws generalizing M with
  | nil => rfl
  | cons w ws ih => simpa [applyAdds] using ih (M.addElt w.1 w.2.1 w.2.2)

@[simp] theorem applyAdds_cols (M : Matrix) (ws : List (ℕ × ℕ × Real)) :
    (applyAdds M ws).cols = M.cols := by
  induction ws generalizing M with
  | nil => rfl
  | cons w ws ih => simpa [applyAdds] using ih (M.addElt w.1 w.2.1 w.2.2)

/-- If no write of `ws` targets position `(a, b)`, the position is
unchanged. -/
theorem applySets_get_untouched (M : Matrix) (ws : List (ℕ × ℕ × Real)) {a b : ℕ}
    (hrow : ∀ w ∈ ws, w.1 < M.rows) (ha : a < M.rows)
    (hnone : ∀ w ∈ ws, ¬(w.1 = a ∧ w.2.1 = b)) :
    (applySets M ws).get a b = M.get a b := by
  induction ws generalizing M with
  | nil => rfl
  | cons w ws ih =>
    have h1 : (applySets (M.set w.1 w.2.1 w.2.2) ws).get a b
        = (M.set w.1 w.2.1 w.2.2).get a b := by
      refine ih (M.set w.1 w.2.1 w.2.2) (fun w' hw' => ?_) ha
        (fun w' hw' => hnone w' (List.mem_cons_of_mem _ hw'))
      simpa using hrow w' (List.mem_cons_of_mem _ hw')
    have h2 : (M.set w.1 w.2.1 w.2.2).get a b = M.get a b := by
      rw [Matrix.get_set M _ (hrow w (List.mem_cons_self _ _)) ha, if_neg]
      intro hc
      exact hnone w (List.mem_cons_self _ _) ⟨hc.1.symm, hc.2.symm⟩
    simpa [applySets] using h1.trans h2

/-- If some write of `ws` targets `(a, b)` and every write of `ws` to
`(a, b)` carries the same value `v`, then the final entry is `v`. -/
theorem applySets_get_hit (M : Matrix) (ws : List (ℕ × ℕ × Real)) {a b : ℕ} {v : Real}
    (hrow : ∀ w ∈ ws, w.1 < M.rows) (ha : a < M.rows)
    (hmem : ∃ w ∈ ws, w.1 = a ∧ w.2.1 = b)
    (hval : ∀ w ∈ ws, w.1 = a → w.2.1 = b → w.2.2 = v) :
    (applySets M ws).get a b = v := by
  induction ws generalizing M with
  | nil => exact absurd hmem (by simp)
  | cons w ws ih =>
    by_cases hrest : ∃ w' ∈ ws, w'.1 = a ∧ w'.2.1 = b
    · have := ih (M.set w.1 w.2.1 w.2.2)
        (fun w' hw' => by simpa using hrow w' (List.mem_cons_of_mem _ hw'))
        (by simpa using ha) hrest
        (fun w' hw' => hval w' (List.mem_cons_of_mem _ hw'))
      simpa [applySets] using this
    · rcases hmem with ⟨w', hw', hw'ab⟩
      rcases List.mem_cons.mp hw' with rfl | hmem'
      · have huntouched : (applySets (M.set w'.1 w'.2.1 w'.2.2) ws).get a b
            = (M.set w'.1 w'.2.1 w'.2.2).get a b := by
          refine applySets_get_untouched _ ws
            (fun w'' hw'' => by simpa using hrow w'' (List.mem_cons_of_mem _ hw'')) ha ?_
          intro w'' hw'' hc
          exact hrest ⟨w'', hw'', hc⟩
        have hset : (M.set w'.1 w'.2.1 w'.2.2).get a b = w'.2.2 := by
          rw [Matrix.get_set M _ (hrow w' (List.mem_cons_self _ _)) ha,
            if_pos ⟨hw'ab.1.symm, hw'ab.2.symm⟩]
        have hv : w'.2.2 = v := hval w' (List.mem_cons_self _ _) hw'ab.1 hw'ab.2
        simpa [applySets] using (huntouched.trans hset).trans hv
      · exact absurd ⟨w', hmem', hw'ab⟩ hrest

/-- The entry of an `addElt` fold: the initial entry plus the sum of all
matching deltas. -/
theorem applyAdds_get (M : Matrix) (ws : List (ℕ × ℕ × Real)) {a b : ℕ}
    (hrow : ∀ w ∈ ws, w.1 < M.rows) (ha : a < M.rows) :
    (applyAdds M ws).get a b
      = M.get a b
        + ((ws.filter (fun w => decide (w.1 = a ∧ w.2.1 = b))).map (fun w => w.2.2)).sum := by
  induction ws generalizing M with
  | nil => simp [applyAdds]
  | cons w ws ih =>
    have hMa : (applyAdds (M.addElt w.1 w.2.1 w.2.2) ws).get a b
        = (M.addElt w.1 w.2.1 w.2.2).get a b
          + ((ws.filter (fun w => decide (w.1 = a ∧ w.2.1 = b))).map (fun w => w.2.2)).sum :=
      ih (M.addElt w.1 w.2.1 w.2.2)
        (fun w' hw' => by simpa using hrow w' (List.mem_cons_of_mem _ hw'))
        (by simpa using ha)
    have hset := @Matrix.get_addElt M w.1 a w.2.1 b w.2.2
      (hrow w (List.mem_cons_self _ _)) ha
    by_cases hc : w.1 = a ∧ w.2.1 = b
    · rw [if_pos ⟨hc.1.symm, hc.2.symm⟩] at hset
      have hfil : (w :: ws).filter (fun w => decide (w.1 = a ∧ w.2.1 = b))
          = w :: ws.filter (fun w => decide (w.1 = a ∧ w.2.1 = b)) := by
        simp [List.filter_cons, hc.1, hc.2]
      simp only [applyAdds, List.foldl_cons] at *
      rw [hMa, hset, hfil]
      simp [add_assoc, add_comm, add_left_comm]
    · rw [if_neg (fun hcc => hc ⟨hcc.1.symm, hcc.2.symm⟩)] at hset
      have hfil : (w :: ws).filter (fun w => decide (w.1 = a ∧ w.2.1 = b))
          = ws.filter (fun w => decide (w.1 = a ∧ w.2.1 = b)) := by
        rw [List.filter_cons, if_neg (by simpa using hc)]
      simp only [applyAdds, List.foldl_cons] at *
      rw [hMa, hset, hfil]

/-! ## Lemmas: `Matrix::symmetrize` -/

@[simp] theorem symStep_rows (A : Matrix) (pr : ℕ × ℕ) : (symStep A pr).rows = A.rows := rfl

@[simp] theorem symStep_cols (A : Matrix) (pr : ℕ × ℕ) : (symStep A pr).cols = A.cols := rfl

theorem symStep_get (A : Matrix) {r c a b : ℕ} (_hcr : c < r) (hr : r < A.rows)
    (hc : c < A.rows) (ha : a < A.rows) :
    (symStep A (r, c)).get a b
      = if (a = r ∧ b = c) ∨ (a = c ∧ b = r) then (A.get r c + A.get c r) / 2
        else A.get a b := by
  unfold symStep
  simp only
  rw [Matrix.get_set _ _ (by simpa using hc) (by simpa using ha),
    Matrix.get_set _ _ hr ha]
  by_cases h1 : a = c ∧ b = r
  · rw [if_pos h1, if_pos (Or.inr h1)]
  · rw [if_neg h1]
    by_cases h2 : a = r ∧ b = c
    · rw [if_pos h2, if_pos (Or.inl h2)]
    · rw [if_neg h2, if_neg (by tauto)]

theorem foldl_symStep_get (L : List (ℕ × ℕ)) (M : Matrix)
    (hL : ∀ pr ∈ L, pr.2 < pr.1 ∧ pr.1 < M.rows) (hnd : L.Nodup)
    {a b : ℕ} (ha : a < M.rows) (hb : b < M.rows) :
    (L.foldl symStep M).get a b
      = if (a, b) ∈ L ∨ (b, a) ∈ L then (M.get a b + M.get b a) / 2 else M.get a b := by
  induction L generalizing M with
  | nil => simp
  | cons pr L ih =>
    obtain ⟨r, c⟩ := pr
    have hcr : c < r := (hL (r, c) (List.mem_cons_self _ _)).1
    have hrr : r < M.rows := (hL (r, c) (List.mem_cons_self _ _)).2
    have hcc : c < M.rows := lt_trans hcr hrr
    have hLtail : ∀ pr ∈ L, pr.2 < pr.1 ∧ pr.1 < (symStep M (r, c)).rows := by
      intro pr hpr; simpa using hL pr (List.mem_cons_of_mem _ hpr)
    have hih := ih (symStep M (r, c)) hLtail hnd.of_cons (by simpa using ha) (by simpa using hb)
    simp only [List.foldl_cons]
    rw [hih]
    have hgab := symStep_get M hcr hrr hcc ha (b := b)
    have hgba := symStep_get M hcr hrr hcc hb (b := a)
    by_cases h1 : a = r ∧ b = c
    · -- the processed pair is exactly `(a, b)`
      obtain ⟨rfl, rfl⟩ := h1
      have hnotL : (a, b) ∉ L := by
        intro hmem; exact (List.nodup_cons.mp hnd).1 hmem
      have hnotL' : (b, a) ∉ L := by
        intro hmem; exact absurd (hL (b, a) (List.mem_cons_of_mem _ hmem)).1 (by omega)
      rw [if_neg (by tauto), if_pos (Or.inl (List.mem_cons_self _ _))]
      rw [hgab, if_pos (Or.inl ⟨rfl, rfl⟩)]
    · by_cases h2 : a = c ∧ b = r
      · -- the processed pair is the mirror `(b, a)`
        obtain ⟨rfl, rfl⟩ := h2
        have hnotL : (b, a) ∉ L := by
          intro hmem; exact (List.nodup_cons.mp hnd).1 hmem
        have hnotL' : (a, b) ∉ L := by
          intro hmem; exact absurd (hL (a, b) (List.mem_cons_of_mem _ hmem)).1 (by omega)
        rw [if_neg (by tauto), if_pos (Or.inr (List.mem_cons_self _ _))]
        rw [hgab, if_pos (Or.inr ⟨rfl, rfl⟩), add_comm (M.get b a)]
      · -- the processed pair touches neither `(a, b)` nor `(b, a)`
        have hab : (symStep M (r, c)).get a b = M.get a b := by rw [hgab, if_neg (by tauto)]
        have hba : (symStep M (r, c)).get b a = M.get b a := by rw [hgba, if_neg (by tauto)]
        rw [hab, hba]
        have hmemiff : ((a, b) ∈ (r, c) :: L ∨ (b, a) ∈ (r, c) :: L)
            ↔ ((a, b) ∈ L ∨ (b, a) ∈ L) := by
          simp only [List.mem_cons, Prod.mk.injEq]
          constructor
          · rintro (h | h) <;> rcases h with h | h <;> tauto
          · tauto
        by_cases hm : (a, b) ∈ L ∨ (b, a) ∈ L
        · rw [if_pos hm, if_pos (hmemiff.mpr hm)]
        · rw [if_neg hm, if_neg (fun hc2 => hm (hmemiff.mp hc2))]

theorem symPairs_mem {n a b : ℕ} : (a, b) ∈ symPairs n ↔ b < a ∧ a < n := by
  simp only [symPairs, List.mem_flatMap, List.mem_map, List.mem_range, Prod.mk.injEq]
  constructor
  · rintro ⟨r, hr, c, hc, rfl, rfl⟩; exact ⟨hc, hr⟩
  · rintro ⟨hba, han⟩; exact ⟨a, han, b, hba, rfl, rfl⟩

theorem symPairs_nodup (n : ℕ) : (symPairs n).Nodup := by
  induction n with
  | zero => simp [symPairs]
  | succ n ih =>
    have : symPairs (n + 1)
        = symPairs n ++ (List.range n).map (fun c => (n, c)) := by
      simp [symPairs, List.range_succ]
    rw [this]
    refine List.Nodup.append ih ?_ ?_
    · exact (List.nodup_range n).map (fun c c' h => (Prod.ext_iff.mp h).2)
    · intro pr h1 h2
      have ha : pr.1 < n := (symPairs_mem.mp (by simpa using h1)).2
      rcases List.mem_map.mp h2 with ⟨c, _, rfl⟩
      exact absurd ha (by simp)

@[simp] theorem Matrix.symmetrize_rows (M : Matrix) : M.symmetrize.rows = M.rows := by
  unfold Matrix.symmetrize
  generalize symPairs M.rows = L
  induction L generalizing M with
  | nil => rfl
  | cons pr L ih => simpa using ih (symStep M pr)

@[simp] theorem Matrix.symmetrize_cols (M : Matrix) : M.symmetrize.cols = M.cols := by
  unfold Matrix.symmetrize
  generalize symPairs M.rows = L
  induction L generalizing M with
  | nil => rfl
  | cons pr L ih => simpa using ih (symStep M pr)

/-- Entrywise description of `Matrix::symmetrize`. -/
theorem Matrix.symmetrize_get (M : Matrix) {a b : ℕ} (ha : a < M.rows) (hb : b < M.rows) :
    M.symmetrize.get a b = if a = b then M.get a b else (M.get a b + M.get b a) / 2 := by
  unfold Matrix.symmetrize
  rw [foldl_symStep_get (symPairs M.rows) M
    (fun pr hpr => by
      have := symPairs_mem.mp (by simpa using hpr)
      exact ⟨this.1, this.2⟩)
    (symPairs_nodup _) ha hb]
  by_cases hab : a = b
  · subst hab
    rw [if_pos rfl, if_neg]
    intro hmem
    rcases hmem with h | h <;> exact absurd (symPairs_mem.mp h).1 (lt_irrefl _)
  · rw [if_neg hab, if_pos]
    rcases Nat.lt_or_ge a b with h | h
    · exact Or.inr (symPairs_mem.mpr ⟨h, hb⟩)
    · exact Or.inl (symPairs_mem.mpr ⟨lt_of_le_of_ne h (Ne.symm hab), ha⟩)

/-! ## Lemmas: list sums -/

theorem list_sum_range {M : Type} [AddCommMonoid M] (f : ℕ → M) (n : ℕ) :
    ((List.range n).map f).sum = ∑ i ∈ Finset.range n, f i := by
  induction n with
  | zero => simp
  | succ n ih =>
    rw [List.range_succ, List.map_append, List.sum_append, Finset.sum_range_succ, ih]
    simp

/-- `getD` through a `zipWith`, with arbitrary defaults, at an in-range
index. -/
theorem getD_zipWith {α β : Type} (f : α → α → β) (u v : List α) (i : ℕ) (d : β) (da : α)
    (hu : i < u.length) (hv : i < v.length) :
    (List.zipWith f u v).getD i d = f (u.getD i da) (v.getD i da) := by
  have hz : i < (List.zipWith f u v).length := by
    rw [List.length_zipWith]; omega
  rw [List.getD_eq_getElem _ _ hz, List.getD_eq_getElem _ _ hu, List.getD_eq_getElem _ _ hv]
  exact List.getElem_zipWith ..

theorem zipWith_sum_eq {α : Type} (g : α → α → Real) (d : α) (u v : List α)
    (h : v.length = u.length) :
    (List.zipWith g u v).sum = ∑ i ∈ Finset.range u.length, g (u.getD i d) (v.getD i d) := by
  induction u generalizing v with
  | nil => simp
  | cons x u ih =>
    cases v with
    | nil => simp at h
    | cons y v =>
      simp only [List.zipWith_cons_cons, List.sum_cons, List.length_cons]
      rw [Finset.sum_range_succ']
      simp only [List.getD_cons_succ, List.getD_cons_zero]
      rw [ih v (by simpa using h)]
      ring

/-! ## Lemmas: Frobenius products of sums (C9 core) -/

@[simp] theorem Matrix.add_rows (M A : Matrix) : (M.add A).rows = M.rows := rfl

@[simp] theorem Matrix.add_cols (M A : Matrix) : (M.add A).cols = M.cols := rfl

theorem Matrix.get_add (M A : Matrix) (r c : ℕ) (h : A.rows = M.rows) :
    (M.add A).get r c = M.get r c + A.get r c := by
  unfold Matrix.add Matrix.get
  simp [h]

theorem Matrix.frobeniusProductOfSums_entrywise (X dX Y dY : Matrix)
    (hdX : dX.rows = X.rows) (hdY : dY.rows = Y.rows) :
    Matrix.frobeniusProductOfSums X dX Y dY
      = Matrix.frobeniusProductSymmetric (X.add dX) (Y.add dY) := by
  unfold Matrix.frobeniusProductOfSums Matrix.frobeniusProductSymmetric
  simp only [Matrix.add_rows, Matrix.add_cols,
    Matrix.get_add X dX _ _ hdX, Matrix.get_add Y dY _ _ hdY]

theorem BlockDiagonalMatrix.frobeniusProductOfSums_eq (X dX Y dY : BlockDiagonalMatrix)
    (hd1 : dX.diagonalPart.length = X.diagonalPart.length)
    (hd2 : Y.diagonalPart.length = X.diagonalPart.length)
    (hd3 : dY.diagonalPart.length = X.diagonalPart.length)
    (hb1 : dX.blocks.length = X.blocks.length)
    (hb2 : Y.blocks.length = X.blocks.length)
    (hb3 : dY.blocks.length = X.blocks.length)
    (hbr1 : ∀ i < X.blocks.length,
      (dX.blocks.getD i matrixD).rows = (X.blocks.getD i matrixD).rows)
    (hbr2 : ∀ i < X.blocks.length,
      (dY.blocks.getD i matrixD).rows = (Y.blocks.getD i matrixD).rows) :
    BlockDiagonalMatrix.frobeniusProductOfSums X dX Y dY
      = BlockDiagonalMatrix.frobeniusProductSymmetric (X.add dX) (Y.add dY) := by
  unfold BlockDiagonalMatrix.frobeniusProductOfSums BlockDiagonalMatrix.frobeniusProductSymmetric
    BlockDiagonalMatrix.add dotProduct
  simp only
  congr 1
  · -- diagonal prefixes
    have hlen : (List.zipWith (· + ·) Y.diagonalPart dY.diagonalPart).length
        = (List.zipWith (· + ·) X.diagonalPart dX.diagonalPart).length := by
      rw [List.length_zipWith, List.length_zipWith]; omega
    rw [zipWith_sum_eq (· * ·) 0 _ _ hlen]
    have hlen2 : (List.zipWith (· + ·) X.diagonalPart dX.diagonalPart).length
        = X.diagonalPart.length := by rw [List.length_zipWith]; omega
    rw [hlen2]
    refine Finset.sum_congr rfl (fun i hi => ?_)
    have hiX : i < X.diagonalPart.length := Finset.mem_range.mp hi
    rw [getD_zipWith _ _ _ _ _ 0 hiX (by omega), getD_zipWith _ _ _ _ _ 0 (by omega) (by omega)]
  · -- blocks
    have hlen : (List.zipWith Matrix.add Y.blocks dY.blocks).length
        = (List.zipWith Matrix.add X.blocks dX.blocks).length := by
      rw [List.length_zipWith, List.length_zipWith]; omega
    rw [zipWith_sum_eq Matrix.frobeniusProductSymmetric matrixD _ _ hlen]
    have hlen2 : (List.zipWith Matrix.add X.blocks dX.blocks).length = X.blocks.length := by
      rw [List.length_zipWith]; omega
    rw [hlen2]
    refine Finset.sum_congr rfl (fun i hi => ?_)
    have hiX : i < X.blocks.length := Finset.mem_range.mp hi
    rw [getD_zipWith _ _ _ _ _ matrixD hiX (by omega),
      getD_zipWith _ _ _ _ _ matrixD (by omega) (by omega)]
    exact Matrix.frobeniusProductOfSums_entrywise _ _ _ _ (hbr1 i hiX) (hbr2 i hiX)

/-! ## Lemmas: closed form of the constraint-index enumeration -/

theorem triangle_succ (n : ℕ) : triangle (n + 1) = triangle n + (n + 1) :=
  Finset.sum_range_succ _ n

theorem triangle_mono : Monotone triangle := by
  intro a b hab
  unfold triangle
  exact Finset.sum_le_sum_of_subset (Finset.range_subset.mpr hab)

theorem tuplesForK_aux (r s : ℕ) (n : ℕ) : ∀ (p : ℕ) (acc : List IndexTuple),
    (List.range n).foldl (fun st k => (st.1 ++ [⟨st.2, r, s, k⟩], st.2 + 1)) (acc, p)
      = (acc ++ (List.range n).map (fun k => ⟨p + k, r, s, k⟩), p + n) := by
  induction n with
  | zero => intro p acc; simp
  | succ n ih =>
    intro p acc
    rw [show List.range (n + 1) = List.range n ++ [n] from List.range_succ n,
      List.foldl_append, ih, List.map_append]
    simp only [List.foldl_cons, List.foldl_nil]
    refine Prod.ext ?_ ?_
    · simp [List.append_assoc]
    · simp only []; omega

theorem tuplesForK_eq (deg r s p : ℕ) :
    tuplesForK deg r s p
      = ((List.range (deg + 1)).map (fun k => ⟨p + k, r, s, k⟩), p + (deg + 1)) := by
  unfold tuplesForK
  rw [tuplesForK_aux r s (deg + 1) p []]
  simp

theorem tuplesForR_aux (deg s : ℕ) (n : ℕ) : ∀ (p : ℕ) (acc : List IndexTuple),
    (List.range n).foldl (fun st r => let t := tuplesForK deg r s st.2; (st.1 ++ t.1, t.2))
        (acc, p)
      = (acc ++ (List.range n).flatMap (fun r =>
          (List.range (deg + 1)).map (fun k => ⟨p + r * (deg + 1) + k, r, s, k⟩)),
         p + n * (deg + 1)) := by
  induction n with
  | zero => intro p acc; simp
  | succ n ih =>
    intro p acc
    rw [show List.range (n + 1) = List.range n ++ [n] from List.range_succ n,
      List.foldl_append, ih, List.flatMap_append]
    simp only [List.foldl_cons, List.foldl_nil, tuplesForK_eq]
    refine Prod.ext ?_ ?_
    · simp only [List.flatMap_cons, List.flatMap_nil, List.append_nil, List.append_assoc]
    · simp only []; ring

theorem tuplesForR_eq (deg s p : ℕ) :
    tuplesForR deg s p
      = ((List.range (s + 1)).flatMap (fun r =>
          (List.range (deg + 1)).map (fun k => ⟨p + r * (deg + 1) + k, r, s, k⟩)),
         p + (s + 1) * (deg + 1)) := by
  unfold tuplesForR
  rw [tuplesForR_aux deg s (s + 1) p []]
  simp

theorem tuplesForGroup_aux (deg : ℕ) (n : ℕ) : ∀ (p : ℕ) (acc : List IndexTuple),
    (List.range n).foldl (fun st s => let t := tuplesForR deg s st.2; (st.1 ++ t.1, t.2))
        (acc, p)
      = (acc ++ (List.range n).flatMap (fun s =>
          (List.range (s + 1)).flatMap (fun r =>
            (List.range (deg + 1)).map
              (fun k => ⟨p + triangle s * (deg + 1) + r * (deg + 1) + k, r, s, k⟩))),
         p + triangle n * (deg + 1)) := by
  induction n with
  | zero => intro p acc; simp [triangle]
  | succ n ih =>
    intro p acc
    rw [show List.range (n + 1) = List.range n ++ [n] from List.range_succ n,
      List.foldl_append, ih, List.flatMap_append]
    simp only [List.foldl_cons, List.foldl_nil, tuplesForR_eq]
    refine Prod.ext ?_ ?_
    · simp only [List.flatMap_cons, List.flatMap_nil, List.append_nil, List.append_assoc]
    · simp only [triangle_succ]; ring

theorem tuplesForGroup_eq (dim deg p : ℕ) :
    tuplesForGroup dim deg p = (groupTuples p dim deg, p + tupleCount dim deg) := by
  unfold tuplesForGroup groupTuples tupleCount
  rw [tuplesForGroup_aux deg dim p []]
  simp

theorem initializeConstraintIndices_aux (dims degs : List ℕ) (n : ℕ) :
    ∀ (p : ℕ) (acc : List (List IndexTuple)),
    (List.range n).foldl
        (fun (st : List (List IndexTuple) × ℕ) j =>
          let t := tuplesForGroup (dims.getD j 0) (degs.getD j 0) st.2
          (st.1 ++ [t.1], t.2))
        (acc, p)
      = (acc ++ (List.range n).map (fun j =>
          groupTuples
            (p + ∑ i ∈ Finset.range j, tupleCount (dims.getD i 0) (degs.getD i 0))
            (dims.getD j 0) (degs.getD j 0)),
         p + ∑ i ∈ Finset.range n, tupleCount (dims.getD i 0) (degs.getD i 0)) := by
  induction n with
  | zero => intro p acc; simp
  | succ n ih =>
    intro p acc
    rw [show List.range (n + 1) = List.range n ++ [n] from List.range_succ n,
      List.foldl_append, ih, List.map_append]
    simp only [List.foldl_cons, List.foldl_nil, tuplesForGroup_eq]
    refine Prod.ext ?_ ?_
    · simp [List.append_assoc]
    · simp only [Finset.sum_range_succ]; omega

/-- The state-passing constructor loop equals the closed form: group `j`
is `groupTuples` starting at `startOffset j`. -/
theorem initializeConstraintIndices_eq (dims degs : List ℕ) :
    initializeConstraintIndices dims degs
      = (List.range dims.length).map (fun j =>
          groupTuples (startOffset dims degs j) (dims.getD j 0) (degs.getD j 0)) := by
  unfold initializeConstraintIndices startOffset
  rw [initializeConstraintIndices_aux dims degs dims.length 0 []]
  simp

/-! ## Lemmas: consequences of the closed form -/

theorem mem_groupTuples {t : IndexTuple} {p0 dim deg : ℕ} :
    t ∈ groupTuples p0 dim deg
      ↔ ∃ s, s < dim ∧ ∃ r, r ≤ s ∧ ∃ k, k ≤ deg ∧
          t = ⟨p0 + triangle s * (deg + 1) + r * (deg + 1) + k, r, s, k⟩ := by
  simp only [groupTuples, List.mem_flatMap, List.mem_map, List.mem_range, Nat.lt_succ_iff]
  constructor
  · rintro ⟨s, hs, r, hr, k, hk, rfl⟩
    exact ⟨s, hs, r, hr, k, hk, rfl⟩
  · rintro ⟨s, hs, r, hr, k, hk, rfl⟩
    exact ⟨s, hs, r, hr, k, hk, rfl⟩

theorem flatMap_range'_block (c : ℕ) (n : ℕ) : ∀ p : ℕ,
    (List.range n).flatMap (fun r => List.range' (p + r * c) c) = List.range' p (n * c) := by
  induction n with
  | zero => intro p; simp
  | succ n ih =>
    intro p
    rw [show List.range (n + 1) = List.range n ++ [n] from List.range_succ n,
      List.flatMap_append, ih]
    simp only [List.flatMap_cons, List.flatMap_nil, List.append_nil]
    have h := List.range'_append p (n * c) c 1
    simp only [one_mul] at h
    rw [h]
    congr 1
    ring

theorem flatMap_range'_triangle (c : ℕ) (dim : ℕ) : ∀ p : ℕ,
    (List.range dim).flatMap (fun s => List.range' (p + triangle s * c) ((s + 1) * c))
      = List.range' p (triangle dim * c) := by
  induction dim with
  | zero => intro p; simp [triangle]
  | succ n ih =>
    intro p
    rw [show List.range (n + 1) = List.range n ++ [n] from List.range_succ n,
      List.flatMap_append, ih]
    simp only [List.flatMap_cons, List.flatMap_nil, List.append_nil]
    have h := List.range'_append p (triangle n * c) ((n + 1) * c) 1
    simp only [one_mul] at h
    rw [h]
    congr 1
    rw [triangle_succ]
    ring

theorem map_p_groupTuples (p0 dim deg : ℕ) :
    (groupTuples p0 dim deg).map (fun t => t.p) = List.range' p0 (tupleCount dim deg) := by
  unfold groupTuples tupleCount
  rw [List.map_flatMap]
  have hinner : ∀ s, ((List.range (s + 1)).flatMap (fun r =>
        (List.range (deg + 1)).map
          (fun k => (⟨p0 + triangle s * (deg + 1) + r * (deg + 1) + k, r, s, k⟩ : IndexTuple)))).map
            (fun t => t.p)
      = List.range' (p0 + triangle s * (deg + 1)) ((s + 1) * (deg + 1)) := by
    intro s
    rw [List.map_flatMap]
    have : ∀ r, ((List.range (deg + 1)).map
          (fun k => (⟨p0 + triangle s * (deg + 1) + r * (deg + 1) + k, r, s, k⟩ : IndexTuple))).map
            (fun t => t.p)
        = List.range' ((p0 + triangle s * (deg + 1)) + r * (deg + 1)) (deg + 1) := by
      intro r
      rw [List.map_map, List.range'_eq_map_range]
      rfl
    rw [List.flatMap_congr (fun r _ => this r)]
    exact flatMap_range'_block (deg + 1) (s + 1) (p0 + triangle s * (deg + 1))
  calc (List.range dim).flatMap (fun s => ((List.range (s + 1)).flatMap (fun r =>
          (List.range (deg + 1)).map
            (fun k => (⟨p0 + triangle s * (deg + 1) + r * (deg + 1) + k, r, s, k⟩ : IndexTuple)))).map
              (fun t => t.p))
      = (List.range dim).flatMap (fun s =>
          List.range' (p0 + triangle s * (deg + 1)) ((s + 1) * (deg + 1))) :=
        List.flatMap_congr (fun s _ => hinner s)
    _ = List.range' p0 (triangle dim * (deg + 1)) := flatMap_range'_triangle (deg + 1) dim p0

theorem flatten_map_range' (c : ℕ → ℕ) (n : ℕ) : ∀ p0 : ℕ,
    (((List.range n).map (fun j =>
        List.range' (p0 + ∑ i ∈ Finset.range j, c i) (c j)))).flatten
      = List.range' p0 (∑ i ∈ Finset.range n, c i) := by
  induction n with
  | zero => intro p0; simp
  | succ n ih =>
    intro p0
    rw [show List.range (n + 1) = List.range n ++ [n] from List.range_succ n,
      List.map_append, List.flatten_append, ih]
    simp only [List.map_cons, List.map_nil, List.flatten_cons, List.flatten_nil, List.append_nil]
    have h := List.range'_append p0 (∑ i ∈ Finset.range n, c i) (c n) 1
    simp only [one_mul] at h
    rw [h]
    congr 1
    rw [Finset.sum_range_succ]
    ring

/-- The `p` fields across the whole enumeration, in order, are
`0, 1, 2, …`. -/
theorem cit_flatten_map_p (dims degs : List ℕ) :
    ((initializeConstraintIndices dims degs).flatten).map (fun t => t.p)
      = List.range (startOffset dims degs dims.length) := by
  rw [initializeConstraintIndices_eq, List.map_flatten, List.map_map]
  have : ((fun l => List.map (fun t => t.p) l) ∘ fun j =>
        groupTuples (startOffset dims degs j) (dims.getD j 0) (degs.getD j 0))
      = fun j => List.range' (0 + ∑ i ∈ Finset.range j,
          tupleCount (dims.getD i 0) (degs.getD i 0))
          (tupleCount (dims.getD j 0) (degs.getD j 0)) := by
    funext j
    simp only [Function.comp_apply, map_p_groupTuples, startOffset, Nat.zero_add]
  rw [this, flatten_map_range' (fun i => tupleCount (dims.getD i 0) (degs.getD i 0))
    dims.length 0]
  rw [startOffset, List.range_eq_range']

theorem pairwise_lt_range' (s n : ℕ) : List.Pairwise (· < ·) (List.range' s n) := by
  rw [List.range'_eq_map_range]
  rw [List.pairwise_map]
  exact (List.pairwise_lt_range n).imp (fun h => by omega)

/-- `p` is strictly increasing along the whole enumeration. -/
theorem cit_flatten_pairwise (dims degs : List ℕ) :
    List.Pairwise (fun t1 t2 => t1.p < t2.p)
      ((initializeConstraintIndices dims degs).flatten) := by
  have h := cit_flatten_map_p dims degs
  have hp : List.Pairwise (· < ·)
      (((initializeConstraintIndices dims degs).flatten).map (fun t => t.p)) := by
    rw [h]; exact List.pairwise_lt_range _
  exact List.pairwise_map.mp hp

theorem getD_map_range {α : Type} (f : ℕ → α) (n j : ℕ) (d : α) (hj : j < n) :
    ((List.range n).map f).getD j d = f j := by
  rw [List.getD_eq_getElem _ _ (by simpa using hj)]
  simp

/-- Group `j` of the enumeration, in closed form. -/
theorem cit_getD (dims degs : List ℕ) {j : ℕ} (hj : j < dims.length) :
    (initializeConstraintIndices dims degs).getD j []
      = groupTuples (startOffset dims degs j) (dims.getD j 0) (degs.getD j 0) := by
  rw [initializeConstraintIndices_eq]
  exact getD_map_range _ _ _ _ hj

theorem cit_group_mem_flatten (dims degs : List ℕ) {j : ℕ} (hj : j < dims.length)
    {t : IndexTuple} (ht : t ∈ (initializeConstraintIndices dims degs).getD j []) :
    t ∈ (initializeConstraintIndices dims degs).flatten := by
  have hmem : (initializeConstraintIndices dims degs).getD j []
      ∈ initializeConstraintIndices dims degs := by
    have hlen : j < (initializeConstraintIndices dims degs).length := by
      rw [initializeConstraintIndices_eq]; simpa using hj
    rw [List.getD_eq_getElem _ _ hlen]
    exact List.getElem_mem _
  exact List.mem_flatten.mpr ⟨_, hmem, ht⟩

/-- `p` is strictly increasing inside each group. -/
theorem cit_group_pairwise (dims degs : List ℕ) {j : ℕ} (hj : j < dims.length) :
    List.Pairwise (fun t1 t2 => t1.p < t2.p)
      ((initializeConstraintIndices dims degs).getD j []) := by
  refine List.Pairwise.sublist ?_ (cit_flatten_pairwise dims degs)
  have hlen : j < (initializeConstraintIndices dims degs).length := by
    rw [initializeConstraintIndices_eq]; simpa using hj
  rw [List.getD_eq_getElem _ _ hlen]
  exact List.sublist_flatten_of_mem (List.getElem_mem _)

theorem off_lt_tupleCount {dim deg s r k : ℕ} (hr : r ≤ s) (hs : s < dim) (hk : k ≤ deg) :
    triangle s * (deg + 1) + r * (deg + 1) + k < tupleCount dim deg := by
  unfold tupleCount
  have h1 : triangle s * (deg + 1) + r * (deg + 1) + k < triangle (s + 1) * (deg + 1) := by
    rw [triangle_succ, Nat.add_mul]
    have h2 : r * (deg + 1) + k < (s + 1) * (deg + 1) := by
      have : r * (deg + 1) + k < (r + 1) * (deg + 1) := by
        rw [Nat.add_mul, one_mul]; omega
      have hmul : (r + 1) * (deg + 1) ≤ (s + 1) * (deg + 1) :=
        Nat.mul_le_mul_right _ (by omega)
      omega
    omega
  have h3 : triangle (s + 1) * (deg + 1) ≤ triangle dim * (deg + 1) :=
    Nat.mul_le_mul_right _ (triangle_mono hs)
  omega

theorem off_lt_of_lexLt3 {deg s1 r1 k1 s2 r2 k2 : ℕ}
    (hr1 : r1 ≤ s1) (hk1 : k1 ≤ deg) (hr2 : r2 ≤ s2) (_hk2 : k2 ≤ deg)
    (h : lexLt3 (s1, r1, k1) (s2, r2, k2)) :
    triangle s1 * (deg + 1) + r1 * (deg + 1) + k1
      < triangle s2 * (deg + 1) + r2 * (deg + 1) + k2 := by
  unfold lexLt3 at h
  dsimp only at h
  rcases h with hs | ⟨rfl, hrk⟩
  · -- s1 < s2
    have h1 : triangle s1 * (deg + 1) + r1 * (deg + 1) + k1 < triangle s2 * (deg + 1) :=
      off_lt_tupleCount hr1 hs hk1
    omega
  · rcases hrk with hr | ⟨rfl, hk⟩
    · -- equal s, r1 < r2
      have h1 : r1 * (deg + 1) + k1 < (r1 + 1) * (deg + 1) := by
        rw [Nat.add_mul, one_mul]; omega
      have h2 : (r1 + 1) * (deg + 1) ≤ r2 * (deg + 1) := Nat.mul_le_mul_right _ (by omega)
      omega
    · -- equal s and r, k1 < k2
      omega

theorem lexLt3_trichotomy (a b : ℕ × ℕ × ℕ) : lexLt3 a b ∨ a = b ∨ lexLt3 b a := by
  obtain ⟨a1, a2, a3⟩ := a
  obtain ⟨b1, b2, b3⟩ := b
  unfold lexLt3
  simp only [Prod.mk.injEq]
  omega

theorem off_inj {deg s1 r1 k1 s2 r2 k2 : ℕ}
    (hr1 : r1 ≤ s1) (hk1 : k1 ≤ deg) (hr2 : r2 ≤ s2) (hk2 : k2 ≤ deg)
    (h : triangle s1 * (deg + 1) + r1 * (deg + 1) + k1
      = triangle s2 * (deg + 1) + r2 * (deg + 1) + k2) :
    s1 = s2 ∧ r1 = r2 ∧ k1 = k2 := by
  rcases lexLt3_trichotomy (s1, r1, k1) (s2, r2, k2) with hlt | heq | hgt
  · exact absurd h (Nat.ne_of_lt (off_lt_of_lexLt3 hr1 hk1 hr2 hk2 hlt))
  · exact ⟨congrArg (fun x => x.1) heq, congrArg (fun x => x.2.1) heq,
      congrArg (fun x => x.2.2) heq⟩
  · exact absurd h.symm (Nat.ne_of_lt (off_lt_of_lexLt3 hr2 hk2 hr1 hk1 hgt))

theorem startOffset_succ (dims degs : List ℕ) (j : ℕ) :
    startOffset dims degs (j + 1)
      = startOffset dims degs j + tupleCount (dims.getD j 0) (degs.getD j 0) :=
  Finset.sum_range_succ _ j

theorem startOffset_mono (dims degs : List ℕ) {j1 j2 : ℕ} (h : j1 ≤ j2) :
    startOffset dims degs j1 ≤ startOffset dims degs j2 := by
  unfold startOffset
  exact Finset.sum_le_sum_of_subset (Finset.range_subset.mpr h)

/-- Structure of a member of group `j`: field bounds and the mixed-radix
form of its `p`. -/
theorem cit_mem_struct (dims degs : List ℕ) {j : ℕ} (hj : j < dims.length) {t : IndexTuple}
    (ht : t ∈ (initializeConstraintIndices dims degs).getD j []) :
    t.r ≤ t.s ∧ t.s < dims.getD j 0 ∧ t.k ≤ degs.getD j 0
      ∧ t.p = startOffset dims degs j
          + triangle t.s * (degs.getD j 0 + 1) + t.r * (degs.getD j 0 + 1) + t.k
      ∧ startOffset dims degs j ≤ t.p
      ∧ t.p < startOffset dims degs (j + 1) := by
  rw [cit_getD dims degs hj] at ht
  rcases mem_groupTuples.mp ht with ⟨s, hs, r, hr, k, hk, rfl⟩
  dsimp only
  refine ⟨hr, hs, hk, by omega, by omega, ?_⟩
  rw [startOffset_succ]
  have := off_lt_tupleCount hr hs hk
  omega

/-- `p` determines the group and the tuple. -/
theorem cit_p_inj (dims degs : List ℕ) {j1 j2 : ℕ} (h1 : j1 < dims.length)
    (h2 : j2 < dims.length) {t1 t2 : IndexTuple}
    (m1 : t1 ∈ (initializeConstraintIndices dims degs).getD j1 [])
    (m2 : t2 ∈ (initializeConstraintIndices dims degs).getD j2 [])
    (hp : t1.p = t2.p) : j1 = j2 ∧ t1 = t2 := by
  obtain ⟨hr1, hs1, hk1, hpf1, hlo1, hhi1⟩ := cit_mem_struct dims degs h1 m1
  obtain ⟨hr2, hs2, hk2, hpf2, hlo2, hhi2⟩ := cit_mem_struct dims degs h2 m2
  have hj : j1 = j2 := by
    by_contra hne
    rcases Nat.lt_or_ge j1 j2 with hlt | hge
    · have := startOffset_mono dims degs (show j1 + 1 ≤ j2 by omega)
      omega
    · have hlt : j2 < j1 := lt_of_le_of_ne hge (Ne.symm hne)
      have := startOffset_mono dims degs (show j2 + 1 ≤ j1 by omega)
      omega
  subst hj
  have hoff : triangle t1.s * (degs.getD j1 0 + 1) + t1.r * (degs.getD j1 0 + 1) + t1.k
      = triangle t2.s * (degs.getD j1 0 + 1) + t2.r * (degs.getD j1 0 + 1) + t2.k := by
    omega
  obtain ⟨hs, hr, hk⟩ := off_inj hr1 hk1 hr2 hk2 hoff
  refine ⟨rfl, ?_⟩
  obtain ⟨p1, r1, s1, k1⟩ := t1
  obtain ⟨p2, r2, s2, k2⟩ := t2
  simp only at hs hr hk hp
  simp [hp, hr, hs, hk]

/-- In a `p`-sorted list, `takeWhile (p ≤ P)` keeps exactly the members
with `p ≤ P`. -/
theorem mem_takeWhile_p_le {l : List IndexTuple}
    (hsorted : List.Pairwise (fun t1 t2 => t1.p < t2.p) l) (P : ℕ) {t : IndexTuple} :
    t ∈ l.takeWhile (fun t2 => decide (t2.p ≤ P)) ↔ t ∈ l ∧ t.p ≤ P := by
  induction l with
  | nil => simp
  | cons a l ih =>
    rw [List.takeWhile_cons]
    by_cases ha : a.p ≤ P
    · rw [if_pos (by simpa using ha)]
      simp only [List.mem_cons]
      rw [ih (List.Pairwise.of_cons hsorted)]
      constructor
      · rintro (rfl | ⟨hm, hle⟩)
        · exact ⟨Or.inl rfl, ha⟩
        · exact ⟨Or.inr hm, hle⟩
      · rintro ⟨rfl | hm, hle⟩
        · exact Or.inl rfl
        · exact Or.inr ⟨hm, hle⟩
    · rw [if_neg (by simpa using ha)]
      simp only [List.not_mem_nil, false_iff, not_and]
      intro hm
      rcases List.mem_cons.mp hm with rfl | hm
      · intro hle; omega
      · have := (List.pairwise_cons.mp hsorted).1 t hm
        omega

/-- Total number of tuples; equals the flattened length. -/
theorem cit_flatten_length (dims degs : List ℕ) :
    ((initializeConstraintIndices dims degs).flatten).length
      = startOffset dims degs dims.length := by
  have h := congrArg List.length (cit_flatten_map_p dims degs)
  rw [List.length_map, List.length_range] at h
  exact h

/-- A member's `p` is below the total count. -/
theorem cit_p_lt (dims degs : List ℕ) {j : ℕ} (hj : j < dims.length) {t : IndexTuple}
    (ht : t ∈ (initializeConstraintIndices dims degs).getD j []) :
    t.p < startOffset dims degs dims.length := by
  have h := (cit_mem_struct dims degs hj ht).2.2.2.2.2
  have := startOffset_mono dims degs (show j + 1 ≤ dims.length by omega)
  omega

/-! ## Claim C8 -/

/-- **C8**.  The generated constraint index tuples satisfy the
`IndexTuple` invariant: group `j` contains exactly the tuples `(p,r,s,k)`
with `r ≤ s < dimensions[j]` and `k ≤ degrees[j]`; the global `p` starts
at 0 and increments by exactly 1 along the enumeration; and the
enumeration order is lexicographic in `(j, s, r, k)` — within a group `p`
increases exactly with the lexicographic order on `(s, r, k)`, and every
tuple of an earlier group precedes every tuple of a later group. -/
theorem initializeConstraintIndices_spec (dims degs : List ℕ) :
    (∀ j < dims.length, ∀ t ∈ (initializeConstraintIndices dims degs).getD j [],
        t.r ≤ t.s ∧ t.s < dims.getD j 0 ∧ t.k ≤ degs.getD j 0)
      ∧ (∀ j < dims.length, ∀ r s k : ℕ, r ≤ s → s < dims.getD j 0 → k ≤ degs.getD j 0 →
          ∃ t ∈ (initializeConstraintIndices dims degs).getD j [],
            t.r = r ∧ t.s = s ∧ t.k = k)
      ∧ ((initializeConstraintIndices dims degs).flatten).map (fun t => t.p)
          = List.range (((initializeConstraintIndices dims degs).flatten).length)
      ∧ (∀ j < dims.length, ∀ t1 ∈ (initializeConstraintIndices dims degs).getD j [],
          ∀ t2 ∈ (initializeConstraintIndices dims degs).getD j [],
            (t1.p < t2.p ↔ lexLt3 (t1.s, t1.r, t1.k) (t2.s, t2.r, t2.k)))
      ∧ (∀ j1 j2 : ℕ, j1 < j2 → j2 < dims.length →
          ∀ t1 ∈ (initializeConstraintIndices dims degs).getD j1 [],
          ∀ t2 ∈ (initializeConstraintIndices dims degs).getD j2 [], t1.p < t2.p) := by
  refine ⟨?_, ?_, ?_, ?_, ?_⟩
  · intro j hj t ht
    obtain ⟨h1, h2, h3, _⟩ := cit_mem_struct dims degs hj ht
    exact ⟨h1, h2, h3⟩
  · intro j hj r s k hr hs hk
    refine ⟨⟨startOffset dims degs j + triangle s * (degs.getD j 0 + 1)
      + r * (degs.getD j 0 + 1) + k, r, s, k⟩, ?_, rfl, rfl, rfl⟩
    rw [cit_getD dims degs hj]
    exact mem_groupTuples.mpr ⟨s, hs, r, hr, k, hk, rfl⟩
  · rw [cit_flatten_map_p, cit_flatten_length]
  · intro j hj t1 h1 t2 h2
    obtain ⟨hr1, hs1, hk1, hpf1, _, _⟩ := cit_mem_struct dims degs hj h1
    obtain ⟨hr2, hs2, hk2, hpf2, _, _⟩ := cit_mem_struct dims degs hj h2
    constructor
    · intro hplt
      rcases lexLt3_trichotomy (t1.s, t1.r, t1.k) (t2.s, t2.r, t2.k) with h | h | h
      · exact h
      · exfalso
        have hs : t1.s = t2.s := congrArg (fun x => x.1) h
        have hr : t1.r = t2.r := congrArg (fun x => x.2.1) h
        have hk : t1.k = t2.k := congrArg (fun x => x.2.2) h
        rw [hs, hr, hk] at hpf1
        omega
      · exfalso
        have := off_lt_of_lexLt3 hr2 hk2 hr1 hk1 h
        omega
    · intro hlex
      have := off_lt_of_lexLt3 hr1 hk1 hr2 hk2 hlex
      omega
  · intro j1 j2 hj12 hj2 t1 h1 t2 h2
    obtain ⟨_, _, _, _, _, hhi1⟩ := cit_mem_struct dims degs (lt_trans hj12 hj2) h1
    obtain ⟨_, _, _, _, hlo2, _⟩ := cit_mem_struct dims degs hj2 h2
    have := startOffset_mono dims degs (show j1 + 1 ≤ j2 by omega)
    omega

/-- Witness for C8 at `dimensions = [2]`, `degrees = [1]`: the tuple with
`(r, s, k) = (0, 1, 1)` exists in group 0. -/
theorem initializeConstraintIndices_spec_witness :
    ∃ t ∈ (initializeConstraintIndices [2] [1]).getD 0 [], t.r = 0 ∧ t.s = 1 ∧ t.k = 1 :=
  (initializeConstraintIndices_spec [2] [1]).2.1 0 (by decide) 0 1 1 (by decide) (by decide)
    (by decide)

/-! ## Lemmas: vector write lists and fold reshaping -/

theorem foldl_flatMap {α β γ : Type} (l : List α) (f : α → List β) (g : γ → β → γ)
    (init : γ) :
    (l.flatMap f).foldl g init = l.foldl (fun acc x => (f x).foldl g acc) init := by
  induction l generalizing init with
  | nil => rfl
  | cons a l ih => rw [List.flatMap_cons, List.foldl_append, List.foldl_cons, ih]

@[simp] theorem applyVSets_length (v : Vector) (ws : List (ℕ × Real)) :
    (applyVSets v ws).length = v.length := by
  induction ws generalizing v with
  | nil => rfl
  | cons w ws ih => simpa [applyVSets] using ih (v.set w.1 w.2)

theorem getD_set_ne (v : Vector) (i : ℕ) (x : Real) {a : ℕ} (h : i ≠ a) :
    (v.set i x).getD a 0 = v.getD a 0 := by
  by_cases ha : a < v.length
  · rw [List.getD_eq_getElem _ _ (by simpa using ha), List.getD_eq_getElem _ _ ha,
      List.getElem_set, if_neg h]
  · rw [List.getD_eq_default _ _ (by simpa using Nat.le_of_not_lt ha),
      List.getD_eq_default _ _ (Nat.le_of_not_lt ha)]

theorem applyVSets_getD_miss (v : Vector) (ws : List (ℕ × Real)) {a : ℕ}
    (h : ∀ w ∈ ws, w.1 ≠ a) : (applyVSets v ws).getD a 0 = v.getD a 0 := by
  induction ws generalizing v with
  | nil => rfl
  | cons w ws ih =>
    have h1 := ih (v.set w.1 w.2) (fun w' hw' => h w' (List.mem_cons_of_mem _ hw'))
    have h2 := getD_set_ne v w.1 w.2 (h w (List.mem_cons_self _ _))
    simpa [applyVSets] using h1.trans h2

theorem applyVSets_getD_hit (v : Vector) (ws : List (ℕ × Real)) {a : ℕ} {val : Real}
    (ha : a < v.length) (hmem : ∃ w ∈ ws, w.1 = a)
    (hval : ∀ w ∈ ws, w.1 = a → w.2 = val) :
    (applyVSets v ws).getD a 0 = val := by
  induction ws generalizing v with
  | nil => exact absurd hmem (by simp)
  | cons w ws ih =>
    by_cases hrest : ∃ w' ∈ ws, w'.1 = a
    · have := ih (v.set w.1 w.2) (by simpa using ha) hrest
        (fun w' hw' => hval w' (List.mem_cons_of_mem _ hw'))
      simpa [applyVSets] using this
    · rcases hmem with ⟨w', hw', hw'a⟩
      rcases List.mem_cons.mp hw' with rfl | hmem'
      · have huntouched : (applyVSets (v.set w'.1 w'.2) ws).getD a 0
            = (v.set w'.1 w'.2).getD a 0 :=
          applyVSets_getD_miss _ ws (fun w'' hw'' hc => hrest ⟨w'', hw'', hc⟩)
        have hset : (v.set w'.1 w'.2).getD a 0 = w'.2 := by
          subst hw'a
          rw [List.getD_eq_getElem _ _ (by simpa using ha), List.getElem_set, if_pos rfl]
        have hv : w'.2 = val := hval w' (List.mem_cons_self _ _) hw'a
        simpa [applyVSets] using (huntouched.trans hset).trans hv
      · exact absurd ⟨w', hmem', hw'a⟩ hrest

theorem foldl_sub_sub {α : Type} (l : List α) (f g : α → Real) (init : Real) :
    l.foldl (fun acc b => acc - f b - g b) init = init - (l.map (fun b => f b + g b)).sum := by
  induction l generalizing init with
  | nil => simp
  | cons a l ih =>
    rw [List.foldl_cons, ih, List.map_cons, List.sum_cons]
    ring

theorem foldl_sub {α : Type} (l : List α) (h : α → Real) (init : Real) :
    l.foldl (fun acc b => acc - h b) init = init - (l.map h).sum := by
  induction l generalizing init with
  | nil => simp
  | cons a l ih =>
    rw [List.foldl_cons, ih, List.map_cons, List.sum_cons]
    ring

/-! ## Claim C5 -/

/-- The write list of `computeDualResidues`. -/
theorem computeDualResidues_eq (sdp : SDP) (Y TY : BlockDiagonalMatrix)
    (cit : List (List IndexTuple)) (dualResidues : Vector) :
    computeDualResidues sdp Y TY cit dualResidues
      = applyVSets dualResidues
          ((List.range sdp.dimensions.length).flatMap (fun j =>
            (cit.getD j []).map (fun t => (t.p, dualResidueValue sdp Y TY j t)))) := by
  unfold computeDualResidues applyVSets
  rw [foldl_flatMap]
  simp only [List.foldl_map]

theorem dualResidueValue_eq (sdp : SDP) (Y TY : BlockDiagonalMatrix) (j : ℕ)
    (t : IndexTuple) :
    dualResidueValue sdp Y TY j t
      = sdp.affineConstants.getD t.p 0
        - (1/2) * ((sdp.blocks.getD j []).map (fun b =>
            (TY.blocks.getD b matrixD).get
                (t.r * (sdp.degrees.getD j 0 + 1) + t.k) (t.s * (sdp.degrees.getD j 0 + 1) + t.k)
              + (TY.blocks.getD b matrixD).get
                (t.s * (sdp.degrees.getD j 0 + 1) + t.k)
                (t.r * (sdp.degrees.getD j 0 + 1) + t.k))).sum
        - ∑ n ∈ Finset.range sdp.polMatrixValues.cols,
            sdp.polMatrixValues.get t.p n * Y.diagonalPart.getD n 0 := by
  simp only [dualResidueValue]
  rw [foldl_sub_sub, foldl_sub, list_sum_range]
  rw [Finset.sum_congr rfl (fun n _ => mul_comm (Y.diagonalPart.getD n 0)
    (sdp.polMatrixValues.get t.p n))]
  ring

/-- **C5**.  For every canonical index tuple `(p, r, s, k)` of group `j`
with `e_j = degrees[j] + 1`, `computeDualResidues` sets
`dualResidues[p] = affineConstants[p]
  − ½·Σ_{b ∈ blocks[j]} (T_Y[b](e_j·r+k, e_j·s+k) + T_Y[b](e_j·s+k, e_j·r+k))
  − Σ_n polMatrixValues[p,n]·Y.diagonalPart[n]`. -/
theorem computeDualResidues_spec (sdp : SDP) (Y bilinearPairingsY : BlockDiagonalMatrix)
    (dualResidues : Vector) (j : ℕ) (t : IndexTuple)
    (hj : j < sdp.dimensions.length)
    (ht : t ∈ (initializeConstraintIndices sdp.dimensions sdp.degrees).getD j [])
    (hlen : ((initializeConstraintIndices sdp.dimensions sdp.degrees).flatten).length
      ≤ dualResidues.length) :
    (computeDualResidues sdp Y bilinearPairingsY
        (initializeConstraintIndices sdp.dimensions sdp.degrees) dualResidues).getD t.p 0
      = sdp.affineConstants.getD t.p 0
        - (1/2) * ((sdp.blocks.getD j []).map (fun b =>
            (bilinearPairingsY.blocks.getD b matrixD).get
                ((sdp.degrees.getD j 0 + 1) * t.r + t.k) ((sdp.degrees.getD j 0 + 1) * t.s + t.k)
              + (bilinearPairingsY.blocks.getD b matrixD).get
                ((sdp.degrees.getD j 0 + 1) * t.s + t.k)
                ((sdp.degrees.getD j 0 + 1) * t.r + t.k))).sum
        - ∑ n ∈ Finset.range sdp.polMatrixValues.cols,
            sdp.polMatrixValues.get t.p n * Y.diagonalPart.getD n 0 := by
  rw [computeDualResidues_eq]
  have hplt : t.p < dualResidues.length := by
    have h1 := cit_p_lt sdp.dimensions sdp.degrees hj ht
    have h2 := cit_flatten_length sdp.dimensions sdp.degrees
    omega
  have hval : ∀ w ∈ (List.range sdp.dimensions.length).flatMap (fun j =>
      ((initializeConstraintIndices sdp.dimensions sdp.degrees).getD j []).map
        (fun t => (t.p, dualResidueValue sdp Y bilinearPairingsY j t))),
      w.1 = t.p → w.2 = dualResidueValue sdp Y bilinearPairingsY j t := by
    intro w hw hwp
    rcases List.mem_flatMap.mp hw with ⟨j', hj', hw'⟩
    rcases List.mem_map.mp hw' with ⟨t', ht', rfl⟩
    have hj'lt : j' < sdp.dimensions.length := by simpa using hj'
    obtain ⟨hjeq, hteq⟩ := cit_p_inj sdp.dimensions sdp.degrees hj'lt hj ht' ht hwp
    subst hjeq; subst hteq
    rfl
  rw [applyVSets_getD_hit dualResidues _ hplt
    ⟨(t.p, dualResidueValue sdp Y bilinearPairingsY j t),
      List.mem_flatMap.mpr ⟨j, by simp [hj], List.mem_map.mpr ⟨t, ht, rfl⟩⟩, rfl⟩
    hval, dualResidueValue_eq]
  congr 3
  refine congrArg List.sum (List.map_congr_left (fun b _ => ?_))
  rw [Nat.mul_comm (sdp.degrees.getD j 0 + 1) t.r, Nat.mul_comm (sdp.degrees.getD j 0 + 1) t.s]

/-- Witness for C5 on a one-constraint SDP. -/
theorem computeDualResidues_spec_witness :
    (computeDualResidues
        { bilinearBases := [⟨1, 1, fun _ => 1⟩], numConstraints := 1, objDimension := 1,
          polMatrixValues := ⟨1, 1, fun _ => 3⟩, affineConstants := [7], objective := [0],
          dimensions := [1], degrees := [0], blocks := [[0]] }
        ⟨[5], [⟨1, 1, fun _ => 1⟩]⟩ ⟨[], [⟨1, 1, fun _ => 2⟩]⟩
        (initializeConstraintIndices [1] [0]) [0]).getD 0 0 = -10 := by
  have h := computeDualResidues_spec
    { bilinearBases := [⟨1, 1, fun _ => 1⟩], numConstraints := 1, objDimension := 1,
      polMatrixValues := ⟨1, 1, fun _ => 3⟩, affineConstants := [7], objective := [0],
      dimensions := [1], degrees := [0], blocks := [[0]] }
    ⟨[5], [⟨1, 1, fun _ => 1⟩]⟩ ⟨[], [⟨1, 1, fun _ => 2⟩]⟩ [0] 0 ⟨0, 0, 0, 0⟩
    (by decide) (by decide) (by decide)
  refine h.trans ?_
  norm_num [Matrix.get, matrixD, Finset.sum_range_succ]

/-! ## Claim C1: lemmas -/

theorem foldl_add {α : Type} (l : List α) (f : α → Real) (init : Real) :
    l.foldl (fun acc b => acc + f b) init = init + (l.map f).sum := by
  induction l generalizing init with
  | nil => simp
  | cons a l ih =>
    rw [List.foldl_cons, ih, List.map_cons, List.sum_cons]
    ring

theorem sum_map_div {α : Type} (l : List α) (f : α → Real) (c : Real) :
    (l.map (fun b => f b / c)).sum = (l.map f).sum / c := by
  induction l with
  | nil => simp
  | cons a l ih =>
    rw [List.map_cons, List.sum_cons, List.map_cons, List.sum_cons, ih]
    ring

theorem sum_filter_flatMap {α β : Type} (l : List α) (f : α → List β) (P : β → Bool)
    (v : β → Real) :
    (((l.flatMap f).filter P).map v).sum
      = (l.map (fun x => (((f x).filter P).map v).sum)).sum := by
  induction l with
  | nil => rfl
  | cons a l ih =>
    rw [List.flatMap_cons, List.filter_append, List.map_append, List.sum_append, ih,
      List.map_cons, List.sum_cons]

theorem list_sum_map_zero {α : Type} (l : List α) (g : α → Real)
    (h : ∀ x ∈ l, g x = 0) : (l.map g).sum = 0 := by
  refine List.sum_eq_zero (fun x hx => ?_)
  rcases List.mem_map.mp hx with ⟨y, hy, rfl⟩
  exact h y hy

theorem list_sum_map_eq_single {α : Type} (l : List α) (g : α → Real) (x0 : α)
    (h0 : x0 ∈ l) (hnd : l.Nodup) (hz : ∀ x ∈ l, x ≠ x0 → g x = 0) :
    (l.map g).sum = g x0 := by
  induction l with
  | nil => simp at h0
  | cons a l ih =>
    rw [List.map_cons, List.sum_cons]
    rcases List.mem_cons.mp h0 with rfl | hmem
    · have hz' : (l.map g).sum = 0 := by
        refine list_sum_map_zero l g (fun x hx => ?_)
        refine hz x (List.mem_cons_of_mem _ hx) ?_
        intro heq
        exact (List.nodup_cons.mp hnd).1 (heq ▸ hx)
      rw [hz']; ring
    · have ha : g a = 0 := by
        refine hz a (List.mem_cons_self _ _) ?_
        intro heq
        exact (List.nodup_cons.mp hnd).1 (heq ▸ hmem)
      rw [ha, ih hmem (List.nodup_cons.mp hnd).2
        (fun x hx => hz x (List.mem_cons_of_mem _ hx))]
      ring

theorem cit_group_nodup (dims degs : List ℕ) {j : ℕ} (hj : j < dims.length) :
    ((initializeConstraintIndices dims degs).getD j []).Nodup :=
  (cit_group_pairwise dims degs hj).imp
    (fun hlt heq => absurd (heq ▸ hlt) (lt_irrefl _))

/-- What the writes of one `(t1, t2)` pair contribute to entry `(a, b)`. -/
theorem pair_filter_sum (sdp : SDP) (TX TY : BlockDiagonalMatrix) (j : ℕ)
    (t1 t2 : IndexTuple) (a b : ℕ) :
    ((((t1.p, t2.p, schurTmp sdp TX TY j t1 t2) ::
        if t2.p ≠ t1.p then [(t2.p, t1.p, schurTmp sdp TX TY j t1 t2)] else []).filter
          (fun w => decide (w.1 = a ∧ w.2.1 = b))).map
        (fun w : ℕ × ℕ × Real => w.2.2)).sum
      = schurContrib sdp TX TY j t1 t2 a b := by
  unfold schurContrib
  by_cases hne : t2.p = t1.p
  · rw [if_neg (by simpa using hne)]
    simp only [List.filter_cons, List.filter_nil, decide_eq_true_eq]
    by_cases h1 : t1.p = a ∧ t2.p = b
    · rw [if_pos h1, if_pos h1, if_neg (show ¬(t2.p ≠ t1.p ∧ t2.p = a ∧ t1.p = b) by tauto)]
      simp
    · rw [if_neg h1, if_neg h1, if_neg (show ¬(t2.p ≠ t1.p ∧ t2.p = a ∧ t1.p = b) by tauto)]
      simp
  · rw [if_pos hne]
    simp only [List.filter_cons, List.filter_nil, decide_eq_true_eq]
    by_cases h1 : t1.p = a ∧ t2.p = b
    · by_cases h2 : t2.p = a ∧ t1.p = b
      · rw [if_pos h1, if_pos h2, if_pos h1, if_pos (⟨hne, h2⟩ : _ ∧ _)]
        simp
      · rw [if_pos h1, if_neg h2, if_pos h1,
          if_neg (show ¬(t2.p ≠ t1.p ∧ t2.p = a ∧ t1.p = b) by tauto)]
        simp
    · by_cases h2 : t2.p = a ∧ t1.p = b
      · rw [if_neg h1, if_pos h2, if_neg h1, if_pos (⟨hne, h2⟩ : _ ∧ _)]
        simp
      · rw [if_neg h1, if_neg h2, if_neg h1,
          if_neg (show ¬(t2.p ≠ t1.p ∧ t2.p = a ∧ t1.p = b) by tauto)]
        simp

/-- The total delta `addSchurBlocks` adds at entry `(a, b)`, as a triple
sum of per-pair contributions. -/
theorem schur_delta (sdp : SDP) (TX TY : BlockDiagonalMatrix)
    (cit : List (List IndexTuple)) (a b : ℕ) :
    (((schurUpdates sdp TX TY cit).filter
        (fun w => decide (w.1 = a ∧ w.2.1 = b))).map (fun w => w.2.2)).sum
      = ((List.range sdp.dimensions.length).map (fun j =>
          ((cit.getD j []).map (fun t1 =>
            (((cit.getD j []).takeWhile (fun t2 => decide (t2.p ≤ t1.p))).map (fun t2 =>
              schurContrib sdp TX TY j t1 t2 a b)).sum)).sum)).sum := by
  unfold schurUpdates
  rw [sum_filter_flatMap]
  refine congrArg List.sum (List.map_congr_left (fun j _ => ?_))
  rw [sum_filter_flatMap]
  refine congrArg List.sum (List.map_congr_left (fun t1 _ => ?_))
  rw [sum_filter_flatMap]
  refine congrArg List.sum (List.map_congr_left (fun t2 _ => ?_))
  exact pair_filter_sum sdp TX TY j t1 t2 a b

/-- Per-pair contributions are symmetric in the target entry. -/
theorem schurContrib_symm (sdp : SDP) (TX TY : BlockDiagonalMatrix) (j : ℕ)
    (t1 t2 : IndexTuple) (a b : ℕ) :
    schurContrib sdp TX TY j t1 t2 a b = schurContrib sdp TX TY j t1 t2 b a := by
  unfold schurContrib
  by_cases hab : a = b
  · subst hab; rfl
  · by_cases h1 : t1.p = a ∧ t2.p = b
    · rw [if_pos h1, if_neg (by omega), if_neg (by omega), if_pos (by omega)]
      ring
    · by_cases h2 : t1.p = b ∧ t2.p = a
      · rw [if_neg h1, if_pos (by omega), if_pos h2, if_neg (by omega)]
        ring
      · rw [if_neg h1, if_neg (by omega), if_neg h2, if_neg (by omega)]

/-- The accumulated quantity in the claim's form. -/
theorem schurTmp_eq_quantity (sdp : SDP) (TX TY : BlockDiagonalMatrix) (j : ℕ)
    (t1 t2 : IndexTuple) :
    schurTmp sdp TX TY j t1 t2
      = (1/4) * ((sdp.blocks.getD j []).map (fun b =>
          (TX.blocks.getD b matrixD).get
              ((sdp.degrees.getD j 0 + 1) * t1.s + t1.k) ((sdp.degrees.getD j 0 + 1) * t2.r + t2.k)
            * (TY.blocks.getD b matrixD).get
              ((sdp.degrees.getD j 0 + 1) * t2.s + t2.k) ((sdp.degrees.getD j 0 + 1) * t1.r + t1.k)
          + (TX.blocks.getD b matrixD).get
              ((sdp.degrees.getD j 0 + 1) * t1.r + t1.k) ((sdp.degrees.getD j 0 + 1) * t2.r + t2.k)
            * (TY.blocks.getD b matrixD).get
              ((sdp.degrees.getD j 0 + 1) * t2.s + t2.k) ((sdp.degrees.getD j 0 + 1) * t1.s + t1.k)
          + (TX.blocks.getD b matrixD).get
              ((sdp.degrees.getD j 0 + 1) * t1.s + t1.k) ((sdp.degrees.getD j 0 + 1) * t2.s + t2.k)
            * (TY.blocks.getD b matrixD).get
              ((sdp.degrees.getD j 0 + 1) * t2.r + t2.k) ((sdp.degrees.getD j 0 + 1) * t1.r + t1.k)
          + (TX.blocks.getD b matrixD).get
              ((sdp.degrees.getD j 0 + 1) * t1.r + t1.k) ((sdp.degrees.getD j 0 + 1) * t2.s + t2.k)
            * (TY.blocks.getD b matrixD).get
              ((sdp.degrees.getD j 0 + 1) * t2.r + t2.k) ((sdp.degrees.getD j 0 + 1) * t1.s + t1.k))).sum := by
  simp only [schurTmp]
  rw [foldl_add, sum_map_div]
  have hmap : ∀ (f : ℕ → Real), f = f := fun _ => rfl
  rw [List.map_congr_left (l := sdp.blocks.getD j []) (fun b _ => by
    rw [Nat.mul_comm t1.s (sdp.degrees.getD j 0 + 1), Nat.mul_comm t1.r (sdp.degrees.getD j 0 + 1),
      Nat.mul_comm t2.s (sdp.degrees.getD j 0 + 1), Nat.mul_comm t2.r (sdp.degrees.getD j 0 + 1)])]
  ring

/-- Every update row index of `addSchurBlocks` is a tuple's `p`, hence
below the total constraint count. -/
theorem schurUpdates_fst_lt (sdp : SDP) (TX TY : BlockDiagonalMatrix) {w : ℕ × ℕ × Real}
    (hw : w ∈ schurUpdates sdp TX TY
      (initializeConstraintIndices sdp.dimensions sdp.degrees)) :
    w.1 < startOffset sdp.dimensions sdp.degrees sdp.dimensions.length := by
  unfold schurUpdates at hw
  rcases List.mem_flatMap.mp hw with ⟨j, hj, hw1⟩
  rcases List.mem_flatMap.mp hw1 with ⟨t1, ht1, hw2⟩
  rcases List.mem_flatMap.mp hw2 with ⟨t2, ht2, hw3⟩
  have hjlt : j < sdp.dimensions.length := by simpa using hj
  have ht2' : t2 ∈ (initializeConstraintIndices sdp.dimensions sdp.degrees).getD j [] :=
    (List.takeWhile_sublist _).subset ht2
  have hp1 := cit_p_lt sdp.dimensions sdp.degrees hjlt ht1
  have hp2 := cit_p_lt sdp.dimensions sdp.degrees hjlt ht2'
  rcases List.mem_cons.mp hw3 with rfl | hw4
  · exact hp1
  · by_cases hne : t2.p ≠ t1.p
    · rw [if_pos hne] at hw4
      rcases List.mem_cons.mp hw4 with rfl | hw5
      · exact hp2
      · simp at hw5
    · rw [if_neg hne] at hw4
      simp at hw4

/-- The triple sum of contributions collapses, at the entry of a canonical
pair, to the pair's own quantity. -/
theorem schur_delta_eq_tmp (sdp : SDP) (TX TY : BlockDiagonalMatrix)
    {j : ℕ} {t1 t2 : IndexTuple} (hj : j < sdp.dimensions.length)
    (h1 : t1 ∈ (initializeConstraintIndices sdp.dimensions sdp.degrees).getD j [])
    (h2 : t2 ∈ (initializeConstraintIndices sdp.dimensions sdp.degrees).getD j [])
    (hple : t2.p ≤ t1.p) :
    ((List.range sdp.dimensions.length).map (fun j' =>
        (((initializeConstraintIndices sdp.dimensions sdp.degrees).getD j' []).map (fun t1' =>
          ((((initializeConstraintIndices sdp.dimensions sdp.degrees).getD j' []).takeWhile
              (fun t2' => decide (t2'.p ≤ t1'.p))).map (fun t2' =>
            schurContrib sdp TX TY j' t1' t2' t1.p t2.p)).sum)).sum)).sum
      = schurTmp sdp TX TY j t1 t2 := by
  set cit := initializeConstraintIndices sdp.dimensions sdp.degrees with hcit
  -- outer: only group `j` contributes
  rw [list_sum_map_eq_single _ _ j (List.mem_range.mpr hj) (List.nodup_range _)
    (fun j' hj' hne => ?_)]
  · -- middle: only `t1` contributes
    rw [list_sum_map_eq_single _ _ t1 h1 (cit_group_nodup _ _ hj) (fun t1' ht1' hne => ?_)]
    · -- inner: only `t2` contributes
      have ht2tw : t2 ∈ (cit.getD j []).takeWhile (fun t2' => decide (t2'.p ≤ t1.p)) :=
        (mem_takeWhile_p_le (cit_group_pairwise _ _ hj) t1.p).mpr ⟨h2, hple⟩
      rw [list_sum_map_eq_single _ _ t2 ht2tw
        ((cit_group_nodup _ _ hj).sublist (List.takeWhile_sublist _))
        (fun t2' ht2' hne => ?_)]
      · unfold schurContrib
        rw [if_pos ⟨rfl, rfl⟩, if_neg (by tauto)]
        ring
      · -- a distinct `t2'` cannot hit `(t1.p, t2.p)`
        have ht2'g : t2' ∈ cit.getD j [] := (List.takeWhile_sublist _).subset ht2'
        unfold schurContrib
        rw [if_neg ?_, if_neg ?_]
        · ring
        · rintro ⟨hne2, hpa, hpb⟩
          exact hne2 hpa
        · rintro ⟨_, hpb⟩
          exact hne (cit_p_inj sdp.dimensions sdp.degrees hj hj ht2'g h2 hpb).2
    · -- a distinct `t1'` cannot hit `(t1.p, t2.p)`
      refine list_sum_map_zero _ _ (fun t2' ht2' => ?_)
      have ht2'g : t2' ∈ cit.getD j [] := (List.takeWhile_sublist _).subset ht2'
      unfold schurContrib
      rw [if_neg ?_, if_neg ?_]
      · ring
      · rintro ⟨hne2, hpa, hpb⟩
        have heq1 : t2' = t1 := (cit_p_inj sdp.dimensions sdp.degrees hj hj ht2'g h1 hpa).2
        have heq2 : t1' = t2 := (cit_p_inj sdp.dimensions sdp.degrees hj hj ht1' h2 hpb).2
        have hle : t2'.p ≤ t1'.p := by
          have := (mem_takeWhile_p_le (cit_group_pairwise _ _ hj) t1'.p).mp ht2'
          exact this.2
        rw [heq1, heq2] at hne2 hle
        exact hne2 (le_antisymm hle hple ▸ rfl)
      · rintro ⟨hpa, _⟩
        exact hne (cit_p_inj sdp.dimensions sdp.degrees hj hj ht1' h1 hpa).2
  · -- a distinct group cannot hit `(t1.p, t2.p)`
    have hj'lt : j' < sdp.dimensions.length := by simpa using hj'
    refine list_sum_map_zero _ _ (fun t1' ht1' => ?_)
    refine list_sum_map_zero _ _ (fun t2' ht2' => ?_)
    have ht2'g : t2' ∈ cit.getD j' [] := (List.takeWhile_sublist _).subset ht2'
    unfold schurContrib
    rw [if_neg ?_, if_neg ?_]
    · ring
    · rintro ⟨_, hpa, _⟩
      exact hne (cit_p_inj sdp.dimensions sdp.degrees hj'lt hj ht2'g h1 hpa).1
    · rintro ⟨hpa, _⟩
      exact hne (cit_p_inj sdp.dimensions sdp.degrees hj'lt hj ht1' h1 hpa).1

/-- The delta is symmetric in the target entry. -/
theorem schur_delta_symm (sdp : SDP) (TX TY : BlockDiagonalMatrix)
    (cit : List (List IndexTuple)) (a b : ℕ) :
    (((schurUpdates sdp TX TY cit).filter
        (fun w => decide (w.1 = a ∧ w.2.1 = b))).map (fun w => w.2.2)).sum
      = (((schurUpdates sdp TX TY cit).filter
          (fun w => decide (w.1 = b ∧ w.2.1 = a))).map (fun w => w.2.2)).sum := by
  rw [schur_delta, schur_delta]
  refine congrArg List.sum (List.map_congr_left (fun j _ => ?_))
  refine congrArg List.sum (List.map_congr_left (fun t1 _ => ?_))
  refine congrArg List.sum (List.map_congr_left (fun t2 _ => ?_))
  exact schurContrib_symm sdp TX TY j t1 t2 a b

/-- **C1**.  Schur-complement assembly: for every group `j` with
`e_j = degrees[j]+1` and every pair of canonical index tuples
`t1 = (p1,r1,s1,k1)`, `t2 = (p2,r2,s2,k2)` of group `j` with `p2 ≤ p1`,
`addSchurBlocks` adds to `S[p1,p2]` the quantity
`¼·Σ_{b ∈ blocks[j]}` of the four bilinear-pairing products, writes the
same quantity to the mirror entry `S[p2,p1]` (so a symmetric input stays
symmetric and `S[p2,p1] = S[p1,p2]` afterwards), and maps any symmetric
input to a symmetric output: `S = Sᵀ` exactly. -/
theorem addSchurBlocks_spec (sdp : SDP) (TX TY : BlockDiagonalMatrix) (S : Matrix)
    (j : ℕ) (t1 t2 : IndexTuple)
    (hrows : S.rows = startOffset sdp.dimensions sdp.degrees sdp.dimensions.length)
    (hcols : S.cols = S.rows)
    (hj : j < sdp.dimensions.length)
    (h1 : t1 ∈ (initializeConstraintIndices sdp.dimensions sdp.degrees).getD j [])
    (h2 : t2 ∈ (initializeConstraintIndices sdp.dimensions sdp.degrees).getD j [])
    (hple : t2.p ≤ t1.p) :
    ((addSchurBlocks sdp TX TY
          (initializeConstraintIndices sdp.dimensions sdp.degrees) S).get t1.p t2.p
        = S.get t1.p t2.p
          + (1/4) * ((sdp.blocks.getD j []).map (fun b =>
              (TX.blocks.getD b matrixD).get
                  ((sdp.degrees.getD j 0 + 1) * t1.s + t1.k)
                  ((sdp.degrees.getD j 0 + 1) * t2.r + t2.k)
                * (TY.blocks.getD b matrixD).get
                  ((sdp.degrees.getD j 0 + 1) * t2.s + t2.k)
                  ((sdp.degrees.getD j 0 + 1) * t1.r + t1.k)
              + (TX.blocks.getD b matrixD).get
                  ((sdp.degrees.getD j 0 + 1) * t1.r + t1.k)
                  ((sdp.degrees.getD j 0 + 1) * t2.r + t2.k)
                * (TY.blocks.getD b matrixD).get
                  ((sdp.degrees.getD j 0 + 1) * t2.s + t2.k)
                  ((sdp.degrees.getD j 0 + 1) * t1.s + t1.k)
              + (TX.blocks.getD b matrixD).get
                  ((sdp.degrees.getD j 0 + 1) * t1.s + t1.k)
                  ((sdp.degrees.getD j 0 + 1) * t2.s + t2.k)
                * (TY.blocks.getD b matrixD).get
                  ((sdp.degrees.getD j 0 + 1) * t2.r + t2.k)
                  ((sdp.degrees.getD j 0 + 1) * t1.r + t1.k)
              + (TX.blocks.getD b matrixD).get
                  ((sdp.degrees.getD j 0 + 1) * t1.r + t1.k)
                  ((sdp.degrees.getD j 0 + 1) * t2.s + t2.k)
                * (TY.blocks.getD b matrixD).get
                  ((sdp.degrees.getD j 0 + 1) * t2.r + t2.k)
                  ((sdp.degrees.getD j 0 + 1) * t1.s + t1.k))).sum
      ∧ (addSchurBlocks sdp TX TY
          (initializeConstraintIndices sdp.dimensions sdp.degrees) S).get t2.p t1.p
        = S.get t2.p t1.p
          + (1/4) * ((sdp.blocks.getD j []).map (fun b =>
              (TX.blocks.getD b matrixD).get
                  ((sdp.degrees.getD j 0 + 1) * t1.s + t1.k)
                  ((sdp.degrees.getD j 0 + 1) * t2.r + t2.k)
                * (TY.blocks.getD b matrixD).get
                  ((sdp.degrees.getD j 0 + 1) * t2.s + t2.k)
                  ((sdp.degrees.getD j 0 + 1) * t1.r + t1.k)
              + (TX.blocks.getD b matrixD).get
                  ((sdp.degrees.getD j 0 + 1) * t1.r + t1.k)
                  ((sdp.degrees.getD j 0 + 1) * t2.r + t2.k)
                * (TY.blocks.getD b matrixD).get
                  ((sdp.degrees.getD j 0 + 1) * t2.s + t2.k)
                  ((sdp.degrees.getD j 0 + 1) * t1.s + t1.k)
              + (TX.blocks.getD b matrixD).get
                  ((sdp.degrees.getD j 0 + 1) * t1.s + t1.k)
                  ((sdp.degrees.getD j 0 + 1) * t2.s + t2.k)
                * (TY.blocks.getD b matrixD).get
                  ((sdp.degrees.getD j 0 + 1) * t2.r + t2.k)
                  ((sdp.degrees.getD j 0 + 1) * t1.r + t1.k)
              + (TX.blocks.getD b matrixD).get
                  ((sdp.degrees.getD j 0 + 1) * t1.r + t1.k)
                  ((sdp.degrees.getD j 0 + 1) * t2.s + t2.k)
                * (TY.blocks.getD b matrixD).get
                  ((sdp.degrees.getD j 0 + 1) * t2.r + t2.k)
                  ((sdp.degrees.getD j 0 + 1) * t1.s + t1.k))).sum)
      ∧ (S.IsSymm →
          (addSchurBlocks sdp TX TY
            (initializeConstraintIndices sdp.dimensions sdp.degrees) S).IsSymm) := by
  have hwb : ∀ w ∈ schurUpdates sdp TX TY
      (initializeConstraintIndices sdp.dimensions sdp.degrees), w.1 < S.rows := by
    intro w hw
    rw [hrows]
    exact schurUpdates_fst_lt sdp TX TY hw
  have hp1 : t1.p < S.rows := by
    rw [hrows]; exact cit_p_lt sdp.dimensions sdp.degrees hj h1
  have hp2 : t2.p < S.rows := by
    rw [hrows]; exact cit_p_lt sdp.dimensions sdp.degrees hj h2
  have hdelta12 : (((schurUpdates sdp TX TY
        (initializeConstraintIndices sdp.dimensions sdp.degrees)).filter
          (fun w => decide (w.1 = t1.p ∧ w.2.1 = t2.p))).map (fun w => w.2.2)).sum
      = schurTmp sdp TX TY j t1 t2 := by
    rw [schur_delta]
    exact schur_delta_eq_tmp sdp TX TY hj h1 h2 hple
  constructor
  · constructor
    · rw [addSchurBlocks, applyAdds_get S _ hwb hp1, hdelta12, schurTmp_eq_quantity]
    · rw [addSchurBlocks, applyAdds_get S _ hwb hp2,
        schur_delta_symm sdp TX TY _ t2.p t1.p, hdelta12, schurTmp_eq_quantity]
  · intro hS
    intro a ha c hc
    have ha' : a < S.rows := by simpa [addSchurBlocks] using ha
    have hc' : c < S.rows := by
      have : c < S.cols := by simpa [addSchurBlocks] using hc
      omega
    unfold Matrix.IsSymm at hS
    rw [addSchurBlocks] at *
    rw [Matrix.get, Matrix.get]
    rw [show ((applyAdds S (schurUpdates sdp TX TY
        (initializeConstraintIndices sdp.dimensions sdp.degrees))).elements
          (a + c * (applyAdds S (schurUpdates sdp TX TY
            (initializeConstraintIndices sdp.dimensions sdp.degrees))).rows))
        = (applyAdds S (schurUpdates sdp TX TY
          (initializeConstraintIndices sdp.dimensions sdp.degrees))).get a c from rfl]
    rw [show ((applyAdds S (schurUpdates sdp TX TY
        (initializeConstraintIndices sdp.dimensions sdp.degrees))).elements
          (c + a * (applyAdds S (schurUpdates sdp TX TY
            (initializeConstraintIndices sdp.dimensions sdp.degrees))).rows))
        = (applyAdds S (schurUpdates sdp TX TY
          (initializeConstraintIndices sdp.dimensions sdp.degrees))).get c a from rfl]
    rw [applyAdds_get S _ hwb ha', applyAdds_get S _ hwb hc',
      schur_delta_symm sdp TX TY _ c a]
    have hsym : S.get a c = S.get c a := hS a ha' c (by omega)
    rw [hsym]

/-- Witness for C1 on a one-constraint SDP with 1×1 pairing blocks. -/
theorem addSchurBlocks_spec_witness :
    (addSchurBlocks
        { bilinearBases := [⟨1, 1, fun _ => 1⟩], numConstraints := 1, objDimension := 1,
          polMatrixValues := ⟨1, 1, fun _ => 3⟩, affineConstants := [7], objective := [0],
          dimensions := [1], degrees := [0], blocks := [[0]] }
        ⟨[], [⟨1, 1, fun _ => 2⟩]⟩ ⟨[], [⟨1, 1, fun _ => 3⟩]⟩
        (initializeConstraintIndices [1] [0]) ⟨1, 1, fun _ => 10⟩).get 0 0 = 16 := by
  have h := (addSchurBlocks_spec
    { bilinearBases := [⟨1, 1, fun _ => 1⟩], numConstraints := 1, objDimension := 1,
      polMatrixValues := ⟨1, 1, fun _ => 3⟩, affineConstants := [7], objective := [0],
      dimensions := [1], degrees := [0], blocks := [[0]] }
    ⟨[], [⟨1, 1, fun _ => 2⟩]⟩ ⟨[], [⟨1, 1, fun _ => 3⟩]⟩ ⟨1, 1, fun _ => 10⟩
    0 ⟨0, 0, 0, 0⟩ ⟨0, 0, 0, 0⟩ (by decide) rfl (by decide) (by decide) (by decide)
    (le_refl 0)).1.1
  refine h.trans ?_
  norm_num [Matrix.get, matrixD]

/-! ## Lemmas: `maxAbsVectorElement` -/

theorem foldl_maxAbs (l : List Real) (m0 : Real) :
    m0 ≤ l.foldl (fun m e => if |e| > m then |e| else m) m0
      ∧ (∀ y ∈ l, |y| ≤ l.foldl (fun m e => if |e| > m then |e| else m) m0)
      ∧ (l.foldl (fun m e => if |e| > m then |e| else m) m0 = m0
          ∨ ∃ y ∈ l, |y| = l.foldl (fun m e => if |e| > m then |e| else m) m0) := by
  induction l generalizing m0 with
  | nil => simp
  | cons x l ih =>
    simp only [List.foldl_cons]
    obtain ⟨ih1, ih2, ih3⟩ := ih (if |x| > m0 then |x| else m0)
    have hm0 : m0 ≤ if |x| > m0 then |x| else m0 := by
      by_cases h : |x| > m0
      · rw [if_pos h]; exact le_of_lt h
      · rw [if_neg h]
    have hx : |x| ≤ if |x| > m0 then |x| else m0 := by
      by_cases h : |x| > m0
      · rw [if_pos h]
      · rw [if_neg h]; exact le_of_not_lt h
    refine ⟨le_trans hm0 ih1, ?_, ?_⟩
    · intro y hy
      rcases List.mem_cons.mp hy with rfl | hy
      · exact le_trans hx ih1
      · exact ih2 y hy
    · rcases ih3 with h | ⟨y, hy, hyv⟩
      · by_cases hgt : |x| > m0
        · rw [if_pos hgt] at h ⊢
          exact Or.inr ⟨x, List.mem_cons_self _ _, h.symm⟩
        · rw [if_neg hgt] at h ⊢
          exact Or.inl h
      · exact Or.inr ⟨y, List.mem_cons_of_mem _ hy, hyv⟩

theorem maxAbsVectorElement_none_iff (v : Vector) : maxAbsVectorElement v = none ↔ v = [] := by
  cases v <;> simp [maxAbsVectorElement]

theorem maxAbsVectorElement_some (v : Vector) (m : Real)
    (h : maxAbsVectorElement v = some m) : (∀ x ∈ v, |x| ≤ m) ∧ ∃ x ∈ v, |x| = m := by
  cases v with
  | nil => simp [maxAbsVectorElement] at h
  | cons x xs =>
    simp only [maxAbsVectorElement, Option.some.injEq] at h
    obtain ⟨h1, h2, h3⟩ := foldl_maxAbs (x :: xs) |x|
    subst h
    refine ⟨h2, ?_⟩
    rcases h3 with h | h
    · exact ⟨x, List.mem_cons_self _ _, h.symm⟩
    · exact h

/-! ## Claim theorems (with witnesses), part 1 -/

/-- **C10**.  `maxAbsVectorElement` reads element 0 unconditionally, so it
is defined exactly on non-empty vectors, and there it returns the maximum
of `|v[i]|` over all entries.  Consequently
`BlockDiagonalMatrix::maxAbsElement` is undefined on an empty diagonal
prefix, and `Matrix::maxAbsElement` on an empty element buffer. -/
theorem maxAbsElement_spec :
    (∀ v : Vector, (maxAbsVectorElement v).isSome ↔ v ≠ [])
      ∧ (∀ (v : Vector) (m : Real), maxAbsVectorElement v = some m →
          (∀ x ∈ v, |x| ≤ m) ∧ ∃ x ∈ v, |x| = m)
      ∧ (∀ blocks : List Matrix,
          BlockDiagonalMatrix.maxAbsElement ⟨[], blocks⟩ = none)
      ∧ (∀ M : Matrix, M.maxAbsElement = none ↔ M.rows * M.cols = 0) := by
  refine ⟨?_, maxAbsVectorElement_some, ?_, ?_⟩
  · intro v
    rw [Option.isSome_iff_ne_none]
    exact not_congr (maxAbsVectorElement_none_iff v)
  · intro blocks
    simp [BlockDiagonalMatrix.maxAbsElement, maxAbsVectorElement]
  · intro M
    rw [Matrix.maxAbsElement, maxAbsVectorElement_none_iff, Matrix.buffer]
    simp

/-- Witness for C10 at the concrete vector `[3, -5]` (and the claim's
consequence at a 0×0 matrix). -/
theorem maxAbsElement_spec_witness :
    maxAbsVectorElement [(3 : ℚ), -5] = some 5
      ∧ ((∀ x ∈ [(3 : ℚ), -5], |x| ≤ 5) ∧ ∃ x ∈ [(3 : ℚ), -5], |x| = 5)
      ∧ Matrix.maxAbsElement ⟨0, 3, fun _ => 1⟩ = none :=
  ⟨by decide, maxAbsElement_spec.2.1 [(3 : ℚ), -5] 5 (by decide),
    (maxAbsElement_spec.2.2.2 ⟨0, 3, fun _ => 1⟩).mpr (by decide)⟩

/-- **C2**.  `choleskyDecomposition` does not report a POTRF failure to
its caller: its result is a function of the factored buffer alone, the
`info` status being discarded; in particular on the non-positive-definite
input `[[-1]]` it returns the same "factor" whether POTRF signals failure
(info = 1) or success (info = 0), and hands back `-1` in the (0,0) entry
silently. -/
theorem choleskyDecomposition_ignores_potrf_failure :
    (∀ (Lfun : ℕ → (ℕ → Real) → (ℕ → Real)) (i1 i2 : ℤ) (a result : Matrix),
        choleskyDecomposition (fun d b => (Lfun d b, i1)) a result
          = choleskyDecomposition (fun d b => (Lfun d b, i2)) a result)
      ∧ choleskyDecomposition RpotrfFailing negOne1x1 zero1x1
          = choleskyDecomposition RpotrfReportingSuccess negOne1x1 zero1x1
      ∧ (choleskyDecomposition RpotrfFailing negOne1x1 zero1x1).get 0 0 = -1 :=
  ⟨fun _ _ _ _ _ => rfl, rfl, by decide⟩

/-- **C9**.  For block-diagonal matrices of identical shape with symmetric
blocks, the fused `frobeniusProductOfSums(X, dX, Y, dY)` equals the naive
`frobeniusProductSymmetric(X + dX, Y + dY)` computed by first forming the
sums. -/
theorem frobeniusProductOfSums_refines (X dX Y dY : BlockDiagonalMatrix)
    (hd1 : dX.diagonalPart.length = X.diagonalPart.length)
    (hd2 : Y.diagonalPart.length = X.diagonalPart.length)
    (hd3 : dY.diagonalPart.length = X.diagonalPart.length)
    (hb1 : dX.blocks.length = X.blocks.length)
    (hb2 : Y.blocks.length = X.blocks.length)
    (hb3 : dY.blocks.length = X.blocks.length)
    (hshape : ∀ i < X.blocks.length,
      (dX.blocks.getD i matrixD).rows = (X.blocks.getD i matrixD).rows
        ∧ (Y.blocks.getD i matrixD).rows = (X.blocks.getD i matrixD).rows
        ∧ (dY.blocks.getD i matrixD).rows = (X.blocks.getD i matrixD).rows
        ∧ (dX.blocks.getD i matrixD).cols = (X.blocks.getD i matrixD).cols
        ∧ (Y.blocks.getD i matrixD).cols = (X.blocks.getD i matrixD).cols
        ∧ (dY.blocks.getD i matrixD).cols = (X.blocks.getD i matrixD).cols)
    (_hsymm : ∀ A ∈ [X, dX, Y, dY], ∀ Mb ∈ A.blocks, Mb.IsSymm) :
    BlockDiagonalMatrix.frobeniusProductOfSums X dX Y dY
      = BlockDiagonalMatrix.frobeniusProductSymmetric (X.add dX) (Y.add dY) :=
  BlockDiagonalMatrix.frobeniusProductOfSums_eq X dX Y dY hd1 hd2 hd3 hb1 hb2 hb3
    (fun i hi => (hshape i hi).1)
    (fun i hi => ((hshape i hi).2.2.1).trans ((hshape i hi).2.1).symm)

/-- Witness for C9 at a concrete shape: diagonal prefix `[1]` and one
symmetric 2×2 block of ones. -/
theorem frobeniusProductOfSums_refines_witness :
    BlockDiagonalMatrix.frobeniusProductOfSums
        ⟨[1], [⟨2, 2, fun _ => 1⟩]⟩ ⟨[1], [⟨2, 2, fun _ => 1⟩]⟩
        ⟨[1], [⟨2, 2, fun _ => 1⟩]⟩ ⟨[1], [⟨2, 2, fun _ => 1⟩]⟩
      = BlockDiagonalMatrix.frobeniusProductSymmetric
          (BlockDiagonalMatrix.add ⟨[1], [⟨2, 2, fun _ => 1⟩]⟩ ⟨[1], [⟨2, 2, fun _ => 1⟩]⟩)
          (BlockDiagonalMatrix.add ⟨[1], [⟨2, 2, fun _ => 1⟩]⟩ ⟨[1], [⟨2, 2, fun _ => 1⟩]⟩) :=
  frobeniusProductOfSums_refines _ _ _ _ rfl rfl rfl rfl rfl rfl
    (by decide) (by decide)

/-- **C3**.  The corrector centering parameter: with
`r = ⟨X+dX, Y+dY⟩_sym / (μ·X.dim)` and `β = r²` for `r < 1` else `r`, the
feasible branch returns `min(max(feasible_centering_parameter, β), 1)` and
the infeasible branch returns `max(infeasible_centering_parameter, β)`,
uncapped: any `β > 1` is returned as is. -/
theorem corrector_centering_parameter_spec (parameters : SDP_Solver_Parameters)
    (X dX Y dY : BlockDiagonalMatrix) (mu : Real) (is_primal_dual_feasible : Bool)
    (r beta : Real)
    (hd1 : dX.diagonalPart.length = X.diagonalPart.length)
    (hd2 : Y.diagonalPart.length = X.diagonalPart.length)
    (hd3 : dY.diagonalPart.length = X.diagonalPart.length)
    (hb1 : dX.blocks.length = X.blocks.length)
    (hb2 : Y.blocks.length = X.blocks.length)
    (hb3 : dY.blocks.length = X.blocks.length)
    (hshape : ∀ i < X.blocks.length,
      (dX.blocks.getD i matrixD).rows = (X.blocks.getD i matrixD).rows
        ∧ (dY.blocks.getD i matrixD).rows = (Y.blocks.getD i matrixD).rows)
    (hr : r = BlockDiagonalMatrix.frobeniusProductSymmetric (X.add dX) (Y.add dY)
            / (mu * (X.dim : Real)))
    (hbeta : beta = if r < 1 then r * r else r) :
    corrector_centering_parameter parameters X dX Y dY mu is_primal_dual_feasible
        = (if is_primal_dual_feasible then
            min (max parameters.feasible_centering_parameter beta) 1
          else max parameters.infeasible_centering_parameter beta)
      ∧ (is_primal_dual_feasible = false → 1 < beta →
          1 < corrector_centering_parameter parameters X dX Y dY mu is_primal_dual_feasible) := by
  have hfps : BlockDiagonalMatrix.frobeniusProductOfSums X dX Y dY
      = BlockDiagonalMatrix.frobeniusProductSymmetric (X.add dX) (Y.add dY) :=
    BlockDiagonalMatrix.frobeniusProductOfSums_eq X dX Y dY hd1 hd2 hd3 hb1 hb2 hb3
      (fun i hi => (hshape i hi).1) (fun i hi => (hshape i hi).2)
  have hmain : corrector_centering_parameter parameters X dX Y dY mu is_primal_dual_feasible
      = (if is_primal_dual_feasible then
          min (max parameters.feasible_centering_parameter beta) 1
        else max parameters.infeasible_centering_parameter beta) := by
    subst hbeta
    subst hr
    unfold corrector_centering_parameter
    rw [hfps]
  refine ⟨hmain, fun hfeas hbeta1 => ?_⟩
  rw [hmain, hfeas]
  simp only [Bool.false_eq_true, if_false]
  exact lt_of_lt_of_le hbeta1 (le_max_right _ _)

/-- Witness for C3: a concrete infeasible call where `β = 4 > 1` is
returned uncapped. -/
theorem corrector_centering_parameter_spec_witness :
    corrector_centering_parameter ⟨1/10, 2/10⟩
        ⟨[1], []⟩ ⟨[1], []⟩ ⟨[1], []⟩ ⟨[1], []⟩ 1 false = 4
      ∧ (1 : ℚ) < corrector_centering_parameter ⟨1/10, 2/10⟩
          ⟨[1], []⟩ ⟨[1], []⟩ ⟨[1], []⟩ ⟨[1], []⟩ 1 false := by
  have h := corrector_centering_parameter_spec ⟨1/10, 2/10⟩
    ⟨[1], []⟩ ⟨[1], []⟩ ⟨[1], []⟩ ⟨[1], []⟩ 1 false 4 4
    rfl rfl rfl rfl rfl rfl (by decide)
    (by
      norm_num [BlockDiagonalMatrix.frobeniusProductSymmetric, BlockDiagonalMatrix.add,
        dotProduct, BlockDiagonalMatrix.dim])
    (by norm_num)
  exact ⟨h.1.trans (by norm_num), h.2 rfl (by norm_num)⟩

/-! ### C6: `tensorMatrixCongruence` computes `(b ⊗ 1)ᵀ a (b ⊗ 1)` -/

/-- Block-index bound: `v·ℓ + k < ℓ·m` when `v < m`, `k < ℓ`. -/
theorem block_index_lt {v k l m : ℕ} (hv : v < m) (hk : k < l) : v * l + k < l * m :=
  calc v * l + k < v * l + l := by omega
    _ = (v + 1) * l := by ring
    _ ≤ m * l := Nat.mul_le_mul_right l hv
    _ = l * m := Nat.mul_comm m l

/-- Splitting a sum over `range (ℓ·m)` into `m` consecutive blocks of
length `ℓ`. -/
theorem sum_range_mul_decomp (f : ℕ → Real) (l m : ℕ) :
    ∑ i ∈ Finset.range (l * m), f i
      = ∑ v ∈ Finset.range m, ∑ k ∈ Finset.range l, f (v * l + k) := by
  induction m with
  | zero => simp
  | succ m ih =>
    have h1 : l * (m + 1) = l * m + l := by ring
    rw [h1, Finset.sum_range_add, ih, Finset.sum_range_succ]
    congr 1
    refine Finset.sum_congr rfl (fun k _ => ?_)
    congr 1
    ring

/-- Pulling a summand-independent `if` out of a sum. -/
theorem sum_pull_ite (s : Finset ℕ) (P : Prop) [Decidable P] (f : ℕ → Real) :
    ∑ x ∈ s, (if P then f x else 0) = if P then ∑ x ∈ s, f x else 0 := by
  by_cases h : P
  · simp only [if_pos h]
  · simp only [if_neg h, Finset.sum_const_zero]

/-- Collapsing `∑_{v<m} [v = t]·f v` to `f t` when `t < m`. -/
theorem sum_pick (m t : ℕ) (ht : t < m) (f : ℕ → Real) :
    ∑ v ∈ Finset.range m, (if v = t then f v else 0) = f t := by
  rw [Finset.sum_ite_eq' (Finset.range m) t f, if_pos (Finset.mem_range.mpr ht)]

/-- Collapsing the outer index of a double sum guarded by `[v = t]`. -/
theorem sum_block_pick (m l t : ℕ) (ht : t < m) (g : ℕ → ℕ → Real) :
    ∑ v ∈ Finset.range m, ∑ k ∈ Finset.range l, (if v = t then g v k else 0)
      = ∑ k ∈ Finset.range l, g t k := by
  rw [Finset.sum_congr rfl (fun v _ => sum_pull_ite (Finset.range l) (v = t) (g v)),
    sum_pick m t ht (fun v => ∑ k ∈ Finset.range l, g v k)]

/-- The in-range entries of the tensored basis `b ⊗ 1_m`. -/
theorem tensorBasis_get (b : Matrix) (m : ℕ) {i : ℕ} (c : ℕ) (hi : i < b.rows * m) :
    (tensorBasis b m).get i c
      = if i / b.rows = c / b.cols then b.get (i % b.rows) (c % b.cols) else 0 := by
  have hpos : 0 < b.rows * m := Nat.lt_of_le_of_lt (Nat.zero_le i) hi
  have hmod : (i + c * (b.rows * m)) % (b.rows * m) = i := by
    rw [Nat.add_mul_mod_self_right, Nat.mod_eq_of_lt hi]
  have hdiv : (i + c * (b.rows * m)) / (b.rows * m) = c := by
    rw [Nat.add_mul_div_right i c hpos, Nat.div_eq_of_lt hi, Nat.zero_add]
  simp only [tensorBasis, Matrix.get]
  rw [hmod, hdiv]

/-- Entry of the block-index form of `tensorBasis`. -/
theorem tensorBasis_get_block (b : Matrix) (m : ℕ) (x v k : ℕ) (hv : v < m)
    (hk : k < b.rows) :
    (tensorBasis b m).get (v * b.rows + k) x
      = if v = x / b.cols then b.get k (x % b.cols) else 0 := by
  have hl : 0 < b.rows := Nat.lt_of_le_of_lt (Nat.zero_le k) hk
  rw [tensorBasis_get b m x (block_index_lt hv hk)]
  have hdiv : (v * b.rows + k) / b.rows = v := by
    rw [Nat.add_comm, Nat.add_mul_div_right k v hl, Nat.div_eq_of_lt hk, Nat.zero_add]
  have hmod : (v * b.rows + k) % b.rows = k := by
    rw [Nat.add_comm, Nat.add_mul_mod_self_right, Nat.mod_eq_of_lt hk]
  rw [hdiv, hmod]

/-- The first phase writes every entry of `work`; the final value is the
`(r, c)` entry of `a · (b ⊗ 1)`. -/
theorem tmc_work_get (a b work : Matrix) {r c : ℕ}
    (hr : r < work.rows) (hc : c < work.cols) :
    (applySets work (tmcWorkWrites a b work.rows work.cols)).get r c
      = ∑ k ∈ Finset.range b.rows,
          a.get r ((c / b.cols) * b.rows + k) * b.get k (c % b.cols) := by
  refine applySets_get_hit work _ ?_ hr ?_ ?_
  · intro w hw
    simp only [tmcWorkWrites, List.mem_flatMap, List.mem_map, List.mem_range] at hw
    obtain ⟨c', hc', r', hr', rfl⟩ := hw
    exact hr'
  · refine ⟨(r, c, ∑ k ∈ Finset.range b.rows,
      a.get r ((c / b.cols) * b.rows + k) * b.get k (c % b.cols)), ?_, rfl, rfl⟩
    simp only [tmcWorkWrites, List.mem_flatMap, List.mem_map, List.mem_range]
    exact ⟨c, hc, r, hr, rfl⟩
  · intro w hw h1 h2
    simp only [tmcWorkWrites, List.mem_flatMap, List.mem_map, List.mem_range] at hw
    obtain ⟨c', hc', r', hr', rfl⟩ := hw
    have h1' : r' = r := h1
    have h2' : c' = c := h2
    subst h1'
    subst h2'
    rfl

/-- Every write of the second phase lands in the write list's shape:
either the direct upper-triangle write or its mirror. -/
theorem tmcResultWrites_shape (b work : Matrix) (resultCols : ℕ) :
    ∀ w ∈ tmcResultWrites b work resultCols,
      ∃ c' r', c' < resultCols ∧ r' < c' + 1 ∧
        (w = (r', c', tmcTmp b work r' c')
          ∨ (c' ≠ r' ∧ w = (c', r', tmcTmp b work r' c'))) := by
  intro w hw
  simp only [tmcResultWrites, List.mem_flatMap, List.mem_range] at hw
  obtain ⟨c', hc', r', hr', hw⟩ := hw
  refine ⟨c', r', hc', hr', ?_⟩
  rcases List.mem_cons.mp hw with rfl | hw2
  · exact Or.inl rfl
  · by_cases hne : c' ≠ r'
    · rw [if_pos hne] at hw2
      simp only [List.mem_singleton] at hw2
      exact Or.inr ⟨hne, hw2⟩
    · rw [if_neg hne] at hw2
      exact absurd hw2 (List.not_mem_nil w)

/-- The second phase fills the whole (square) `result`: the upper triangle
with `tmp(r, c)` and each strictly-lower entry with the mirrored
`tmp(c, r)`. -/
theorem tmc_result_get (b work result : Matrix) {r c : ℕ}
    (hsq : result.rows = result.cols) (hr : r < result.rows) (hc : c < result.cols) :
    (applySets result (tmcResultWrites b work result.cols)).get r c
      = if r ≤ c then tmcTmp b work r c else tmcTmp b work c r := by
  have hrow : ∀ w ∈ tmcResultWrites b work result.cols, w.1 < result.rows := by
    intro w hw
    obtain ⟨c', r', hc', hr', hcase⟩ := tmcResultWrites_shape b work result.cols w hw
    rcases hcase with rfl | ⟨hne, rfl⟩
    · show r' < result.rows
      omega
    · show c' < result.rows
      omega
  by_cases hrc : r ≤ c
  · rw [if_pos hrc]
    refine applySets_get_hit result _ hrow hr ⟨(r, c, tmcTmp b work r c), ?_, rfl, rfl⟩ ?_
    · simp only [tmcResultWrites, List.mem_flatMap, List.mem_range]
      exact ⟨c, hc, r, by omega, List.mem_cons_self _ _⟩
    · intro w hw h1 h2
      obtain ⟨c', r', hc', hr', hcase⟩ := tmcResultWrites_shape b work result.cols w hw
      rcases hcase with rfl | ⟨hne, rfl⟩
      · have h1' : r' = r := h1
        have h2' : c' = c := h2
        show tmcTmp b work r' c' = tmcTmp b work r c
        rw [h1', h2']
      · have h1' : c' = r := h1
        have h2' : r' = c := h2
        exact absurd (show c' = r' by omega) hne
  · rw [if_neg hrc]
    refine applySets_get_hit result _ hrow hr ⟨(r, c, tmcTmp b work c r), ?_, rfl, rfl⟩ ?_
    · simp only [tmcResultWrites, List.mem_flatMap, List.mem_range]
      refine ⟨r, by omega, c, by omega, ?_⟩
      refine List.mem_cons_of_mem _ ?_
      rw [if_pos (show r ≠ c by omega)]
      exact List.mem_singleton_self _
    · intro w hw h1 h2
      obtain ⟨c', r', hc', hr', hcase⟩ := tmcResultWrites_shape b work result.cols w hw
      rcases hcase with rfl | ⟨hne, rfl⟩
      · have h1' : r' = r := h1
        have h2' : c' = c := h2
        exact absurd (show r ≤ c by omega) hrc
      · have h1' : c' = r := h1
        have h2' : r' = c := h2
        show tmcTmp b work r' c' = tmcTmp b work c r
        rw [h1', h2']

/-- With `work` holding `a · (b ⊗ 1)`, the second-phase accumulator at
`(r, c)` is exactly the dense congruence entry. -/
theorem tmcTmp_eq_dense (a b work : Matrix) (m : ℕ)
    (hw_rows : work.rows = b.rows * m) (hw_cols : work.cols = b.cols * m)
    {r c : ℕ} (hr : r < b.cols * m) (hc : c < b.cols * m) :
    tmcTmp b (applySets work (tmcWorkWrites a b work.rows work.cols)) r c
      = denseCongruenceEntry a b m r c := by
  have hn : 0 < b.cols := by
    rcases Nat.eq_zero_or_pos b.cols with h | h
    · rw [h] at hr
      simp at hr
    · exact h
  have hvr : r / b.cols < m := (Nat.div_lt_iff_lt_mul hn).mpr (by rw [Nat.mul_comm]; exact hr)
  have hvc : c / b.cols < m := (Nat.div_lt_iff_lt_mul hn).mpr (by rw [Nat.mul_comm]; exact hc)
  have hL : tmcTmp b (applySets work (tmcWorkWrites a b work.rows work.cols)) r c
      = ∑ k ∈ Finset.range b.rows, ∑ j ∈ Finset.range b.rows,
          b.get k (r % b.cols)
            * (a.get ((r / b.cols) * b.rows + k) ((c / b.cols) * b.rows + j)
                * b.get j (c % b.cols)) := by
    unfold tmcTmp
    refine Finset.sum_congr rfl (fun k hk => ?_)
    rw [tmc_work_get a b work
      (by rw [hw_rows]; exact block_index_lt hvr (Finset.mem_range.mp hk))
      (by rw [hw_cols]; exact hc), Finset.mul_sum]
  have hstep : ∀ v ∈ Finset.range m, ∀ k ∈ Finset.range b.rows,
      (∑ j ∈ Finset.range (b.rows * m),
          (tensorBasis b m).get (v * b.rows + k) r
            * a.get (v * b.rows + k) j * (tensorBasis b m).get j c)
        = if v = r / b.cols then
            ∑ w ∈ Finset.range m, if w = c / b.cols then
              ∑ j ∈ Finset.range b.rows,
                b.get k (r % b.cols)
                  * a.get (v * b.rows + k) (w * b.rows + j) * b.get j (c % b.cols)
            else 0
          else 0 := by
    intro v hv k hk
    rw [sum_range_mul_decomp]
    have hinner : ∀ w ∈ Finset.range m, ∀ j ∈ Finset.range b.rows,
        (tensorBasis b m).get (v * b.rows + k) r
            * a.get (v * b.rows + k) (w * b.rows + j)
            * (tensorBasis b m).get (w * b.rows + j) c
          = if v = r / b.cols then
              (if w = c / b.cols then
                b.get k (r % b.cols)
                  * a.get (v * b.rows + k) (w * b.rows + j) * b.get j (c % b.cols)
               else 0)
            else 0 := by
      intro w hw j hj
      rw [tensorBasis_get_block b m r v k (Finset.mem_range.mp hv) (Finset.mem_range.mp hk),
        tensorBasis_get_block b m c w j (Finset.mem_range.mp hw) (Finset.mem_range.mp hj)]
      split_ifs <;> simp
    rw [Finset.sum_congr rfl (fun w hw => Finset.sum_congr rfl (hinner w hw)),
      Finset.sum_congr rfl (fun w _ => sum_pull_ite (Finset.range b.rows) (v = r / b.cols)
        (fun j => if w = c / b.cols then
          b.get k (r % b.cols)
            * a.get (v * b.rows + k) (w * b.rows + j) * b.get j (c % b.cols)
          else 0)),
      sum_pull_ite (Finset.range m) (v = r / b.cols)
        (fun w => ∑ j ∈ Finset.range b.rows, if w = c / b.cols then
          b.get k (r % b.cols)
            * a.get (v * b.rows + k) (w * b.rows + j) * b.get j (c % b.cols)
          else 0)]
    by_cases hvcond : v = r / b.cols
    · rw [if_pos hvcond, if_pos hvcond]
      refine Finset.sum_congr rfl (fun w _ => ?_)
      exact sum_pull_ite (Finset.range b.rows) (w = c / b.cols)
        (fun j => b.get k (r % b.cols)
          * a.get (v * b.rows + k) (w * b.rows + j) * b.get j (c % b.cols))
    · rw [if_neg hvcond, if_neg hvcond]
  have hR : denseCongruenceEntry a b m r c
      = ∑ k ∈ Finset.range b.rows, ∑ j ∈ Finset.range b.rows,
          b.get k (r % b.cols)
            * a.get ((r / b.cols) * b.rows + k) ((c / b.cols) * b.rows + j)
            * b.get j (c % b.cols) := by
    unfold denseCongruenceEntry
    rw [sum_range_mul_decomp, Finset.sum_congr rfl
        (fun v hv => Finset.sum_congr rfl (hstep v hv)),
      sum_block_pick m b.rows (r / b.cols) hvr
        (fun v k => ∑ w ∈ Finset.range m, if w = c / b.cols then
          ∑ j ∈ Finset.range b.rows,
            b.get k (r % b.cols)
              * a.get (v * b.rows + k) (w * b.rows + j) * b.get j (c % b.cols)
          else 0)]
    refine Finset.sum_congr rfl (fun k _ => ?_)
    exact sum_pick m (c / b.cols) hvc
      (fun w => ∑ j ∈ Finset.range b.rows,
        b.get k (r % b.cols)
          * a.get ((r / b.cols) * b.rows + k) (w * b.rows + j) * b.get j (c % b.cols))
  rw [hL, hR]
  refine Finset.sum_congr rfl (fun k _ => Finset.sum_congr rfl (fun j _ => ?_))
  ring

/-- The dense congruence entry is symmetric in `(r, c)` when `a` is
symmetric. -/
theorem denseCongruenceEntry_symm (a b : Matrix) (m : ℕ)
    (hsymm : a.IsSymm) (ha_rows : a.rows = b.rows * m) (ha_cols : a.cols = a.rows)
    (r c : ℕ) :
    denseCongruenceEntry a b m c r = denseCongruenceEntry a b m r c := by
  unfold denseCongruenceEntry
  rw [Finset.sum_comm]
  refine Finset.sum_congr rfl (fun i hi => Finset.sum_congr rfl (fun j hj => ?_))
  have hij : a.get j i = a.get i j := by
    refine hsymm j ?_ i ?_
    · rw [ha_rows]
      exact Finset.mem_range.mp hj
    · rw [ha_cols, ha_rows]
      exact Finset.mem_range.mp hi
  rw [hij]
  ring

/-- **C6**: for a symmetric `(ℓ·m)×(ℓ·m)` matrix `a` and an `ℓ×n` basis
`b` (with `work` and `result` shaped as the source's asserts require),
`tensorMatrixCongruence(a, b, work, result)` computes every entry of the
dense congruence `(b ⊗ 1_m)ᵀ · a · (b ⊗ 1_m)` of size `(n·m)×(n·m)`, and
the output is exactly symmetric (the strictly-lower triangle is the
mirrored copy of the computed upper triangle). -/
theorem tensorMatrixCongruence_spec (a b work result : Matrix) (m : ℕ)
    (ha_rows : a.rows = b.rows * m) (ha_cols : a.cols = a.rows)
    (hw_rows : work.rows = a.rows) (hw_cols : work.cols = result.cols)
    (hr_rows : result.rows = b.cols * m) (hr_cols : result.cols = b.cols * m)
    (hsymm : a.IsSymm) :
    (∀ r < b.cols * m, ∀ c < b.cols * m,
        (tensorMatrixCongruence a b work result).get r c = denseCongruenceEntry a b m r c)
      ∧ (tensorMatrixCongruence a b work result).IsSymm := by
  have hsq : result.rows = result.cols := by rw [hr_rows, hr_cols]
  have hwr : work.rows = b.rows * m := by rw [hw_rows, ha_rows]
  have hwc : work.cols = b.cols * m := by rw [hw_cols, hr_cols]
  have key : ∀ r < b.cols * m, ∀ c < b.cols * m,
      (tensorMatrixCongruence a b work result).get r c
        = denseCongruenceEntry a b m r c := by
    intro r hr c hc
    simp only [tensorMatrixCongruence]
    rw [tmc_result_get b _ result hsq (by rw [hr_rows]; exact hr) (by rw [hr_cols]; exact hc)]
    by_cases hrc : r ≤ c
    · rw [if_pos hrc, tmcTmp_eq_dense a b work m hwr hwc hr hc]
    · rw [if_neg hrc, tmcTmp_eq_dense a b work m hwr hwc hc hr]
      exact denseCongruenceEntry_symm a b m hsymm ha_rows ha_cols r c
  refine ⟨key, ?_⟩
  intro r hr c hc
  have hrows : (tensorMatrixCongruence a b work result).rows = b.cols * m := by
    simp only [tensorMatrixCongruence, applySets_rows]
    exact hr_rows
  have hcols : (tensorMatrixCongruence a b work result).cols = b.cols * m := by
    simp only [tensorMatrixCongruence, applySets_cols]
    exact hr_cols
  rw [hrows] at hr
  rw [hcols] at hc
  rw [key r hr c hc, key c hc r hr]
  exact denseCongruenceEntry_symm a b m hsymm ha_rows ha_cols c r

/-- Witness for C6 on a concrete symmetric 2×2 `a` and 2×1 basis `b`. -/
theorem tensorMatrixCongruence_spec_witness :
    (∀ r < tmcSampleB.cols * 1, ∀ c < tmcSampleB.cols * 1,
        (tensorMatrixCongruence tmcSampleA tmcSampleB tmcSampleW tmcSampleR).get r c
          = denseCongruenceEntry tmcSampleA tmcSampleB 1 r c)
      ∧ (tensorMatrixCongruence tmcSampleA tmcSampleB tmcSampleW tmcSampleR).IsSymm :=
  tensorMatrixCongruence_spec tmcSampleA tmcSampleB tmcSampleW tmcSampleR 1
    (by decide) (by decide) (by decide) (by decide) (by decide) (by decide) (by decide)

/-- The concrete refuting instance for C7: `bootstrapSDP` on the empty
list of polynomial-vector matrices returns `some`, not a failure. -/
theorem bootstrapSDP_empty_counterexample :
    (bootstrapSDP (fun q => q) [] [] [] []).isSome = true := rfl

/-- **C7**: contrary to the spec's error table, `bootstrapSDP` performs no
input validation: for every objective, normalization, sample vector and
square-root primitive, the empty list of polynomial-vector matrices is
*accepted*, and the assembled SDP is the normalization-only problem with
`numConstraints = 1`, `dimensions = [1]`, `degrees = [0]`, a single empty
block group and no bilinear bases. -/
theorem bootstrapSDP_accepts_empty (sqrtFn : Real → Real)
    (objective normalization xs : Vector) :
    ∃ s, bootstrapSDP sqrtFn objective normalization [] xs = some s
      ∧ s.numConstraints = 1 ∧ s.dimensions = [1] ∧ s.degrees = [0]
      ∧ s.blocks = [[]] ∧ s.bilinearBases = [] := by
  refine ⟨_, rfl, rfl, rfl, rfl, rfl, rfl⟩

/-! ### C4: `constraintMatrixWeightedSum` on a standard basis vector -/

theorem getD_set_self {α : Type} (l : List α) (i : ℕ) (x d : α) (h : i < l.length) :
    (l.set i x).getD i d = x := by
  rw [List.getD_eq_getElem _ d (by rw [List.length_set]; exact h)]
  exact List.getElem_set_self _

theorem getD_set_ne2 {α : Type} (l : List α) {i a : ℕ} (x d : α) (h : i ≠ a) :
    (l.set i x).getD a d = l.getD a d := by
  rcases Nat.lt_or_ge a l.length with hlt | hge
  · rw [List.getD_eq_getElem _ d (by rw [List.length_set]; exact hlt),
      List.getD_eq_getElem _ d hlt]
    exact List.getElem_set_ne h _
  · rw [List.getD_eq_default _ d (by rw [List.length_set]; exact hge),
      List.getD_eq_default _ d hge]

theorem getD_map_lt {α β : Type} (f : α → β) (l : List α) {b : ℕ} (d : β) (d0 : α)
    (h : b < l.length) :
    (l.map f).getD b d = f (l.getD b d0) := by
  rw [List.getD_eq_getElem _ d (by rw [List.length_map]; exact h),
    List.getD_eq_getElem _ d0 h, List.getElem_map]

theorem list_eq_of_getD {l1 l2 : Vector} (hlen : l1.length = l2.length)
    (h : ∀ i < l1.length, l1.getD i 0 = l2.getD i 0) : l1 = l2 := by
  apply List.ext_getElem hlen
  intro i h1 h2
  have hi := h i h1
  rwa [List.getD_eq_getElem l1 0 h1, List.getD_eq_getElem l2 0 h2] at hi

/-- A fold of set-at-member updates over a `Nodup` index list, read back
at one position. -/
theorem foldl_set_getD (f : ℕ → Matrix → Matrix) (l : List ℕ) :
    ∀ (bl : List Matrix) (b : ℕ), b < bl.length → l.Nodup →
      ((l.foldl (fun bl b' => bl.set b' (f b' (bl.getD b' matrixD))) bl).getD b matrixD)
        = if b ∈ l then f b (bl.getD b matrixD) else bl.getD b matrixD := by
  induction l with
  | nil =>
    intro bl b hb hnd
    simp
  | cons b' rest ih =>
    intro bl b hb hnd
    simp only [List.foldl_cons]
    by_cases hbb : b = b'
    · subst hbb
      have hnotin : b ∉ rest := (List.nodup_cons.mp hnd).1
      rw [ih (bl.set b (f b (bl.getD b matrixD))) b (by rw [List.length_set]; exact hb)
        (List.nodup_cons.mp hnd).2, if_neg hnotin, getD_set_self _ _ _ _ hb,
        if_pos (List.mem_cons_self _ _)]
    · rw [ih (bl.set b' (f b' (bl.getD b' matrixD))) b (by rw [List.length_set]; exact hb)
        (List.nodup_cons.mp hnd).2]
      rw [getD_set_ne2 _ _ _ (fun h => hbb h.symm)]
      by_cases hmem : b ∈ rest
      · rw [if_pos hmem, if_pos (List.mem_cons_of_mem _ hmem)]
      · rw [if_neg hmem, if_neg (by simp [hbb, hmem])]

theorem foldl_set_length (f : ℕ → Matrix → Matrix) (l : List ℕ) :
    ∀ bl : List Matrix,
      (l.foldl (fun bl b' => bl.set b' (f b' (bl.getD b' matrixD))) bl).length
        = bl.length := by
  induction l with
  | nil => intro bl; rfl
  | cons b' rest ih =>
    intro bl
    simp only [List.foldl_cons]
    rw [ih]
    exact List.length_set _ _ _

theorem cmwsRunUpdate_getD (sdp : SDP) (x : Vector) (run : ℕ × ℕ × ℕ × ℕ)
    (bl : List Matrix) (b : ℕ) (hb : b < bl.length)
    (hnd : (sdp.blocks.getD run.1 []).Nodup) :
    (cmwsRunUpdate sdp x bl run).getD b matrixD
      = if b ∈ sdp.blocks.getD run.1 [] then
          diagonalCongruenceTranspose (fun n => x.getD (run.2.2.2 + n) 0)
            (sdp.bilinearBases.getD b matrixD) run.2.2.1 run.2.1 (bl.getD b matrixD)
        else bl.getD b matrixD :=
  foldl_set_getD
    (fun b' M => diagonalCongruenceTranspose (fun n => x.getD (run.2.2.2 + n) 0)
      (sdp.bilinearBases.getD b' matrixD) run.2.2.1 run.2.1 M)
    (sdp.blocks.getD run.1 []) bl b hb hnd

theorem cmwsRunUpdate_length (sdp : SDP) (x : Vector) (run : ℕ × ℕ × ℕ × ℕ)
    (bl : List Matrix) :
    (cmwsRunUpdate sdp x bl run).length = bl.length :=
  foldl_set_length
    (fun b' M => diagonalCongruenceTranspose (fun n => x.getD (run.2.2.2 + n) 0)
      (sdp.bilinearBases.getD b' matrixD) run.2.2.1 run.2.1 M)
    (sdp.blocks.getD run.1 []) bl

theorem applySets_append (M : Matrix) (A B : List (ℕ × ℕ × Real)) :
    applySets M (A ++ B) = applySets (applySets M A) B :=
  List.foldl_append _ _ _ _

theorem runs_foldl_length (sdp : SDP) (x : Vector) (runs : List (ℕ × ℕ × ℕ × ℕ)) :
    ∀ bl : List Matrix, (runs.foldl (cmwsRunUpdate sdp x) bl).length = bl.length := by
  induction runs with
  | nil => intro bl; rfl
  | cons run rest ih =>
    intro bl
    simp only [List.foldl_cons]
    rw [ih, cmwsRunUpdate_length]

/-- Reading one block through a fold of runs: the block accumulates the
`diagonalCongruenceTranspose` writes of exactly the runs whose group
contains it. -/
theorem runs_foldl_getD (sdp : SDP) (x : Vector) (runs : List (ℕ × ℕ × ℕ × ℕ)) :
    ∀ (bl : List Matrix) (b : ℕ), b < bl.length →
      (∀ run ∈ runs, (sdp.blocks.getD run.1 []).Nodup) →
      (runs.foldl (cmwsRunUpdate sdp x) bl).getD b matrixD
        = applySets (bl.getD b matrixD)
            ((runs.filter (fun run => decide (b ∈ sdp.blocks.getD run.1 []))).flatMap
              (fun run => dctWrites (fun n => x.getD (run.2.2.2 + n) 0)
                (sdp.bilinearBases.getD b matrixD) run.2.2.1 run.2.1)) := by
  induction runs with
  | nil =>
    intro bl b hb hnd
    simp [applySets]
  | cons run rest ih =>
    intro bl b hb hnd
    simp only [List.foldl_cons, List.filter_cons]
    rw [ih (cmwsRunUpdate sdp x bl run) b (by rw [cmwsRunUpdate_length]; exact hb)
      (fun r hr => hnd r (List.mem_cons_of_mem _ hr)),
      cmwsRunUpdate_getD sdp x run bl b hb (hnd run (List.mem_cons_self _ _))]
    by_cases hmem : b ∈ sdp.blocks.getD run.1 []
    · rw [if_pos hmem, if_pos (by simpa using hmem)]
      simp only [List.flatMap_cons]
      rw [applySets_append]
      rfl
    · rw [if_neg hmem, if_neg (by simpa using hmem)]

/-- Closed form of the inner `r` loop of the block phase. -/
theorem cmws_r_aux (sdp : SDP) (x : Vector) (j s : ℕ) (n : ℕ) :
    ∀ st : List Matrix × ℕ,
      (List.range n).foldl
        (fun (st : List Matrix × ℕ) r =>
          ((sdp.blocks.getD j []).foldl
            (fun bl b =>
              bl.set b
                (diagonalCongruenceTranspose (fun n => x.getD (st.2 + n) 0)
                  (sdp.bilinearBases.getD b matrixD) r s (bl.getD b matrixD)))
            st.1,
           st.2 + (sdp.degrees.getD j 0 + 1)))
        st
      = (((List.range n).map
            (fun r => (j, s, r, st.2 + r * (sdp.degrees.getD j 0 + 1)))).foldl
          (cmwsRunUpdate sdp x) st.1,
         st.2 + n * (sdp.degrees.getD j 0 + 1)) := by
  induction n with
  | zero =>
    intro st
    simp
  | succ n ih =>
    intro st
    rw [show List.range (n + 1) = List.range n ++ [n] from List.range_succ n,
      List.foldl_append, ih st, List.map_append, List.foldl_append]
    simp only [List.foldl_cons, List.foldl_nil, List.map_cons, List.map_nil]
    rw [Prod.mk.injEq]
    exact ⟨rfl, by ring⟩

/-- Closed form of the middle `s` loop of the block phase. -/
theorem cmws_s_aux (sdp : SDP) (x : Vector) (j : ℕ) (n : ℕ) :
    ∀ st : List Matrix × ℕ,
      (List.range n).foldl
        (fun st s =>
          (List.range (s + 1)).foldl
            (fun (st : List Matrix × ℕ) r =>
              ((sdp.blocks.getD j []).foldl
                (fun bl b =>
                  bl.set b
                    (diagonalCongruenceTranspose (fun n => x.getD (st.2 + n) 0)
                      (sdp.bilinearBases.getD b matrixD) r s (bl.getD b matrixD)))
                st.1,
               st.2 + (sdp.degrees.getD j 0 + 1)))
            st)
        st
      = (((List.range n).flatMap (fun s =>
            (List.range (s + 1)).map (fun r =>
              (j, s, r, st.2 + (triangle s + r) * (sdp.degrees.getD j 0 + 1))))).foldl
          (cmwsRunUpdate sdp x) st.1,
         st.2 + triangle n * (sdp.degrees.getD j 0 + 1)) := by
  induction n with
  | zero =>
    intro st
    simp [triangle]
  | succ n ih =>
    intro st
    rw [show List.range (n + 1) = List.range n ++ [n] from List.range_succ n,
      List.foldl_append, ih st, List.flatMap_append, List.foldl_append]
    simp only [List.foldl_cons, List.foldl_nil, List.flatMap_cons, List.flatMap_nil,
      List.append_nil]
    refine (cmws_r_aux sdp x j n (n + 1) _).trans ?_
    dsimp only
    rw [Prod.mk.injEq]
    refine ⟨?_, ?_⟩
    · congr 1
      refine List.map_congr_left (fun r hr => ?_)
      simp only [Prod.mk.injEq, true_and]
      ring
    · rw [triangle_succ]
      ring

/-- Closed form of the outer `j` loop of the block phase. -/
theorem cmws_j_aux (sdp : SDP) (x : Vector) (n : ℕ) :
    ∀ st : List Matrix × ℕ,
      (List.range n).foldl
        (fun (st : List Matrix × ℕ) j =>
          (List.range (sdp.dimensions.getD j 0)).foldl
            (fun st s =>
              (List.range (s + 1)).foldl
                (fun (st : List Matrix × ℕ) r =>
                  ((sdp.blocks.getD j []).foldl
                    (fun bl b =>
                      bl.set b
                        (diagonalCongruenceTranspose (fun n => x.getD (st.2 + n) 0)
                          (sdp.bilinearBases.getD b matrixD) r s (bl.getD b matrixD)))
                    st.1,
                   st.2 + (sdp.degrees.getD j 0 + 1)))
                st)
            st)
        st
      = (((List.range n).flatMap (fun j =>
            (List.range (sdp.dimensions.getD j 0)).flatMap (fun s =>
              (List.range (s + 1)).map (fun r =>
                (j, s, r, st.2 + startOffset sdp.dimensions sdp.degrees j
                  + (triangle s + r) * (sdp.degrees.getD j 0 + 1)))))).foldl
          (cmwsRunUpdate sdp x) st.1,
         st.2 + startOffset sdp.dimensions sdp.degrees n) := by
  induction n with
  | zero =>
    intro st
    simp [startOffset]
  | succ n ih =>
    intro st
    rw [show List.range (n + 1) = List.range n ++ [n] from List.range_succ n,
      List.foldl_append, ih st, List.flatMap_append, List.foldl_append]
    simp only [List.foldl_cons, List.foldl_nil, List.flatMap_cons, List.flatMap_nil,
      List.append_nil]
    refine (cmws_s_aux sdp x n (sdp.dimensions.getD n 0) _).trans ?_
    dsimp only
    rw [Prod.mk.injEq]
    refine ⟨rfl, ?_⟩
    rw [startOffset_succ]
    simp only [tupleCount]
    omega

/-- The block phase, started from `(bl0, 0)`, is the fold of the run list
and ends with `p` at the total tuple count. -/
theorem cmwsBlockPhase_eq (sdp : SDP) (x : Vector) (bl0 : List Matrix) :
    cmwsBlockPhase sdp x (bl0, 0)
      = ((cmwsRuns sdp.dimensions sdp.degrees).foldl (cmwsRunUpdate sdp x) bl0,
         startOffset sdp.dimensions sdp.degrees sdp.dimensions.length) := by
  refine (cmws_j_aux sdp x sdp.dimensions.length (bl0, 0)).trans ?_
  dsimp only
  rw [Prod.mk.injEq]
  refine ⟨?_, by rw [Nat.zero_add]⟩
  congr 1
  unfold cmwsRuns
  refine List.flatMap_congr (fun j hj => ?_)
  refine List.flatMap_congr (fun s hs => ?_)
  refine List.map_congr_left (fun r hr => ?_)
  simp only [Prod.mk.injEq, true_and]
  omega

theorem dctTmp_symm (d : ℕ → Real) (V : Matrix) (p q : ℕ) :
    dctTmp d V p q = dctTmp d V q p := by
  unfold dctTmp
  refine Finset.sum_congr rfl (fun n _ => ?_)
  ring

/-- Every write of `dctWrites` is a region write at some `(u, v)` with the
symmetric accumulator value. -/
theorem dctWrites_shape (d : ℕ → Real) (V : Matrix) (br bc : ℕ) :
    ∀ w ∈ dctWrites d V br bc, ∃ u v, u < V.rows ∧ v < V.rows ∧
      w = (br * V.rows + u, bc * V.rows + v, dctTmp d V u v) := by
  intro w hw
  simp only [dctWrites, List.mem_flatMap, List.mem_range] at hw
  obtain ⟨p, hp, q, hq, hw⟩ := hw
  rcases List.mem_cons.mp hw with rfl | hw2
  · exact ⟨p, q, hp, by omega, rfl⟩
  · by_cases hne : p ≠ q
    · rw [if_pos hne] at hw2
      simp only [List.mem_singleton] at hw2
      subst hw2
      refine ⟨q, p, by omega, hp, ?_⟩
      rw [dctTmp_symm]
    · rw [if_neg hne] at hw2
      exact absurd hw2 (List.not_mem_nil w)

/-- Conversely every region position `(u, v)` is written, with the
accumulator value. -/
theorem dctWrites_mem (d : ℕ → Real) (V : Matrix) (br bc : ℕ) {u v : ℕ}
    (hu : u < V.rows) (hv : v < V.rows) :
    (br * V.rows + u, bc * V.rows + v, dctTmp d V u v) ∈ dctWrites d V br bc := by
  simp only [dctWrites, List.mem_flatMap, List.mem_range]
  rcases le_or_lt v u with hvu | huv
  · exact ⟨u, hu, v, by omega, List.mem_cons_self _ _⟩
  · refine ⟨v, hv, u, by omega, ?_⟩
    refine List.mem_cons_of_mem _ ?_
    rw [if_pos (show v ≠ u by omega), dctTmp_symm]
    exact List.mem_singleton_self _

theorem block_coord_inj {R r u r' u' : ℕ} (hu : u < R) (hu' : u' < R)
    (h : r * R + u = r' * R + u') : r = r' ∧ u = u' := by
  have h2 : u + r * R = u' + r' * R := by omega
  obtain ⟨h3, h4⟩ := (flat_index_inj hu hu').mp h2
  exact ⟨h4, h3⟩

theorem block_div (R r u : ℕ) (hu : u < R) : (r * R + u) / R = r := by
  have hR : 0 < R := Nat.lt_of_le_of_lt (Nat.zero_le u) hu
  rw [Nat.add_comm, Nat.add_mul_div_right u r hR, Nat.div_eq_of_lt hu, Nat.zero_add]

theorem block_mod (R r u : ℕ) (hu : u < R) : (r * R + u) % R = u := by
  rw [Nat.add_comm, Nat.add_mul_mod_self_right, Nat.mod_eq_of_lt hu]

/-- Applying writes whose values are all zero to a matrix with an all-zero
buffer keeps the buffer all zero. -/
theorem applySets_zero (M : Matrix) (ws : List (ℕ × ℕ × Real))
    (hM : ∀ i, M.elements i = 0) (hws : ∀ w ∈ ws, w.2.2 = 0) :
    ∀ i, (applySets M ws).elements i = 0 := by
  induction ws generalizing M with
  | nil => exact hM
  | cons w ws ih =>
    refine ih (M.set w.1 w.2.1 w.2.2) (fun i => ?_)
      (fun w' hw' => hws w' (List.mem_cons_of_mem _ hw'))
    unfold Matrix.set
    simp only
    by_cases h : i = w.1 + w.2.1 * M.rows
    · rw [if_pos h]
      exact hws w (List.mem_cons_self _ _)
    · rw [if_neg h]
      exact hM i

theorem mem_cmwsRuns {dims degs : List ℕ} {run : ℕ × ℕ × ℕ × ℕ}
    (h : run ∈ cmwsRuns dims degs) :
    run.1 < dims.length ∧ run.2.1 < dims.getD run.1 0 ∧ run.2.2.1 ≤ run.2.1
      ∧ run.2.2.2 = startOffset dims degs run.1
          + (triangle run.2.1 + run.2.2.1) * (degs.getD run.1 0 + 1) := by
  simp only [cmwsRuns, List.mem_flatMap, List.mem_map, List.mem_range] at h
  obtain ⟨j, hj, s, hs, r, hr, rfl⟩ := h
  exact ⟨hj, hs, show r ≤ s by omega, rfl⟩

theorem flatMap_range_single {α : Type} (n t : ℕ) (ht : t < n) (L : ℕ → List α) :
    (List.range n).flatMap (fun j => if j = t then L j else []) = L t := by
  induction n with
  | zero => omega
  | succ n ih =>
    rw [show List.range (n + 1) = List.range n ++ [n] from List.range_succ n,
      List.flatMap_append]
    simp only [List.flatMap_cons, List.flatMap_nil, List.append_nil]
    rcases Nat.lt_or_ge t n with hlt | hge
    · rw [ih hlt, if_neg (show ¬n = t by omega), List.append_nil]
    · have ht' : t = n := by omega
      subst ht'
      rw [if_pos rfl]
      have hpre : (List.range t).flatMap (fun j => if j = t then L j else []) = [] := by
        refine List.flatMap_eq_nil_iff.mpr (fun j hj => ?_)
        rw [if_neg (show ¬j = t by simp only [List.mem_range] at hj; omega)]
      rw [hpre, List.nil_append]

/-- Filtering the run list by a predicate that singles out group `t`
leaves exactly group `t`'s runs. -/
theorem cmwsRuns_filter (dims degs : List ℕ) (P : ℕ → Bool) (t : ℕ) (ht : t < dims.length)
    (hP : ∀ j < dims.length, (P j = true ↔ j = t)) :
    (cmwsRuns dims degs).filter (fun run => P run.1)
      = (List.range (dims.getD t 0)).flatMap (fun s =>
          (List.range (s + 1)).map (fun r =>
            (t, s, r, startOffset dims degs t
              + (triangle s + r) * (degs.getD t 0 + 1)))) := by
  unfold cmwsRuns
  rw [List.filter_flatMap]
  have hinner : ∀ j ∈ List.range dims.length,
      List.filter (fun run => P run.1)
          ((List.range (dims.getD j 0)).flatMap (fun s =>
            (List.range (s + 1)).map (fun r =>
              (j, s, r, startOffset dims degs j
                + (triangle s + r) * (degs.getD j 0 + 1)))))
        = if j = t then
            (List.range (dims.getD j 0)).flatMap (fun s =>
              (List.range (s + 1)).map (fun r =>
                (j, s, r, startOffset dims degs j
                  + (triangle s + r) * (degs.getD j 0 + 1))))
          else [] := by
    intro j hj
    simp only [List.mem_range] at hj
    by_cases hjt : j = t
    · rw [if_pos hjt]
      refine List.filter_eq_self.mpr (fun run hrun => ?_)
      simp only [List.mem_flatMap, List.mem_map, List.mem_range] at hrun
      obtain ⟨s, hs, r, hr, rfl⟩ := hrun
      simpa using (hP j hj).mpr hjt
    · rw [if_neg hjt]
      refine List.filter_eq_nil_iff.mpr (fun run hrun => ?_)
      simp only [List.mem_flatMap, List.mem_map, List.mem_range] at hrun
      obtain ⟨s, hs, r, hr, rfl⟩ := hrun
      simpa using fun hc => hjt ((hP j hj).mp hc)
  rw [List.flatMap_congr hinner,
    flatMap_range_single dims.length t ht
      (fun j => (List.range (dims.getD j 0)).flatMap (fun s =>
        (List.range (s + 1)).map (fun r =>
          (j, s, r, startOffset dims degs j
            + (triangle s + r) * (degs.getD j 0 + 1)))))]

/-- The entry of a block after all of its group's
`diagonalCongruenceTranspose` runs: positions in an upper block region
`(r, s)` (with `r = a/δ ≤ s = c/δ`) hold the accumulator of that region's
run; all other positions are untouched. -/
theorem group_writes_get (dfun : ℕ → ℕ → ℕ → Real) (V : Matrix) (dim : ℕ) (M0 : Matrix)
    (hdelta : 0 < V.rows) (hrows : M0.rows = dim * V.rows)
    {a c : ℕ} (ha : a < dim * V.rows) (hc : c < dim * V.rows) :
    (applySets M0 ((List.range dim).flatMap (fun s =>
        (List.range (s + 1)).flatMap (fun r =>
          dctWrites (fun n => dfun s r n) V r s)))).get a c
      = if a / V.rows ≤ c / V.rows then
          dctTmp (fun n => dfun (c / V.rows) (a / V.rows) n) V (a % V.rows) (c % V.rows)
        else M0.get a c := by
  have hra : a / V.rows < dim := (Nat.div_lt_iff_lt_mul hdelta).mpr ha
  have hrc : c / V.rows < dim := (Nat.div_lt_iff_lt_mul hdelta).mpr hc
  have hshape : ∀ w ∈ (List.range dim).flatMap (fun s =>
      (List.range (s + 1)).flatMap (fun r => dctWrites (fun n => dfun s r n) V r s)),
      ∃ s r u v, s < dim ∧ r ≤ s ∧ u < V.rows ∧ v < V.rows ∧
        w = (r * V.rows + u, s * V.rows + v, dctTmp (fun n => dfun s r n) V u v) := by
    intro w hw
    simp only [List.mem_flatMap, List.mem_range] at hw
    obtain ⟨s, hs, r, hr, hw⟩ := hw
    obtain ⟨u, v, hu, hv, rfl⟩ := dctWrites_shape (fun n => dfun s r n) V r s w hw
    exact ⟨s, r, u, v, hs, by omega, hu, hv, rfl⟩
  have hrowbound : ∀ w ∈ (List.range dim).flatMap (fun s =>
      (List.range (s + 1)).flatMap (fun r => dctWrites (fun n => dfun s r n) V r s)),
      w.1 < M0.rows := by
    intro w hw
    obtain ⟨s, r, u, v, hs, hrle, hu, hv, rfl⟩ := hshape w hw
    show r * V.rows + u < M0.rows
    rw [hrows, Nat.mul_comm dim V.rows]
    exact block_index_lt (show r < dim by omega) hu
  by_cases hle : a / V.rows ≤ c / V.rows
  · rw [if_pos hle]
    refine applySets_get_hit M0 _ hrowbound (by rw [hrows]; exact ha) ?_ ?_
    · refine ⟨(a / V.rows * V.rows + a % V.rows, c / V.rows * V.rows + c % V.rows,
        dctTmp (fun n => dfun (c / V.rows) (a / V.rows) n) V (a % V.rows) (c % V.rows)),
        ?_, ?_, ?_⟩
      · simp only [List.mem_flatMap, List.mem_range]
        exact ⟨c / V.rows, hrc, a / V.rows, by omega,
          dctWrites_mem _ V _ _ (Nat.mod_lt a hdelta) (Nat.mod_lt c hdelta)⟩
      · exact Nat.div_add_mod' a V.rows
      · exact Nat.div_add_mod' c V.rows
    · intro w hw h1 h2
      obtain ⟨s, r, u, v, hs, hrle, hu, hv, rfl⟩ := hshape w hw
      have h1' : r * V.rows + u = a / V.rows * V.rows + a % V.rows := by
        rw [Nat.div_add_mod' a V.rows]
        exact h1
      have h2' : s * V.rows + v = c / V.rows * V.rows + c % V.rows := by
        rw [Nat.div_add_mod' c V.rows]
        exact h2
      obtain ⟨hr1, hu1⟩ := block_coord_inj hu (Nat.mod_lt a hdelta) h1'
      obtain ⟨hs1, hv1⟩ := block_coord_inj hv (Nat.mod_lt c hdelta) h2'
      show dctTmp (fun n => dfun s r n) V u v
        = dctTmp (fun n => dfun (c / V.rows) (a / V.rows) n) V (a % V.rows) (c % V.rows)
      rw [hr1, hu1, hs1, hv1]
  · rw [if_neg hle]
    refine applySets_get_untouched M0 _ hrowbound (by rw [hrows]; exact ha) ?_
    intro w hw hcontra
    obtain ⟨s, r, u, v, hs, hrle, hu, hv, rfl⟩ := hshape w hw
    obtain ⟨h1, h2⟩ := hcontra
    have hda : a / V.rows = r := by
      have := block_div V.rows r u hu
      rw [show r * V.rows + u = a from h1] at this
      exact this
    have hdc : c / V.rows = s := by
      have := block_div V.rows s v hv
      rw [show s * V.rows + v = c from h2] at this
      exact this
    exact hle (by omega)

/-- The entry of a block after the outer-product writes of `printSDPData`:
the `(rr, ss)` region holds `q_e·q_f`; everything else is untouched. -/
theorem outer_writes_get (q : ℕ → Real) (dim rr ss : ℕ) (V : Matrix) (M0 : Matrix)
    (hdelta : 0 < V.rows) (hrr : rr < dim) (hrows : M0.rows = dim * V.rows)
    {a c : ℕ} (ha : a < dim * V.rows) :
    (applySets M0 ((List.range V.rows).flatMap (fun e =>
        (List.range V.rows).map (fun f =>
          (rr * V.rows + e, ss * V.rows + f, q e * q f))))).get a c
      = if a / V.rows = rr ∧ c / V.rows = ss then q (a % V.rows) * q (c % V.rows)
        else M0.get a c := by
  have hshape : ∀ w ∈ (List.range V.rows).flatMap (fun e =>
      (List.range V.rows).map (fun f => (rr * V.rows + e, ss * V.rows + f, q e * q f))),
      ∃ e f, e < V.rows ∧ f < V.rows
        ∧ w = (rr * V.rows + e, ss * V.rows + f, q e * q f) := by
    intro w hw
    simp only [List.mem_flatMap, List.mem_map, List.mem_range] at hw
    obtain ⟨e, he, f, hf, rfl⟩ := hw
    exact ⟨e, f, he, hf, rfl⟩
  have hrowbound : ∀ w ∈ (List.range V.rows).flatMap (fun e =>
      (List.range V.rows).map (fun f => (rr * V.rows + e, ss * V.rows + f, q e * q f))),
      w.1 < M0.rows := by
    intro w hw
    obtain ⟨e, f, he, hf, rfl⟩ := hshape w hw
    show rr * V.rows + e < M0.rows
    rw [hrows, Nat.mul_comm dim V.rows]
    exact block_index_lt hrr he
  by_cases hcond : a / V.rows = rr ∧ c / V.rows = ss
  · rw [if_pos hcond]
    refine applySets_get_hit M0 _ hrowbound (by rw [hrows]; exact ha) ?_ ?_
    · refine ⟨(rr * V.rows + a % V.rows, ss * V.rows + c % V.rows,
        q (a % V.rows) * q (c % V.rows)), ?_, ?_, ?_⟩
      · simp only [List.mem_flatMap, List.mem_map, List.mem_range]
        exact ⟨a % V.rows, Nat.mod_lt a hdelta, c % V.rows, Nat.mod_lt c hdelta, rfl⟩
      · show rr * V.rows + a % V.rows = a
        rw [← hcond.1]
        exact Nat.div_add_mod' a V.rows
      · show ss * V.rows + c % V.rows = c
        rw [← hcond.2]
        exact Nat.div_add_mod' c V.rows
    · intro w hw h1 h2
      obtain ⟨e, f, he, hf, rfl⟩ := hshape w hw
      have h1' : rr * V.rows + e = rr * V.rows + a % V.rows := by
        rw [show (rr * V.rows + e : ℕ) = a from h1, ← hcond.1]
        exact (Nat.div_add_mod' a V.rows).symm
      have h2' : ss * V.rows + f = ss * V.rows + c % V.rows := by
        rw [show (ss * V.rows + f : ℕ) = c from h2, ← hcond.2]
        exact (Nat.div_add_mod' c V.rows).symm
      show q e * q f = q (a % V.rows) * q (c % V.rows)
      rw [show e = a % V.rows by omega, show f = c % V.rows by omega]
  · rw [if_neg hcond]
    refine applySets_get_untouched M0 _ hrowbound (by rw [hrows]; exact ha) ?_
    intro w hw hcontra
    obtain ⟨e, f, he, hf, rfl⟩ := hshape w hw
    obtain ⟨h1, h2⟩ := hcontra
    refine hcond ⟨?_, ?_⟩
    · rw [← h1]
      exact block_div V.rows rr e he
    · rw [← h2]
      exact block_div V.rows ss f hf

/-- A global tuple index determines its group, `s`, `r` and `k`. -/
theorem global_off_inj (dims degs : List ℕ) {j1 j2 s1 r1 k1 s2 r2 k2 : ℕ}
    (_hj1 : j1 < dims.length) (hj2 : j2 < dims.length)
    (hr1 : r1 ≤ s1) (hs1 : s1 < dims.getD j1 0) (hk1 : k1 ≤ degs.getD j1 0)
    (hr2 : r2 ≤ s2) (hs2 : s2 < dims.getD j2 0) (hk2 : k2 ≤ degs.getD j2 0)
    (h : startOffset dims degs j1 + (triangle s1 + r1) * (degs.getD j1 0 + 1) + k1
       = startOffset dims degs j2 + (triangle s2 + r2) * (degs.getD j2 0 + 1) + k2) :
    j1 = j2 ∧ s1 = s2 ∧ r1 = r2 ∧ k1 = k2 := by
  have ha1 : (triangle s1 + r1) * (degs.getD j1 0 + 1)
      = triangle s1 * (degs.getD j1 0 + 1) + r1 * (degs.getD j1 0 + 1) :=
    Nat.add_mul _ _ _
  have ha2 : (triangle s2 + r2) * (degs.getD j2 0 + 1)
      = triangle s2 * (degs.getD j2 0 + 1) + r2 * (degs.getD j2 0 + 1) :=
    Nat.add_mul _ _ _
  have hb1 : (triangle s1 + r1) * (degs.getD j1 0 + 1) + k1
      < tupleCount (dims.getD j1 0) (degs.getD j1 0) := by
    have := off_lt_tupleCount hr1 hs1 hk1
    omega
  have hb2 : (triangle s2 + r2) * (degs.getD j2 0 + 1) + k2
      < tupleCount (dims.getD j2 0) (degs.getD j2 0) := by
    have := off_lt_tupleCount hr2 hs2 hk2
    omega
  have hjj : j1 = j2 := by
    by_contra hne
    rcases Nat.lt_or_ge j1 j2 with hlt | hge
    · have h1 := startOffset_succ dims degs j1
      have h2 := startOffset_mono dims degs (show j1 + 1 ≤ j2 by omega)
      omega
    · have h1 := startOffset_succ dims degs j2
      have h2 := startOffset_mono dims degs (show j2 + 1 ≤ j1 by omega)
      omega
  subst hjj
  have hoff : triangle s1 * (degs.getD j1 0 + 1) + r1 * (degs.getD j1 0 + 1) + k1
      = triangle s2 * (degs.getD j1 0 + 1) + r2 * (degs.getD j1 0 + 1) + k2 := by
    omega
  obtain ⟨hs, hr, hk⟩ := off_inj hr1 hk1 hr2 hk2 hoff
  exact ⟨rfl, hs, hr, hk⟩

@[simp] theorem standardBasis_length (N p : ℕ) : (standardBasis N p).length = N := by
  simp [standardBasis]

theorem standardBasis_getD (N phat p : ℕ) (h : phat < N) :
    (standardBasis N phat).getD p 0 = if p = phat then 1 else 0 := by
  rcases Nat.lt_or_ge p N with hp | hp
  · unfold standardBasis
    exact getD_map_range _ N p 0 hp
  · rw [List.getD_eq_default _ _ (by rw [standardBasis_length]; exact hp),
      if_neg (by omega)]

/-- Dotting a column of `polMatrixValues` with `e_p` selects row `p`. -/
theorem basis_dot_col (PMV : Matrix) (N phat n : ℕ) (h : phat < N) :
    ∑ p ∈ Finset.range (standardBasis N phat).length,
        (standardBasis N phat).getD p 0 * PMV.get p n = PMV.get phat n := by
  rw [standardBasis_length]
  have hterm : ∀ p ∈ Finset.range N,
      (standardBasis N phat).getD p 0 * PMV.get p n
        = if p = phat then PMV.get p n else 0 := by
    intro p hp
    rw [standardBasis_getD N phat p h]
    by_cases hpp : p = phat
    · rw [if_pos hpp, if_pos hpp, one_mul]
    · rw [if_neg hpp, if_neg hpp, zero_mul]
  rw [Finset.sum_congr rfl hterm, sum_pick N phat h (fun p => PMV.get p n)]

/-- The run accumulator against a standard basis vector: it is the outer
product of the `k`-th basis column exactly on the run of the selected
tuple, and `0` on every other run of every group. -/
theorem dctTmp_basis_eval (dims degs : List ℕ) (V : Matrix) (jh rh sh kh : ℕ)
    (hjh : jh < dims.length) (hrh : rh ≤ sh) (hsh : sh < dims.getD jh 0)
    (hkh : kh ≤ degs.getD jh 0)
    (j s r : ℕ) (hj : j < dims.length) (hr : r ≤ s) (hs : s < dims.getD j 0)
    (hcols : V.cols = degs.getD j 0 + 1) (e f : ℕ) :
    dctTmp (fun n => (standardBasis (startOffset dims degs dims.length)
        (startOffset dims degs jh + (triangle sh + rh) * (degs.getD jh 0 + 1) + kh)).getD
        (startOffset dims degs j + (triangle s + r) * (degs.getD j 0 + 1) + n) 0) V e f
      = if j = jh ∧ s = sh ∧ r = rh then V.get e kh * V.get f kh else 0 := by
  have hphat : startOffset dims degs jh + (triangle sh + rh) * (degs.getD jh 0 + 1) + kh
      < startOffset dims degs dims.length := by
    have h1 := off_lt_tupleCount hrh hsh hkh
    have hadd : (triangle sh + rh) * (degs.getD jh 0 + 1)
        = triangle sh * (degs.getD jh 0 + 1) + rh * (degs.getD jh 0 + 1) :=
      Nat.add_mul _ _ _
    have h2 := startOffset_succ dims degs jh
    have h3 := startOffset_mono dims degs (show jh + 1 ≤ dims.length by omega)
    omega
  unfold dctTmp
  rw [hcols]
  have hterm : ∀ n ∈ Finset.range (degs.getD j 0 + 1),
      (standardBasis (startOffset dims degs dims.length)
          (startOffset dims degs jh + (triangle sh + rh) * (degs.getD jh 0 + 1) + kh)).getD
          (startOffset dims degs j + (triangle s + r) * (degs.getD j 0 + 1) + n) 0
          * V.get e n * V.get f n
        = if (j = jh ∧ s = sh ∧ r = rh) ∧ n = kh then V.get e n * V.get f n else 0 := by
    intro n hn
    rw [standardBasis_getD _ _ _ hphat]
    by_cases hcond : startOffset dims degs j + (triangle s + r) * (degs.getD j 0 + 1) + n
        = startOffset dims degs jh + (triangle sh + rh) * (degs.getD jh 0 + 1) + kh
    · obtain ⟨hj', hs', hr', hk'⟩ := global_off_inj dims degs hj hjh hr hs
        (show n ≤ degs.getD j 0 by simp only [Finset.mem_range] at hn; omega)
        hrh hsh hkh hcond
      rw [if_pos hcond, if_pos ⟨⟨hj', hs', hr'⟩, hk'⟩, one_mul]
    · rw [if_neg hcond, zero_mul, zero_mul, if_neg]
      rintro ⟨⟨rfl, rfl, rfl⟩, rfl⟩
      exact hcond rfl
  rw [Finset.sum_congr rfl hterm]
  by_cases hmain : j = jh ∧ s = sh ∧ r = rh
  · have hterm2 : ∀ n ∈ Finset.range (degs.getD j 0 + 1),
        (if (j = jh ∧ s = sh ∧ r = rh) ∧ n = kh then V.get e n * V.get f n else 0)
          = if n = kh then V.get e n * V.get f n else 0 := by
      intro n hn
      by_cases hk : n = kh
      · rw [if_pos ⟨hmain, hk⟩, if_pos hk]
      · rw [if_neg (fun hq => hk hq.2), if_neg hk]
    rw [Finset.sum_congr rfl hterm2,
      sum_pick (degs.getD j 0 + 1) kh (by rw [hmain.1]; omega)
        (fun n => V.get e n * V.get f n), if_pos hmain]
  · rw [if_neg hmain]
    refine Finset.sum_eq_zero (fun n hn => ?_)
    rw [if_neg (fun hq => hmain hq.1)]

/-- A fold that sets every position of `range L` over a length-`L` vector
produces the tabulated list. -/
theorem foldl_set_range_eq (L : ℕ) (g : ℕ → Real) (v : Vector) (hv : v.length = L) :
    (List.range L).foldl (fun v n => v.set n (g n)) v = (List.range L).map g := by
  have hconv : (List.range L).foldl (fun v n => v.set n (g n)) v
      = applyVSets v ((List.range L).map (fun n => (n, g n))) := by
    unfold applyVSets
    rw [List.foldl_map]
  rw [hconv]
  refine list_eq_of_getD ?_ ?_
  · rw [applyVSets_length, hv, List.length_map, List.length_range]
  · intro i hi
    rw [applyVSets_length, hv] at hi
    rw [getD_map_range g L i 0 hi]
    refine applyVSets_getD_hit v _ (by omega) ?_ ?_
    · refine ⟨(i, g i), ?_, rfl⟩
      simp only [List.mem_map, List.mem_range]
      exact ⟨i, hi, rfl⟩
    · intro w hw h1
      simp only [List.mem_map, List.mem_range] at hw
      obtain ⟨i', hi', rfl⟩ := hw
      have : i' = i := h1
      rw [this]

/-- Symmetrizing a matrix whose buffer is identically zero leaves every
in-range entry zero. -/
theorem symmetrize_get_zero (M : Matrix) (h : ∀ i, M.elements i = 0) {a c : ℕ}
    (ha : a < M.rows) (hc : c < M.rows) : M.symmetrize.get a c = 0 := by
  rw [Matrix.symmetrize_get M ha hc]
  by_cases hac : a = c
  · rw [if_pos hac]
    exact h _
  · rw [if_neg hac]
    show (M.elements _ + M.elements _) / 2 = 0
    rw [h, h]
    norm_num

/-- Two matrices with the same row count and equal in-range entries have
equal symmetrized in-range entries. -/
theorem symmetrize_get_congr (A B : Matrix) (hrows : B.rows = A.rows)
    (hent : ∀ a < A.rows, ∀ c < A.rows, A.get a c = B.get a c)
    {a c : ℕ} (ha : a < A.rows) (hc : c < A.rows) :
    A.symmetrize.get a c = B.symmetrize.get a c := by
  rw [Matrix.symmetrize_get A ha hc, Matrix.symmetrize_get B (by omega) (by omega)]
  by_cases hac : a = c
  · rw [if_pos hac, if_pos hac, hent a ha c hc]
  · rw [if_neg hac, if_neg hac, hent a ha c hc, hent c hc a ha]

/-- The final (pre-symmetrize) entry of a block of the selected tuple's
group: the `(t.r, t.s)` region holds the outer product of the `t.k`-th
basis column, all other entries are zero. -/
theorem cmws_writes_block_in (sdp : SDP) (Zb : Matrix) (j : ℕ) (t : IndexTuple) (b : ℕ)
    (hj : j < sdp.dimensions.length)
    (htr : t.r ≤ t.s) (hts : t.s < sdp.dimensions.getD j 0)
    (htk : t.k ≤ sdp.degrees.getD j 0)
    (hbj : b ∈ sdp.blocks.getD j [])
    (hdisj : ∀ j1, j1 < sdp.dimensions.length → ∀ j2, j2 < sdp.dimensions.length →
      j1 ≠ j2 → ∀ b' ∈ sdp.blocks.getD j1 [], b' ∉ sdp.blocks.getD j2 [])
    (hVcols : (sdp.bilinearBases.getD b matrixD).cols = sdp.degrees.getD j 0 + 1)
    (hVpos : 0 < (sdp.bilinearBases.getD b matrixD).rows)
    (hZrows : Zb.rows
      = sdp.dimensions.getD j 0 * (sdp.bilinearBases.getD b matrixD).rows)
    (hZzero : ∀ i, Zb.elements i = 0)
    {a c : ℕ} (ha : a < Zb.rows) (hc : c < Zb.rows) :
    (applySets Zb
        (((cmwsRuns sdp.dimensions sdp.degrees).filter
            (fun run => decide (b ∈ sdp.blocks.getD run.1 []))).flatMap
          (fun run => dctWrites
            (fun n => (standardBasis
                (startOffset sdp.dimensions sdp.degrees sdp.dimensions.length)
                (startOffset sdp.dimensions sdp.degrees j
                  + (triangle t.s + t.r) * (sdp.degrees.getD j 0 + 1) + t.k)).getD
              (run.2.2.2 + n) 0)
            (sdp.bilinearBases.getD b matrixD) run.2.2.1 run.2.1))).get a c
      = if a / (sdp.bilinearBases.getD b matrixD).rows = t.r
            ∧ c / (sdp.bilinearBases.getD b matrixD).rows = t.s then
          (sdp.bilinearBases.getD b matrixD).get
              (a % (sdp.bilinearBases.getD b matrixD).rows) t.k
            * (sdp.bilinearBases.getD b matrixD).get
              (c % (sdp.bilinearBases.getD b matrixD).rows) t.k
        else 0 := by
  have hP : ∀ j' < sdp.dimensions.length,
      ((fun j' => decide (b ∈ sdp.blocks.getD j' [])) j' = true ↔ j' = j) := by
    intro j' hj'
    simp only [decide_eq_true_eq]
    constructor
    · intro hmem
      by_contra hne
      exact hdisj j hj j' hj' (fun h => hne h.symm) b hbj hmem
    · rintro rfl
      exact hbj
  have hW : (((cmwsRuns sdp.dimensions sdp.degrees).filter
        (fun run => decide (b ∈ sdp.blocks.getD run.1 []))).flatMap
      (fun run => dctWrites
        (fun n => (standardBasis
            (startOffset sdp.dimensions sdp.degrees sdp.dimensions.length)
            (startOffset sdp.dimensions sdp.degrees j
              + (triangle t.s + t.r) * (sdp.degrees.getD j 0 + 1) + t.k)).getD
          (run.2.2.2 + n) 0)
        (sdp.bilinearBases.getD b matrixD) run.2.2.1 run.2.1))
      = (List.range (sdp.dimensions.getD j 0)).flatMap (fun s =>
          (List.range (s + 1)).flatMap (fun r =>
            dctWrites
              (fun n => (standardBasis
                  (startOffset sdp.dimensions sdp.degrees sdp.dimensions.length)
                  (startOffset sdp.dimensions sdp.degrees j
                    + (triangle t.s + t.r) * (sdp.degrees.getD j 0 + 1) + t.k)).getD
                (startOffset sdp.dimensions sdp.degrees j
                  + (triangle s + r) * (sdp.degrees.getD j 0 + 1) + n) 0)
              (sdp.bilinearBases.getD b matrixD) r s)) := by
    rw [cmwsRuns_filter sdp.dimensions sdp.degrees _ j hj hP, List.flatMap_assoc]
    refine List.flatMap_congr (fun s hs => ?_)
    rw [List.flatMap_map]
  rw [hW]
  rw [group_writes_get
    (fun s r n => (standardBasis
        (startOffset sdp.dimensions sdp.degrees sdp.dimensions.length)
        (startOffset sdp.dimensions sdp.degrees j
          + (triangle t.s + t.r) * (sdp.degrees.getD j 0 + 1) + t.k)).getD
      (startOffset sdp.dimensions sdp.degrees j
        + (triangle s + r) * (sdp.degrees.getD j 0 + 1) + n) 0)
    (sdp.bilinearBases.getD b matrixD) (sdp.dimensions.getD j 0) Zb hVpos hZrows
    (by rw [← hZrows]; exact ha) (by rw [← hZrows]; exact hc)]
  have hadim : a / (sdp.bilinearBases.getD b matrixD).rows < sdp.dimensions.getD j 0 :=
    (Nat.div_lt_iff_lt_mul hVpos).mpr (by rw [← hZrows]; exact ha)
  have hcdim : c / (sdp.bilinearBases.getD b matrixD).rows < sdp.dimensions.getD j 0 :=
    (Nat.div_lt_iff_lt_mul hVpos).mpr (by rw [← hZrows]; exact hc)
  by_cases hcond : a / (sdp.bilinearBases.getD b matrixD).rows = t.r
      ∧ c / (sdp.bilinearBases.getD b matrixD).rows = t.s
  · have hle : a / (sdp.bilinearBases.getD b matrixD).rows
        ≤ c / (sdp.bilinearBases.getD b matrixD).rows := by
      rw [hcond.1, hcond.2]
      exact htr
    rw [if_pos hle,
      dctTmp_basis_eval sdp.dimensions sdp.degrees (sdp.bilinearBases.getD b matrixD)
        j t.r t.s t.k hj htr hts htk
        j (c / (sdp.bilinearBases.getD b matrixD).rows)
        (a / (sdp.bilinearBases.getD b matrixD).rows) hj hle hcdim hVcols _ _,
      if_pos ⟨rfl, hcond.2, hcond.1⟩, if_pos hcond]
  · rw [if_neg hcond]
    by_cases hle : a / (sdp.bilinearBases.getD b matrixD).rows
        ≤ c / (sdp.bilinearBases.getD b matrixD).rows
    · rw [if_pos hle,
        dctTmp_basis_eval sdp.dimensions sdp.degrees (sdp.bilinearBases.getD b matrixD)
          j t.r t.s t.k hj htr hts htk
          j (c / (sdp.bilinearBases.getD b matrixD).rows)
          (a / (sdp.bilinearBases.getD b matrixD).rows) hj hle hcdim hVcols _ _,
        if_neg ?_]
      rintro ⟨-, h2, h3⟩
      exact hcond ⟨h3, h2⟩
    · rw [if_neg hle]
      exact hZzero _

/-- A block outside the selected tuple's group receives only zero-valued
writes: its buffer stays identically zero. -/
theorem cmws_writes_block_out (sdp : SDP) (Zb : Matrix) (j : ℕ) (t : IndexTuple) (b : ℕ)
    (hj : j < sdp.dimensions.length)
    (htr : t.r ≤ t.s) (hts : t.s < sdp.dimensions.getD j 0)
    (htk : t.k ≤ sdp.degrees.getD j 0)
    (hbj : b ∉ sdp.blocks.getD j [])
    (hbcols : ∀ j' < sdp.dimensions.length, ∀ b' ∈ sdp.blocks.getD j' [],
      (sdp.bilinearBases.getD b' matrixD).cols = sdp.degrees.getD j' 0 + 1)
    (hZzero : ∀ i, Zb.elements i = 0) :
    ∀ i, (applySets Zb
        (((cmwsRuns sdp.dimensions sdp.degrees).filter
            (fun run => decide (b ∈ sdp.blocks.getD run.1 []))).flatMap
          (fun run => dctWrites
            (fun n => (standardBasis
                (startOffset sdp.dimensions sdp.degrees sdp.dimensions.length)
                (startOffset sdp.dimensions sdp.degrees j
                  + (triangle t.s + t.r) * (sdp.degrees.getD j 0 + 1) + t.k)).getD
              (run.2.2.2 + n) 0)
            (sdp.bilinearBases.getD b matrixD) run.2.2.1 run.2.1))).elements i = 0 := by
  refine applySets_zero Zb _ hZzero ?_
  intro w hw
  simp only [List.mem_flatMap, List.mem_filter] at hw
  obtain ⟨run, ⟨hrun, hbm⟩, hw⟩ := hw
  obtain ⟨hj', hs', hr', hbase⟩ := mem_cmwsRuns hrun
  obtain ⟨u, v, hu, hv, rfl⟩ := dctWrites_shape _ _ _ _ w hw
  have hbm' : b ∈ sdp.blocks.getD run.1 [] := by simpa using hbm
  have hcols' := hbcols run.1 hj' b hbm'
  show dctTmp _ (sdp.bilinearBases.getD b matrixD) u v = 0
  rw [hbase,
    dctTmp_basis_eval sdp.dimensions sdp.degrees (sdp.bilinearBases.getD b matrixD)
      j t.r t.s t.k hj htr hts htk
      run.1 run.2.1 run.2.2.1 hj' hr' hs' hcols' u v,
    if_neg ?_]
  rintro ⟨h1, -, -⟩
  exact hbj (h1 ▸ hbm')

/-- **C4**: for every constraint index `p` (the `p` of a tuple `t` of
group `j`), `constraintMatrixWeightedSum` applied to the standard basis
vector `e_p` produces exactly the constraint matrix `F_p` that
`printSDPData` constructs for `t`: the result is `some` (the internal
`assert(p == x.size())` holds), its diagonal prefix is
`polMatrixValues[p,·]`, and every in-range entry of every PSD block agrees
with `F_p`'s (the symmetrized outer product of the `k`-th basis column
over block position `(r, s)` for the group's blocks, and zero
elsewhere).  The shape hypotheses are the invariants `bootstrapSDP`
establishes: zero-initialized templates of matching dimensions, per-group
block lists disjoint and duplicate-free, and bases with `degree[j]+1`
columns. -/
theorem constraintMatrixWeightedSum_spec
    (sdp : SDP) (Z F : BlockDiagonalMatrix) (j : ℕ) (t : IndexTuple)
    (hj : j < sdp.dimensions.length)
    (ht : t ∈ (initializeConstraintIndices sdp.dimensions sdp.degrees).getD j [])
    (hZd : Z.diagonalPart.length = sdp.polMatrixValues.cols)
    (hFd : F.diagonalPart.length = sdp.polMatrixValues.cols)
    (hFlen : F.blocks.length = Z.blocks.length)
    (hFrows : ∀ b, b < Z.blocks.length →
      (F.blocks.getD b matrixD).rows = (Z.blocks.getD b matrixD).rows)
    (hZzero : ∀ b, b < Z.blocks.length → ∀ i, (Z.blocks.getD b matrixD).elements i = 0)
    (hnodup : ∀ j', j' < sdp.dimensions.length → (sdp.blocks.getD j' []).Nodup)
    (hdisj : ∀ j1, j1 < sdp.dimensions.length → ∀ j2, j2 < sdp.dimensions.length →
      j1 ≠ j2 → ∀ b' ∈ sdp.blocks.getD j1 [], b' ∉ sdp.blocks.getD j2 [])
    (hbcols : ∀ j', j' < sdp.dimensions.length → ∀ b' ∈ sdp.blocks.getD j' [],
      (sdp.bilinearBases.getD b' matrixD).cols = sdp.degrees.getD j' 0 + 1)
    (hbpos : ∀ j', j' < sdp.dimensions.length → ∀ b' ∈ sdp.blocks.getD j' [],
      0 < (sdp.bilinearBases.getD b' matrixD).rows)
    (hshape : ∀ j', j' < sdp.dimensions.length → ∀ b' ∈ sdp.blocks.getD j' [],
      (Z.blocks.getD b' matrixD).rows
        = sdp.dimensions.getD j' 0 * (sdp.bilinearBases.getD b' matrixD).rows) :
    ∃ G, constraintMatrixWeightedSum sdp
        (standardBasis (startOffset sdp.dimensions sdp.degrees sdp.dimensions.length) t.p)
        Z = some G
      ∧ (∀ n, n < sdp.polMatrixValues.cols →
          G.diagonalPart.getD n 0 = sdp.polMatrixValues.get t.p n)
      ∧ G.diagonalPart = (printSDPDataF sdp j t F).diagonalPart
      ∧ (∀ b, b < Z.blocks.length →
          ∀ a, a < (Z.blocks.getD b matrixD).rows →
          ∀ c, c < (Z.blocks.getD b matrixD).rows →
            (G.blocks.getD b matrixD).get a c
              = ((printSDPDataF sdp j t F).blocks.getD b matrixD).get a c) := by
  obtain ⟨htr, hts, htk, htp, hlo, hhi⟩ := cit_mem_struct sdp.dimensions sdp.degrees hj ht
  have hpN : t.p < startOffset sdp.dimensions sdp.degrees sdp.dimensions.length :=
    cit_p_lt sdp.dimensions sdp.degrees hj ht
  have htp' : t.p = startOffset sdp.dimensions sdp.degrees j
      + (triangle t.s + t.r) * (sdp.degrees.getD j 0 + 1) + t.k := by
    rw [htp]
    ring
  have hmain : constraintMatrixWeightedSum sdp
      (standardBasis (startOffset sdp.dimensions sdp.degrees sdp.dimensions.length) t.p) Z
      = some (BlockDiagonalMatrix.symmetrize
          ⟨(List.range Z.diagonalPart.length).foldl
              (fun v n => v.set n (∑ p ∈ Finset.range
                (standardBasis (startOffset sdp.dimensions sdp.degrees
                  sdp.dimensions.length) t.p).length,
                (standardBasis (startOffset sdp.dimensions sdp.degrees
                  sdp.dimensions.length) t.p).getD p 0 * sdp.polMatrixValues.get p n))
              Z.diagonalPart,
           (cmwsRuns sdp.dimensions sdp.degrees).foldl
              (cmwsRunUpdate sdp
                (standardBasis (startOffset sdp.dimensions sdp.degrees
                  sdp.dimensions.length) t.p))
              Z.blocks⟩) := by
    simp only [constraintMatrixWeightedSum]
    rw [cmwsBlockPhase_eq]
    dsimp only
    rw [standardBasis_length, if_pos rfl]
  have hdg : (List.range Z.diagonalPart.length).foldl
      (fun v n => v.set n (∑ p ∈ Finset.range
        (standardBasis (startOffset sdp.dimensions sdp.degrees
          sdp.dimensions.length) t.p).length,
        (standardBasis (startOffset sdp.dimensions sdp.degrees
          sdp.dimensions.length) t.p).getD p 0 * sdp.polMatrixValues.get p n))
      Z.diagonalPart
      = (List.range sdp.polMatrixValues.cols).map
          (fun n => sdp.polMatrixValues.get t.p n) := by
    rw [hZd, foldl_set_range_eq sdp.polMatrixValues.cols _ Z.diagonalPart hZd]
    refine List.map_congr_left (fun n hn => ?_)
    exact basis_dot_col sdp.polMatrixValues _ t.p n hpN
  have hpdg : (printSDPDataF sdp j t F).diagonalPart
      = (List.range sdp.polMatrixValues.cols).map
          (fun n => sdp.polMatrixValues.get t.p n) := by
    simp only [printSDPDataF]
    rw [foldl_set_range_eq sdp.polMatrixValues.cols _
      (F.diagonalPart.map (fun x => x * 0)) (by rw [List.length_map, hFd])]
  refine ⟨_, hmain, ?_, ?_, ?_⟩
  · -- diagonal values
    intro n hn
    simp only [BlockDiagonalMatrix.symmetrize]
    rw [hdg, getD_map_range _ sdp.polMatrixValues.cols n 0 hn]
  · -- diagonal equality with F_p
    simp only [BlockDiagonalMatrix.symmetrize]
    rw [hdg, hpdg]
  · -- block entries
    intro b hb a ha c hc
    simp only [BlockDiagonalMatrix.symmetrize]
    rw [getD_map_lt Matrix.symmetrize _ matrixD matrixD
      (by rw [runs_foldl_length]; exact hb)]
    rw [runs_foldl_getD sdp _ _ Z.blocks b hb
      (fun run hrun => hnodup run.1 (mem_cmwsRuns hrun).1)]
    rw [htp']
    simp only [printSDPDataF]
    rw [foldl_set_getD
      (fun b' M => (applySets M
        ((List.range (sdp.bilinearBases.getD b' matrixD).rows).flatMap (fun e =>
          (List.range (sdp.bilinearBases.getD b' matrixD).rows).map (fun f =>
            (t.r * (sdp.bilinearBases.getD b' matrixD).rows + e,
             t.s * (sdp.bilinearBases.getD b' matrixD).rows + f,
             (sdp.bilinearBases.getD b' matrixD).elements
                 (t.k * (sdp.bilinearBases.getD b' matrixD).rows + e)
               * (sdp.bilinearBases.getD b' matrixD).elements
                 (t.k * (sdp.bilinearBases.getD b' matrixD).rows + f)))))).symmetrize)
      (sdp.blocks.getD j [])
      (F.blocks.map (fun Mb => { Mb with elements := fun i => Mb.elements i * 0 }))
      b (by rw [List.length_map, hFlen]; exact hb) (hnodup j hj)]
    have hFzget : (F.blocks.map
        (fun Mb => { Mb with elements := fun i => Mb.elements i * 0 })).getD b matrixD
        = { F.blocks.getD b matrixD with
            elements := fun i => (F.blocks.getD b matrixD).elements i * 0 } :=
      getD_map_lt _ F.blocks matrixD matrixD (by rw [hFlen]; exact hb)
    by_cases hbj : b ∈ sdp.blocks.getD j []
    · rw [if_pos hbj]
      have hVpos := hbpos j hj b hbj
      have hVcols := hbcols j hj b hbj
      have hZbrows := hshape j hj b hbj
      have hFzrows : ((F.blocks.map
          (fun Mb => { Mb with elements := fun i => Mb.elements i * 0 })).getD
            b matrixD).rows = (Z.blocks.getD b matrixD).rows := by
        rw [hFzget]
        exact hFrows b hb
      have hq : ∀ e, (sdp.bilinearBases.getD b matrixD).get e t.k
          = (sdp.bilinearBases.getD b matrixD).elements
              (t.k * (sdp.bilinearBases.getD b matrixD).rows + e) :=
        fun e => congrArg (sdp.bilinearBases.getD b matrixD).elements
          (Nat.add_comm e (t.k * (sdp.bilinearBases.getD b matrixD).rows))
      refine symmetrize_get_congr _ _ ?_ ?_ ?_ ?_
      · rw [applySets_rows, applySets_rows]
        exact hFzrows
      · intro a' ha' c' hc'
        rw [applySets_rows] at ha' hc'
        rw [cmws_writes_block_in sdp (Z.blocks.getD b matrixD) j t b hj htr hts htk hbj
          hdisj hVcols hVpos hZbrows (hZzero b hb) ha' hc']
        rw [outer_writes_get
          (fun e => (sdp.bilinearBases.getD b matrixD).elements
            (t.k * (sdp.bilinearBases.getD b matrixD).rows + e))
          (sdp.dimensions.getD j 0) t.r t.s (sdp.bilinearBases.getD b matrixD) _
          hVpos (by omega) (hFzrows.trans hZbrows) (by rw [← hZbrows]; exact ha')]
        by_cases hcond : a' / (sdp.bilinearBases.getD b matrixD).rows = t.r
            ∧ c' / (sdp.bilinearBases.getD b matrixD).rows = t.s
        · rw [if_pos hcond, if_pos hcond, hq, hq]
        · rw [if_neg hcond, if_neg hcond, hFzget]
          exact (mul_zero _).symm
      · rw [applySets_rows]
        exact ha
      · rw [applySets_rows]
        exact hc
    · rw [if_neg hbj]
      rw [symmetrize_get_zero _
        (cmws_writes_block_out sdp (Z.blocks.getD b matrixD) j t b hj htr hts htk hbj
          hbcols (hZzero b hb))
        (by rw [applySets_rows]; exact ha) (by rw [applySets_rows]; exact hc)]
      rw [hFzget]
      exact (mul_zero _).symm

/-- Witness for C4 on the one-constraint sample SDP (`p = 0`). -/
theorem constraintMatrixWeightedSum_spec_witness :
    ∃ G, constraintMatrixWeightedSum cmwsSampleSDP
        (standardBasis (startOffset cmwsSampleSDP.dimensions cmwsSampleSDP.degrees
          cmwsSampleSDP.dimensions.length) 0) cmwsSampleZ = some G
      ∧ (∀ n, n < cmwsSampleSDP.polMatrixValues.cols →
          G.diagonalPart.getD n 0 = cmwsSampleSDP.polMatrixValues.get 0 n)
      ∧ G.diagonalPart
          = (printSDPDataF cmwsSampleSDP 0 ⟨0, 0, 0, 0⟩ cmwsSampleF).diagonalPart
      ∧ (∀ b, b < cmwsSampleZ.blocks.length →
          ∀ a, a < (cmwsSampleZ.blocks.getD b matrixD).rows →
          ∀ c, c < (cmwsSampleZ.blocks.getD b matrixD).rows →
            (G.blocks.getD b matrixD).get a c
              = ((printSDPDataF cmwsSampleSDP 0 ⟨0, 0, 0, 0⟩ cmwsSampleF).blocks.getD
                  b matrixD).get a c) :=
  constraintMatrixWeightedSum_spec cmwsSampleSDP cmwsSampleZ cmwsSampleF 0 ⟨0, 0, 0, 0⟩
    (by decide) (by decide) (by decide) (by decide) (by decide) (by decide)
    (by
      intro b hb i
      have hlen : cmwsSampleZ.blocks.length = 1 := rfl
      have hb0 : b = 0 := by omega
      subst hb0
      rfl)
    (by decide)
    (by
      intro j1 hj1 j2 hj2 hne b' hb1
      have h1 : cmwsSampleSDP.dimensions.length = 1 := rfl
      exact absurd (show j1 = j2 by omega) hne)
    (by decide) (by decide) (by decide)

end SDPB
